import Mathlib

/-!
# PicoDrive libretro adapter: save-state stream, cheats, disk manager, frame pump

A shallow embedding of the parts of `platform/libretro/libretro.c` that the
properties below talk about, followed by the properties themselves.

Conventions of the embedding:

* C strings are `List Char` (the characters before the terminating NUL);
  a `NULL` pointer is `none`.
* Memory behind a pointer is a function from byte offset (or element index) to
  value.
* `size_t` is 64 bits wide and `int` 32 bits wide (LP64); arithmetic on them is
  written with an explicit modulus where it can wrap.
* Functions and constants of the emulation engine that are only declared in this
  file (`decode`, `PicoCdCheck`, `cdd_load`, `CT_UNKNOWN`, the `GBTN_*` numbers) are
  parameters of the definitions that use them.
* `strdup` is taken to succeed; `realloc`, whose failure `retro_cheat_set` tests
  for, is the parameter `realloc_ok`.
* The static `log_cb` (line 80), which `retro_init` sets to the frontend's log
  function or, when the frontend offers none, to `NULL` (lines 2151-2154), is the
  parameter `log_cb : Bool` of the definitions that call it without a test; it is
  `false` for `NULL`. The calls behind `if (log_cb)` change nothing and are left out.
* A call whose behaviour is undefined in C (an array overrun, a block released
  twice, a call through a `NULL` function pointer) has the result `none`; so has a
  loop that runs out of fuel, and the theorems show that the fuel the callers pass
  is enough.
* A counted `for` loop is a recursion on the number of iterations left.
-/

namespace Libretro

/-! ## Machine integers -/

/-- Number of values of a `size_t` (and of a `long`) on an LP64 target. -/
def SIZE_MOD : Nat := 18446744073709551616

/-- Number of values of a 32-bit `int`. -/
def INT_MOD : Nat := 4294967296

/-- The conversion `(int)x` of an unsigned value: the low 32 bits read as a
two's-complement number. -/
def toInt32 (x : Nat) : Int :=
  if x % INT_MOD < 2147483648 then ((x % INT_MOD : Nat) : Int)
  else ((x % INT_MOD : Nat) : Int) - 4294967296

/-- The conversion of a `long` to `size_t`. -/
def ofLong (offset : Int) : Nat := (offset % (SIZE_MOD : Int)).toNat

/-- Unsigned `a + b` on `size_t`. -/
def addSize (a b : Nat) : Nat := (a + b) % SIZE_MOD

/-- Unsigned `a - b` on `size_t`. -/
def subSize (a b : Nat) : Nat := (a % SIZE_MOD + (SIZE_MOD - b % SIZE_MOD)) % SIZE_MOD

/-! ## Save-state stream (`struct savestate_state`, lines 805-925) -/

/-- The fields of `struct savestate_state`. The two buffers are the memory behind
`load_buf` and `save_buf`, indexed by byte offset (offsets wrap like pointers). -/
structure savestate_state where
  load_buf : Nat → Nat
  save_buf : Nat → Nat
  size : Nat
  pos : Nat

/-- Outcome of one stream callback: the returned count, the caller's memory `p`
and the stream afterwards. -/
structure rw_result where
  ret : Nat
  p : Nat → Nat
  state : savestate_state

/-- The call `memcpy(p, buf + pos, n)`: the first `n` bytes of `p` are replaced by
the bytes of `buf` at offsets `pos, pos+1, ...` (wrapping). -/
def memcpy_from (buf : Nat → Nat) (pos n : Nat) (p : Nat → Nat) : Nat → Nat :=
  fun i => if i < n then buf ((pos + i) % SIZE_MOD) else p i

/-- The call `memcpy(buf + pos, p, n)`: offset `a` of `buf` is overwritten when
`a = pos + i` (wrapping) for some `i < n`. -/
def memcpy_to (buf : Nat → Nat) (pos n : Nat) (p : Nat → Nat) : Nat → Nat :=
  fun a => if a < SIZE_MOD ∧ subSize a pos < n then p (subSize a pos) else buf a

/-- The function `state_read` (lines 813-830). -/
def state_read (p : Nat → Nat) (size nmemb : Nat) (state : savestate_state) : rw_result :=
  let bsize := (size * nmemb) % SIZE_MOD
  if addSize state.pos bsize > state.size then
    let bsize := subSize state.size state.pos
    if toInt32 bsize ≤ 0 then
      { ret := 0, p := p, state := state }
    else
      { ret := bsize
        p := memcpy_from state.load_buf state.pos bsize p
        state := { state with pos := addSize state.pos bsize } }
  else
    { ret := bsize
      p := memcpy_from state.load_buf state.pos bsize p
      state := { state with pos := addSize state.pos bsize } }

/-- The function `state_write` (lines 832-849). -/
def state_write (p : Nat → Nat) (size nmemb : Nat) (state : savestate_state) : rw_result :=
  let bsize := (size * nmemb) % SIZE_MOD
  if addSize state.pos bsize > state.size then
    let bsize := subSize state.size state.pos
    if toInt32 bsize ≤ 0 then
      { ret := 0, p := p, state := state }
    else
      { ret := bsize
        p := p
        state := { state with save_buf := memcpy_to state.save_buf state.pos bsize p
                              pos := addSize state.pos bsize } }
  else
    { ret := bsize
      p := p
      state := { state with save_buf := memcpy_to state.save_buf state.pos bsize p
                            pos := addSize state.pos bsize } }

/-- The function `state_skip` (lines 851-858). -/
def state_skip (p : Nat → Nat) (size nmemb : Nat) (state : savestate_state) : rw_result :=
  let bsize := (size * nmemb) % SIZE_MOD
  { ret := bsize, p := p, state := { state with pos := addSize state.pos bsize } }

/-- The function `state_eof` (lines 860-865); the stream is not changed. -/
def state_eof (state : savestate_state) : Nat × savestate_state :=
  (if state.pos ≥ state.size then 1 else 0, state)

/-- Values of `whence`. -/
inductive Whence where
  | SEEK_SET
  | SEEK_CUR
  | SEEK_END
  deriving DecidableEq, Repr

/-- The function `state_fseek` (lines 867-883): the returned `int` and the stream. -/
def state_fseek (state : savestate_state) (offset : Int) (whence : Whence) :
    Int × savestate_state :=
  let state' : savestate_state :=
    match whence with
    | Whence.SEEK_SET => { state with pos := ofLong offset }
    | Whence.SEEK_CUR => { state with pos := addSize state.pos (ofLong offset) }
    | Whence.SEEK_END => { state with pos := addSize state.size (ofLong offset) }
  (toInt32 state'.pos, state')

/-- One write request of the engine's serializer: `write(p, size, nmemb, file)`. -/
structure write_req where
  p : Nat → Nat
  size : Nat
  nmemb : Nat

/-- Bytes asked for by a request, as the callbacks compute it (`size * nmemb` on `size_t`). -/
def write_req.bsize (r : write_req) : Nat := (r.size * r.nmemb) % SIZE_MOD

/-- Modelled from the spec: `PicoStateFP(&state, 1, NULL, write, NULL, seek)` is the
engine's serializer, which is not part of this file. Saving is a sequence of write
requests handed to the `write` callback it was given; the result is the stream
afterwards together with the value each request returned. -/
def PicoStateFP_save (reqs : List write_req)
    (write : (Nat → Nat) → Nat → Nat → savestate_state → rw_result)
    (state : savestate_state) : savestate_state × List Nat :=
  match reqs with
  | [] => (state, [])
  | r :: rest =>
    let out := write r.p r.size r.nmemb state
    let tail := PicoStateFP_save rest write out.state
    (tail.1, out.ret :: tail.2)

/-- The value `struct savestate_state state = { 0, }`. -/
def savestate_zero : savestate_state :=
  { load_buf := fun _ => 0, save_buf := fun _ => 0, size := 0, pos := 0 }

/-- The function `retro_serialize_size` (lines 887-897) on the path where the
serializer reports success: the cursor after the skip-only pass. -/
def retro_serialize_size (reqs : List write_req) : Nat :=
  (PicoStateFP_save reqs state_skip savestate_zero).1.pos

/-- The function `retro_serialize` (lines 899-911): the serializer run with
`state_write` over the buffer `data` of `size` bytes. -/
def retro_serialize (reqs : List write_req) (data : Nat → Nat) (size : Nat) :
    savestate_state × List Nat :=
  PicoStateFP_save reqs state_write { savestate_zero with save_buf := data, size := size, pos := 0 }

/-- Requests for examples: 4 bytes of value 1, then 2 * 3 bytes of value 2, then 0 * 5
bytes. -/
def write_reqs_sample : List write_req :=
  [⟨fun _ => 1, 4, 1⟩, ⟨fun _ => 2, 2, 3⟩, ⟨fun _ => 3, 0, 5⟩]

/-! ## Disk manager (lines 1008-1345) -/

/-- The macro `SLASH` (lines 129-133) of a build that is not for Windows. -/
def SLASH : Char := '/'

/-- The macro `PATH_MAX` as lines 93-95 define it when the platform does not. -/
def PATH_MAX : Nat := 4096

/-- One element of `disks[8]` (lines 1014-1017): `none` is a `NULL` pointer. -/
structure disks_state where
  fname : Option (List Char)
  flabel : Option (List Char)
  deriving DecidableEq, Repr

/-- The static variables of the disk manager (lines 1010-1017). -/
structure disk_manager where
  disk_ejected : Bool
  disk_current_index : Nat
  disk_count : Nat
  disks : Fin 8 → disks_state

/-- The functions and the enumerator of the emulation engine that
`disk_set_image_index` uses; they are declared outside this file. `PicoCdCheck`
returns an `enum cd_track_type`, `cdd_load` an `int`. -/
structure cd_engine where
  PicoCdCheck : List Char → Int
  cdd_load : List Char → Int → Int
  CT_UNKNOWN : Int

/-- A call into the engine's media code, as recorded while a function runs. -/
inductive media_call where
  | PicoCdCheck (fname : List Char)
  | cdd_load (fname : List Char) (type : Int)
  deriving DecidableEq, Repr

/-- Outcome of a disk-control callback: the returned `bool`, the disk manager
afterwards and the calls made into the engine's media code, in order. -/
structure disk_result where
  ret : Bool
  state : disk_manager
  calls : List media_call

/-- The call `strrchr(s, c)` for a character `c` other than NUL: the index of the
last occurrence of `c` in `s`. -/
def strrchr : List Char → Char → Option Nat
  | [], _ => none
  | x :: xs, c =>
    match strrchr xs c with
    | some i => some (i + 1)
    | none => if x = c then some 0 else none

/-- The function `get_disk_label` (lines 1019-1039): the contents of `disk_label`
afterwards. Every call passes `PATH_MAX` for `len`; the embedding is of calls with
`len` at least 1 (with 0 the C code would index `disk_label[len - 1]` out of bounds). -/
def get_disk_label (disk_label : List Char) (disk_path : Option (List Char)) (len : Nat) :
    List Char :=
  match disk_path with
  | none => disk_label
  | some [] => disk_label
  | some (c :: cs) =>
    let base := match strrchr (c :: cs) SLASH with
      | some i => (c :: cs).drop i
      | none => c :: cs
    let base := if base.head? = some SLASH then base.drop 1 else base
    let label := base.take (len - 1)
    match strrchr label '.' with
    | some i => label.take i
    | none => label

/-- The function `disk_init` (lines 1041-1062). -/
def disk_init (_s : disk_manager) : disk_manager :=
  { disk_ejected := false
    disk_current_index := 0
    disk_count := 0
    disks := fun _ => { fname := none, flabel := none } }

/-- The function `disk_set_eject_state` (lines 1064-1069). -/
def disk_set_eject_state (ejected : Bool) (s : disk_manager) : Bool × disk_manager :=
  (true, { s with disk_ejected := ejected })

/-- The function `disk_get_eject_state` (lines 1071-1074). -/
def disk_get_eject_state (s : disk_manager) : Bool := s.disk_ejected

/-- The function `disk_get_image_index` (lines 1076-1079). -/
def disk_get_image_index (s : disk_manager) : Nat := s.disk_current_index

/-- The function `disk_get_num_images` (lines 1117-1120). -/
def disk_get_num_images (s : disk_manager) : Nat := s.disk_count

/-- The function `disk_set_image_index` (lines 1081-1115). -/
def disk_set_image_index (e : cd_engine) (index : Nat) (s : disk_manager) : disk_result :=
  if h : index < 8 then
    match (s.disks ⟨index, h⟩).fname with
    | none => { ret := true, state := { s with disk_current_index := index }, calls := [] }
    | some fname =>
      let cd_type := e.PicoCdCheck fname
      if cd_type ≥ 0 ∧ cd_type ≠ e.CT_UNKNOWN then
        if e.cdd_load fname cd_type ≠ 0 then
          { ret := false, state := s
            calls := [media_call.PicoCdCheck fname, media_call.cdd_load fname cd_type] }
        else
          { ret := true, state := { s with disk_current_index := index }
            calls := [media_call.PicoCdCheck fname, media_call.cdd_load fname cd_type] }
      else
        { ret := false, state := s, calls := [media_call.PicoCdCheck fname] }
  else
    { ret := false, state := s, calls := [] }

/-- The function `disk_replace_image_index` (lines 1122-1163). The argument is
`none` for a `NULL` info and the string `info->path` otherwise. Lines 1135-1141
release the blocks of the slot; lines 1156-1160 release `old_fname` and `old_flabel`,
which still point at those blocks, a second time: when the slot held a path or a
label the behaviour of the call is undefined, which is the result `none`. -/
def disk_replace_image_index (e : cd_engine) (index : Nat) (info : Option (List Char))
    (s : disk_manager) : Option disk_result :=
  if h : index < 8 then
    let old_fname := (s.disks ⟨index, h⟩).fname
    let old_flabel := (s.disks ⟨index, h⟩).flabel
    let s1 : disk_manager :=
      { s with disks := Function.update s.disks ⟨index, h⟩ { fname := none, flabel := none } }
    let r : disk_result :=
      match info with
      | none => { ret := true, state := s1, calls := [] }
      | some path =>
        let disk_label := get_disk_label [] (some path) PATH_MAX
        let s2 : disk_manager :=
          { s1 with disks := Function.update s1.disks ⟨index, h⟩
                      { fname := some path, flabel := some disk_label } }
        if index = s2.disk_current_index then disk_set_image_index e index s2
        else { ret := true, state := s2, calls := [] }
    if old_fname.isSome ∨ old_flabel.isSome then none else some r
  else
    some { ret := false, state := s, calls := [] }

/-- The function `disk_add_image_index` (lines 1165-1172). -/
def disk_add_image_index (s : disk_manager) : Bool × disk_manager :=
  if s.disk_count ≥ 8 then (false, s)
  else (true, { s with disk_count := s.disk_count + 1 })

/-- The call `strncpy(dst, src, n)` on a buffer held as a function from index to
character: the first `n` characters of `dst` become those of `src`, padded with NUL. -/
def strncpy (dst : Nat → Char) (src : List Char) (n : Nat) : Nat → Char :=
  fun i => if i < n then src.getD i (Char.ofNat 0) else dst i

/-- The function `disk_get_image_path` (lines 1190-1209): the returned `bool` and the
buffer `path` afterwards. -/
def disk_get_image_path (index : Nat) (path : Nat → Char) (len : Nat) (s : disk_manager) :
    Bool × (Nat → Char) :=
  if len < 1 then (false, path)
  else if h : index < 8 then
    match (s.disks ⟨index, h⟩).fname with
    | none => (false, path)
    | some [] => (false, path)
    | some (c :: cs) =>
      (true, Function.update (strncpy path (c :: cs) (len - 1)) (len - 1) (Char.ofNat 0))
  else (false, path)

/-- The function `disk_get_image_label` (lines 1211-1230). -/
def disk_get_image_label (index : Nat) (label : Nat → Char) (len : Nat) (s : disk_manager) :
    Bool × (Nat → Char) :=
  if len < 1 then (false, label)
  else if h : index < 8 then
    match (s.disks ⟨index, h⟩).flabel with
    | none => (false, label)
    | some [] => (false, label)
    | some (c :: cs) =>
      (true, Function.update (strncpy label (c :: cs) (len - 1)) (len - 1) (Char.ofNat 0))
  else (false, label)

/-- The disk-manager part of `retro_unload_game` (lines 1671-1673): the body is empty. -/
def retro_unload_game (s : disk_manager) : disk_manager := s

/-- The disk-manager part of `retro_deinit` (line 2237). -/
def retro_deinit (s : disk_manager) : disk_manager := disk_init s

/-! ## Playlist reader (lines 1309-1345) -/

/-- The characters `fgets` stores: at most `n` of them, stopping after a newline;
the second component is what is left of the file. -/
def fgets_chars : Nat → List Char → List Char × List Char
  | 0, f => ([], f)
  | _ + 1, [] => ([], [])
  | n + 1, c :: f =>
    if c = '\n' then ([c], f)
    else ((c :: (fgets_chars n f).1), (fgets_chars n f).2)

/-- The call `fgets(line, size, f)` on a file held as the list of the characters
still to be read: `none` at end of file, otherwise the characters stored in `line`
(at most `size - 1`) and the rest of the file. -/
def fgets (size : Nat) (f : List Char) : Option (List Char × List Char) :=
  match f with
  | [] => none
  | c :: cs => some (fgets_chars (size - 1) (c :: cs))

/-- The C string held by a buffer into which `buf` and a NUL were stored: the
characters before the first NUL. -/
def c_str (buf : List Char) : List Char := buf.takeWhile (fun c => c ≠ Char.ofNat 0)

/-- The statements `p = strchr(line, c); if (p) *p = 0;` (lines 1321-1326): the
string is cut at the first `c`. -/
def cut_at (line : List Char) (c : Char) : List Char := line.takeWhile (fun x => x ≠ c)

/-- The call `snprintf(name, size, "%s%c%s", a, c, b)`: the string stored in `name`. -/
def snprintf_scs (size : Nat) (a : List Char) (c : Char) (b : List Char) : List Char :=
  (a ++ c :: b).take (size - 1)

/-- The loop of `read_m3u` (lines 1317-1341) on the part `f` of the file still to be
read; `none` when `fuel` iterations were not enough to reach the end of the loop. -/
def read_m3u_loop (base_dir : List Char) : Nat → List Char → disk_manager → Option disk_manager
  | 0, _, _ => none
  | fuel + 1, f, s =>
    match fgets 1024 f with
    | none => some s
    | some (line, rest) =>
      if h : s.disk_count < 8 then
        if line.head? = some '#' then read_m3u_loop base_dir fuel rest s
        else
          let line := cut_at (cut_at (c_str line) '\r') '\n'
          if line ≠ [] then
            let name := snprintf_scs PATH_MAX base_dir SLASH line
            let disk_label := get_disk_label [] (some name) PATH_MAX
            read_m3u_loop base_dir fuel rest
              { s with disks := Function.update s.disks ⟨s.disk_count, h⟩
                          { fname := some name, flabel := some disk_label }
                       disk_count := s.disk_count + 1 }
          else read_m3u_loop base_dir fuel rest s
      else some s

/-- The function `read_m3u` (lines 1309-1345). The argument `file` is `none` when
`fopen` fails and the contents of the file otherwise; `base_dir` is the static buffer
of that name. Every iteration of the loop reads at least one character, so
`file.length + 1` iterations reach its end. -/
def read_m3u (base_dir : List Char) (file : Option (List Char)) (s : disk_manager) :
    Option (Bool × disk_manager) :=
  match file with
  | none => some (false, s)
  | some f =>
    (read_m3u_loop base_dir (f.length + 1) f s).map (fun s1 => (decide (s1.disk_count ≠ 0), s1))

/-- The contents of a text file given as its lines, each ended by a newline. -/
def file_of_lines (lines : List (List Char)) : List Char :=
  lines.flatMap (fun l => l ++ ['\n'])

/-- The disk manager with every slot empty and no disk counted. -/
def disk_manager_empty : disk_manager :=
  { disk_ejected := false, disk_current_index := 0, disk_count := 0
    disks := fun _ => { fname := none, flabel := none } }

/-- A disk manager whose slot 0 holds the path `a.cue` and the label `a`, with one
disk counted. -/
def disk_manager_one : disk_manager :=
  { disk_ejected := false, disk_current_index := 0, disk_count := 1
    disks := Function.update (fun _ => { fname := none, flabel := none }) 0
      { fname := some ['a', '.', 'c', 'u', 'e'], flabel := some ['a'] } }

/-- The lines of a text file: its contents split at the newlines. -/
def file_lines (f : List Char) : List (List Char) := f.splitOn '\n'

/-- A line with its trailing CR and LF characters stripped, as the specification words
it. -/
def strip_trailing_crlf (l : List Char) : List Char :=
  (l.reverse.dropWhile (fun c => c = '\r' ∨ c = '\n')).reverse

/-- A line that counts as a playlist entry as the specification words it: it does not
start with `#` and is not empty once its trailing CR/LF is stripped. -/
def claimed_entry (l : List Char) : Bool :=
  decide (l.head? ≠ some '#' ∧ strip_trailing_crlf l ≠ [])

/-- The name `read_m3u` takes from a line: the line cut at its first NUL or CR. -/
def entry_name (l : List Char) : List Char := cut_at (c_str l) '\r'

/-- A line from which `read_m3u` makes an entry: it does not start with `#` and is not
empty once cut at its first NUL or CR. -/
def playlist_entry (l : List Char) : Bool :=
  decide (l.head? ≠ some '#' ∧ entry_name l ≠ [])

/-- The slot `read_m3u` stores for the line `l` (lines 1333-1337). -/
def slot_of (base_dir : List Char) (l : List Char) : disks_state :=
  { fname := some (snprintf_scs PATH_MAX base_dir SLASH (entry_name l))
    flabel := some (get_disk_label [] (some (snprintf_scs PATH_MAX base_dir SLASH (entry_name l)))
      PATH_MAX) }

/-! ## Cheats (lines 927-1006) -/

/-- The fields of `struct patch` (lines 927-932). -/
structure patch where
  addr : Nat
  data : Nat
  comp : Nat
  deriving DecidableEq, Repr

/-- Modelled from the spec: `struct PicoPatch`, the element type of the engine's patch
list, is declared outside this file; these are the fields this file assigns. -/
structure PicoPatch where
  code : List Char
  active : Bool
  addr : Nat
  data : Nat
  data_old : Nat
  comp : Nat
  deriving DecidableEq, Repr

/-- The memory the cheat functions touch: the patch list (`PicoPatches` with its
`PicoPatchCount` entries), the bytes of `Pico.rom`, `Pico.romsize`, and the live
memory behind `m68k_read16` and `m68k_write16`. -/
structure cheat_state where
  PicoPatches : List PicoPatch
  rom : Nat → Nat
  romsize : Nat
  bus : Nat → Nat

/-- A store the cheat functions make, as recorded while a function runs. -/
inductive mem_write where
  | rom (addr : Nat) (data : Nat)
  | bus (addr : Nat) (data : Nat)
  deriving DecidableEq, Repr

/-- The read `*(uint16_t *)(Pico.rom + addr)` on a little-endian host. -/
def rom_read16 (rom : Nat → Nat) (addr : Nat) : Nat :=
  rom addr % 256 + 256 * (rom (addr + 1) % 256)

/-- The store `*(unsigned short *)(Pico.rom + addr) = d` on a little-endian host. -/
def rom_write16 (rom : Nat → Nat) (addr : Nat) (d : Nat) : Nat → Nat :=
  fun a => if a = addr then d % 256 else if a = addr + 1 then d / 256 % 256 else rom a

/-- Modelled from the spec: `m68k_read16` is the engine's bus read, outside this file;
live memory is a store of 16-bit values keyed by address. -/
def m68k_read16 (bus : Nat → Nat) (a : Nat) : Nat := bus a % 65536

/-- Modelled from the spec: `m68k_write16` is the engine's bus write, outside this
file; it replaces the 16-bit value stored at its address. -/
def m68k_write16 (bus : Nat → Nat) (a : Nat) (d : Nat) : Nat → Nat :=
  fun x => if x = a then d % 65536 else bus x

/-- Modelled from the spec: `PicoPatchUnload` is the engine's function that releases
the patch list, outside this file; the list is empty afterwards. -/
def PicoPatchUnload (s : cheat_state) : cheat_state := { s with PicoPatches := [] }

/-- One pass of the loop of `retro_cheat_reset` (lines 943-953) over the patches still
to be visited: the memory afterwards and the stores made, in order. -/
def retro_cheat_reset_loop (romsize : Nat) :
    List PicoPatch → (Nat → Nat) × (Nat → Nat) → ((Nat → Nat) × (Nat → Nat)) × List mem_write
  | [], m => (m, [])
  | p :: ps, m =>
    if p.addr < romsize then
      if p.active then
        let r := retro_cheat_reset_loop romsize ps (rom_write16 m.1 p.addr p.data_old, m.2)
        (r.1, mem_write.rom p.addr p.data_old :: r.2)
      else retro_cheat_reset_loop romsize ps m
    else
      if p.active then
        let r := retro_cheat_reset_loop romsize ps (m.1, m68k_write16 m.2 p.addr p.data_old)
        (r.1, mem_write.bus p.addr p.data_old :: r.2)
      else retro_cheat_reset_loop romsize ps m

/-- The function `retro_cheat_reset` (lines 938-956): the state afterwards and the
stores made, in order. -/
def retro_cheat_reset (s : cheat_state) : cheat_state × List mem_write :=
  let r := retro_cheat_reset_loop s.romsize s.PicoPatches (s.rom, s.bus)
  (PicoPatchUnload { s with rom := r.1.1, bus := r.1.2 }, r.2)

/-- The call `strtok(s, "+")` followed by the state it keeps for `strtok(NULL, "+")`:
leading delimiters are skipped, the token runs to the next delimiter, and the scan
resumes behind that delimiter. `none` when no token is left. -/
def strtok (s : List Char) (delim : Char) : Option (List Char × List Char) :=
  match s.dropWhile (fun c => c = delim) with
  | [] => none
  | c :: cs =>
    some ((c :: cs).takeWhile (fun x => x ≠ delim),
          ((c :: cs).dropWhile (fun x => x ≠ delim)).drop 1)

/-- The loop of `retro_cheat_set` (lines 970-1005), entered with the part of
`codeCopy` that `strtok` has not scanned yet. `decode` is the engine's decoder,
`realloc_ok n` tells whether `realloc` to `n` elements succeeds, and `log_cb` is false
when the pointer of that name is `NULL`: lines 975 and 987 call it without a test, so
on an invalid sub-code and on a failed `realloc` the result is `none` when it is
`NULL`. `none` also when `fuel` iterations were not enough to reach the end of the
loop. `array_len` is an `int` in C and a natural number here, which agrees for patch
counts below 2^30. -/
def retro_cheat_set_loop (decode : List Char → patch) (realloc_ok : Nat → Bool)
    (log_cb : Bool) (enabled : Bool) : Nat → List Char → Nat → cheat_state → Option cheat_state
  | 0, _, _, _ => none
  | fuel + 1, rest, array_len, s =>
    match strtok rest '+' with
    | none => some s
    | some (buff, rest1) =>
      let pt := decode buff
      if pt.addr = 4294967295 ∨ pt.data = 65535 then
        if log_cb then some s else none
      else
        let grow := decide (array_len < s.PicoPatches.length + 1)
        let array_len1 := if grow then array_len * 2 + 1 else array_len
        if grow ∧ realloc_ok array_len1 = false then
          if log_cb then some s else none
        else
          let data_old :=
            if pt.addr < s.romsize then rom_read16 s.rom pt.addr
            else m68k_read16 s.bus pt.addr
          retro_cheat_set_loop decode realloc_ok log_cb enabled fuel rest1 array_len1
            { s with PicoPatches := s.PicoPatches ++
                [{ code := buff, active := enabled, addr := pt.addr, data := pt.data,
                   data_old := data_old, comp := pt.comp }] }

/-- The function `retro_cheat_set` (lines 958-1006). `strcpy(codeCopy, code)` stores
`code.length + 1` characters in an array of 256: for a code of 256 characters or more
the behaviour is undefined, which is the result `none`; so it is when the loop calls
`log_cb` (lines 975 and 987) while that pointer is `NULL`. Every iteration of the loop
scans at least one character, so `code.length + 1` iterations reach its end. -/
def retro_cheat_set (decode : List Char → patch) (realloc_ok : Nat → Bool) (log_cb : Bool)
    (_index : Nat) (enabled : Bool) (code : List Char) (s : cheat_state) : Option cheat_state :=
  match code with
  | [] => some s
  | c :: cs =>
    if (c :: cs).length + 1 > 256 then none
    else retro_cheat_set_loop decode realloc_ok log_cb enabled ((c :: cs).length + 1) (c :: cs)
           s.PicoPatches.length s

/-- Modelled from the spec: `PicoPatchApply`, which `retro_run` calls on every frame
while the patch list exists (lines 2025-2026), is outside this file; each active patch
writes its replacement value at its address, in list order. -/
def PicoPatchApply_loop (romsize : Nat) :
    List PicoPatch → (Nat → Nat) × (Nat → Nat) → (Nat → Nat) × (Nat → Nat)
  | [], m => m
  | p :: ps, m =>
    if p.active then
      if p.addr < romsize then PicoPatchApply_loop romsize ps (rom_write16 m.1 p.addr p.data, m.2)
      else PicoPatchApply_loop romsize ps (m.1, m68k_write16 m.2 p.addr p.data)
    else PicoPatchApply_loop romsize ps m

/-- Modelled from the spec: one patch application, that is `PicoPatchApply` run on the
current patch list. -/
def PicoPatchApply (s : cheat_state) : cheat_state :=
  { s with rom := (PicoPatchApply_loop s.romsize s.PicoPatches (s.rom, s.bus)).1
           bus := (PicoPatchApply_loop s.romsize s.PicoPatches (s.rom, s.bus)).2 }

/-- The address of a recorded store. -/
def mem_write.addr : mem_write → Nat
  | mem_write.rom a _ => a
  | mem_write.bus a _ => a

/-- The sub-codes of a cheat code as the specification words them: the code split at
`+`, empty pieces left out. -/
def sub_codes (code : List Char) : List (List Char) :=
  (code.splitOn '+').filter (fun t => t ≠ [])

/-- A sub-code is valid when its decode yields neither the address `0xFFFFFFFF` nor the
data `0xFFFF`. -/
def code_valid (decode : List Char → patch) (t : List Char) : Bool :=
  decide (¬ ((decode t).addr = 4294967295 ∨ (decode t).data = 65535))

/-- The value captured for `data_old` when a patch for `addr` is added (lines
998-1001). -/
def read_old (romsize : Nat) (rom bus : Nat → Nat) (addr : Nat) : Nat :=
  if addr < romsize then rom_read16 rom addr else m68k_read16 bus addr

/-- The patch `retro_cheat_set` appends for the sub-code `t` (lines 992-1001). -/
def patch_of (decode : List Char → patch) (enabled : Bool) (romsize : Nat)
    (rom bus : Nat → Nat) (t : List Char) : PicoPatch :=
  { code := t, active := enabled, addr := (decode t).addr, data := (decode t).data,
    data_old := read_old romsize rom bus (decode t).addr, comp := (decode t).comp }

/-- One step of the host as far as cheats go: a call of `retro_cheat_set` or a frame
of `retro_run`, which applies the patches (lines 2025-2026). -/
inductive cheat_op where
  | set (index : Nat) (enabled : Bool) (code : List Char)
  | apply
  deriving DecidableEq, Repr

/-- A sequence of host steps, in order; `none` when a call of `retro_cheat_set` has no
defined result. -/
def cheat_run (decode : List Char → patch) (realloc_ok : Nat → Bool) (log_cb : Bool) :
    List cheat_op → cheat_state → Option cheat_state
  | [], s => some s
  | cheat_op.set index enabled code :: ops, s =>
    match retro_cheat_set decode realloc_ok log_cb index enabled code s with
    | none => none
    | some s1 => cheat_run decode realloc_ok log_cb ops s1
  | cheat_op.apply :: ops, s => cheat_run decode realloc_ok log_cb ops (PicoPatchApply s)

/-- Whether every code handed to `retro_cheat_set` in a sequence of host steps is
shorter than 256 characters, so that it fits `codeCopy`. -/
def codes_fit : List cheat_op → Bool
  | [] => true
  | cheat_op.set _ _ code :: ops => decide (code.length < 256) && codes_fit ops
  | cheat_op.apply :: ops => codes_fit ops

/-- Whether, in a sequence of host steps, every active patch that a call of
`retro_cheat_set` adds goes to an address whose 16-bit word holds, at the time of the
call, the value it has in the memory `rom0`, `bus0`: no earlier patch application has
changed that word. -/
def cheat_run_unpatched (decode : List Char → patch) (realloc_ok : Nat → Bool)
    (log_cb : Bool) (rom0 bus0 : Nat → Nat) : List cheat_op → cheat_state → Bool
  | [], _ => true
  | cheat_op.set index enabled code :: ops, s =>
    match retro_cheat_set decode realloc_ok log_cb index enabled code s with
    | none => true
    | some s1 =>
      (s1.PicoPatches.drop s.PicoPatches.length).all (fun p =>
        !p.active || decide (read_old s.romsize s.rom s.bus p.addr
                              = read_old s.romsize rom0 bus0 p.addr))
      && cheat_run_unpatched decode realloc_ok log_cb rom0 bus0 ops s1
  | cheat_op.apply :: ops, s =>
    cheat_run_unpatched decode realloc_ok log_cb rom0 bus0 ops (PicoPatchApply s)

/-- The sub-codes for which `retro_cheat_set` appends a patch, in the words of the
amended property: those that precede the first sub-code that is invalid or for which
growing the array fails. The array is grown, by a `realloc` for `2 * array_len + 1`
elements, when its `array_len` elements cannot take one patch more than the `count`
there are. The second component tells whether such a sub-code was met. -/
def appended_sub_codes (decode : List Char → patch) (realloc_ok : Nat → Bool) :
    List (List Char) → Nat → Nat → List (List Char) × Bool
  | [], _, _ => ([], false)
  | t :: ts, array_len, count =>
    if code_valid decode t = false then ([], true)
    else if array_len < count + 1 then
      if realloc_ok (array_len * 2 + 1) = false then ([], true)
      else
        (t :: (appended_sub_codes decode realloc_ok ts (array_len * 2 + 1) (count + 1)).1,
         (appended_sub_codes decode realloc_ok ts (array_len * 2 + 1) (count + 1)).2)
    else
      (t :: (appended_sub_codes decode realloc_ok ts array_len (count + 1)).1,
       (appended_sub_codes decode realloc_ok ts array_len (count + 1)).2)

/-- A decoder for examples: `A` is address 16 with data 1, `B` is address 32 with data
2, everything else is invalid. -/
def decode_sample (t : List Char) : patch :=
  if t = ['A'] then { addr := 16, data := 1, comp := 0 }
  else if t = ['B'] then { addr := 32, data := 2, comp := 0 }
  else { addr := 4294967295, data := 65535, comp := 0 }

/-- A state for examples: no patch, a ROM of 1024 zero bytes, live memory all zero. -/
def cheat_state_zero : cheat_state :=
  { PicoPatches := [], rom := fun _ => 0, romsize := 1024, bus := fun _ => 0 }

/-- A state for examples: two active patches, the one for address 4 added before the
one for address 2. -/
def cheat_state_two : cheat_state :=
  { PicoPatches :=
      [{ code := ['X'], active := true, addr := 4, data := 9, data_old := 1, comp := 0 },
       { code := ['Y'], active := true, addr := 2, data := 9, data_old := 2, comp := 0 }]
    rom := fun _ => 9, romsize := 1024, bus := fun _ => 0 }

/-- The ROM byte `a` lies under an active patch of the list `ps`. -/
def covered_rom (romsize : Nat) (ps : List PicoPatch) (a : Nat) : Prop :=
  ∃ p ∈ ps, p.active = true ∧ p.addr < romsize ∧ (a = p.addr ∨ a = p.addr + 1)

/-- The live-memory address `a` is that of an active patch of the list `ps`. -/
def covered_bus (romsize : Nat) (ps : List PicoPatch) (a : Nat) : Prop :=
  ∃ p ∈ ps, p.active = true ∧ ¬ p.addr < romsize ∧ a = p.addr

/-! ## Frame pump: frameskip (lines 135-157, 2028-2049, 2211-2218) -/

/-- The macro `FRAMESKIP_MAX` (line 146). -/
def FRAMESKIP_MAX : Nat := 60

/-- The static variables of the frameskip support (lines 137-143). -/
structure frameskip_state where
  frameskip_type : Nat
  frameskip_threshold : Nat
  frameskip_counter : Nat
  retro_audio_buff_active : Bool
  retro_audio_buff_occupancy : Nat
  retro_audio_buff_underrun : Bool
  deriving DecidableEq, Repr

/-- The frameskip variables as `retro_init` leaves them (lines 2211-2220): all are
cleared, then `update_variables(true)` stores the policy and the threshold the host's
options give. -/
def retro_init (type threshold : Nat) : frameskip_state :=
  { frameskip_type := type
    frameskip_threshold := threshold
    frameskip_counter := 0
    retro_audio_buff_active := false
    retro_audio_buff_occupancy := 0
    retro_audio_buff_underrun := false }

/-- The function `retro_audio_buff_status_cb` (lines 151-157). -/
def retro_audio_buff_status_cb (active : Bool) (occupancy : Nat) (underrun_likely : Bool)
    (s : frameskip_state) : frameskip_state :=
  { s with retro_audio_buff_active := active
           retro_audio_buff_occupancy := occupancy
           retro_audio_buff_underrun := underrun_likely }

/-- The frameskip decision of `retro_run` (line 1995 and lines 2030-2049): the value
of `PicoIn.skipFrame` and the variables afterwards. The counter is a `uint16_t`. -/
def retro_run_frameskip (s : frameskip_state) : Nat × frameskip_state :=
  if s.frameskip_type > 0 ∧ s.retro_audio_buff_active = true then
    let skipFrame : Nat :=
      match s.frameskip_type with
      | 1 => if s.retro_audio_buff_underrun then 1 else 0
      | 2 => if s.retro_audio_buff_occupancy < s.frameskip_threshold then 1 else 0
      | _ => 0
    if skipFrame = 0 ∨ s.frameskip_counter ≥ FRAMESKIP_MAX then
      (0, { s with frameskip_counter := 0 })
    else
      (skipFrame, { s with frameskip_counter := (s.frameskip_counter + 1) % 65536 })
  else
    (0, s)

/-- What the host and the option update leave in the frameskip variables before the
decision of one frame: everything but the counter, which only `retro_init` and the
decision itself assign. -/
structure frame_env where
  frameskip_type : Nat
  frameskip_threshold : Nat
  active : Bool
  occupancy : Nat
  underrun : Bool
  deriving DecidableEq, Repr

/-- One `retro_run` step of the frameskip variables under the environment `e`. -/
def retro_run_step (e : frame_env) (s : frameskip_state) : Nat × frameskip_state :=
  retro_run_frameskip
    { frameskip_type := e.frameskip_type
      frameskip_threshold := e.frameskip_threshold
      frameskip_counter := s.frameskip_counter
      retro_audio_buff_active := e.active
      retro_audio_buff_occupancy := e.occupancy
      retro_audio_buff_underrun := e.underrun }

/-- A run of `retro_run` steps: the value of `PicoIn.skipFrame` on each frame and the
variables at the end. -/
def retro_run_steps : List frame_env → frameskip_state → List Nat × frameskip_state
  | [], s => ([], s)
  | e :: es, s =>
    let r := retro_run_step e s
    let t := retro_run_steps es r.2
    (r.1 :: t.1, t.2)

/-! ## Frame pump: input (lines 1751-1765, 2002-2023) -/

/-- The button numbers `GBTN_B`, `GBTN_A`, ... that `retro_pico_map` shifts by, in the
order of the table; they are defined outside this file. -/
structure gbtn where
  B : Nat
  A : Nat
  MODE : Nat
  START : Nat
  UP : Nat
  DOWN : Nat
  LEFT : Nat
  RIGHT : Nat
  C : Nat
  Y : Nat
  X : Nat
  Z : Nat

/-- The table `retro_pico_map` (lines 1751-1764); the elements are `unsigned short`. -/
def retro_pico_map (g : gbtn) : List Nat :=
  [(1 <<< g.B) % 65536, (1 <<< g.A) % 65536, (1 <<< g.MODE) % 65536, (1 <<< g.START) % 65536,
   (1 <<< g.UP) % 65536, (1 <<< g.DOWN) % 65536, (1 <<< g.LEFT) % 65536,
   (1 <<< g.RIGHT) % 65536, (1 <<< g.C) % 65536, (1 <<< g.Y) % 65536, (1 <<< g.X) % 65536,
   (1 <<< g.Z) % 65536]

/-- The macro `RETRO_PICO_MAP_LEN` (line 1765). -/
def RETRO_PICO_MAP_LEN (g : gbtn) : Nat := (retro_pico_map g).length

/-- The loop of lines 2010-2012 and 2019-2021 from `i` on, for `n` more iterations:
`if (pressed i) pad |= retro_pico_map[i]`. -/
def pad_loop (map : List Nat) (pressed : Nat → Bool) : Nat → Nat → Nat → Nat
  | 0, _, pad => pad
  | n + 1, i, pad =>
    pad_loop map pressed n (i + 1) (if pressed i then pad ||| map.getD i 0 else pad)

/-- The value of `PicoIn.pad[pad]` after lines 2002-2013 when the host supports
bitmasks: `input` is the 16-bit word `input_state_cb` returned for
`RETRO_DEVICE_ID_JOYPAD_MASK`. -/
def retro_run_pad_bitmask (g : gbtn) (input : Nat) : Nat :=
  pad_loop (retro_pico_map g) (fun i => input.testBit i) (RETRO_PICO_MAP_LEN g) 0 0

/-- The value of `PicoIn.pad[pad]` after lines 2002 and 2017-2022 when the host does
not support bitmasks: `query i` is what `input_state_cb` returned for button `i`. -/
def retro_run_pad_buttons (g : gbtn) (query : Nat → Int) : Nat :=
  pad_loop (retro_pico_map g) (fun i => decide (query i ≠ 0)) (RETRO_PICO_MAP_LEN g) 0 0

/-- The pad value as the specification words it: the bitwise OR of `retro_pico_map[i]`
over those `i` in 0..11 whose button is pressed. -/
def pad_or_of_pressed (g : gbtn) (pressed : Nat → Bool) : Nat :=
  (((List.range 12).filter pressed).map (fun i => (retro_pico_map g).getD i 0)).foldl
    (fun a b => a ||| b) 0

/-! ## Frame pump: palette conversion (lines 2061-2066, 2111-2134) -/

/-- The macro `VOUT_MAX_WIDTH` (line 87). -/
def VOUT_MAX_WIDTH : Nat := 320

/-- The macro `VOUT_32COL_WIDTH` (line 88). -/
def VOUT_32COL_WIDTH : Nat := 256

/-- The macro `VOUT_MAX_HEIGHT` (line 89). -/
def VOUT_MAX_HEIGHT : Nat := 240

/-- The variables of the conversion loop: `pd` and `ps` as offsets (in elements) from
`vout_buf` and from `Pico.est.Draw2FB`, and the contents of `vout_buf`. -/
structure convert_state where
  pd : Nat
  ps : Int
  vout_buf : Nat → Nat

/-- The statement `*pd++ = pal[*ps++];` (lines 2127-2130). -/
def convert_pixel (pal : Nat → Nat) (Draw2FB : Int → Nat) (st : convert_state) : convert_state :=
  { pd := st.pd + 1
    ps := st.ps + 1
    vout_buf := Function.update st.vout_buf st.pd (pal (Draw2FB st.ps)) }

/-- The inner loop (lines 2126-2131) for `n` more iterations. -/
def convert_row (pal : Nat → Nat) (Draw2FB : Int → Nat) : Nat → convert_state → convert_state
  | 0, st => st
  | n + 1, st =>
    convert_row pal Draw2FB n
      (convert_pixel pal Draw2FB (convert_pixel pal Draw2FB
        (convert_pixel pal Draw2FB (convert_pixel pal Draw2FB st))))

/-- The outer loop (lines 2125-2133) for `n` more rows. The inner loop runs for
`x = 0, 4, 8, ...` below `vout_width`, that is `(vout_width + 3) / 4` times; then
`ps += 320-vout_width` and the `ps += 8` of the loop header follow. -/
def convert_rows (pal : Nat → Nat) (Draw2FB : Int → Nat) (vout_width : Nat) :
    Nat → convert_state → convert_state
  | 0, st => st
  | n + 1, st =>
    let st1 := convert_row pal Draw2FB ((vout_width + 3) / 4) st
    convert_rows pal Draw2FB vout_width n
      { st1 with ps := st1.ps + (320 - (vout_width : Int)) + 8 }

/-- The part of `retro_run` behind `PicoFrame()` (lines 2061-2066 and 2111-2134) in a
build without `RENDER_GSKIT_PS2`: a skipped frame returns at once; otherwise, when
`vout_16bit` is 0, the image in `Pico.est.Draw2FB` is copied to `vout_buf` through the
palette `Pico.est.HighPal` (as `PicoDrawUpdateHighPal` left it). The result holds the
number of pixels stored (`pd`) and the contents of `vout_buf`. -/
def retro_run_convert (skipFrame : Nat) (vout_16bit : Bool) (vout_width : Nat)
    (HighPal : Nat → Nat) (Draw2FB : Int → Nat) (vout_buf : Nat → Nat) : convert_state :=
  if skipFrame ≠ 0 then { pd := 0, ps := 8, vout_buf := vout_buf }
  else if vout_16bit = false then
    convert_rows HighPal Draw2FB vout_width VOUT_MAX_HEIGHT { pd := 0, ps := 8, vout_buf := vout_buf }
  else { pd := 0, ps := 8, vout_buf := vout_buf }

/-! ## Memory regions (lines 1708-1744) -/

/-- The constants of the host interface and of the engine that `retro_get_memory_size`
uses; they are defined outside this file. `sizeof_ram` is `sizeof(PicoMem.ram)`. -/
structure memory_consts where
  RETRO_MEMORY_SAVE_RAM : Nat
  RETRO_MEMORY_SYSTEM_RAM : Nat
  PAHW_MCD : Nat
  PAHW_SMS : Nat
  POPT_EN_MCD_RAMCART : Nat
  sizeof_ram : Nat

/-- The engine variables `retro_get_memory_size` reads: `PicoIn.AHW`, `PicoIn.opt`,
`Pico.m.frame_count`, `Pico.sv.size` and the bytes of `Pico.sv.data`. -/
structure memory_state where
  AHW : Nat
  opt : Nat
  frame_count : Nat
  sv_size : Nat
  sv_data : Nat → Nat

/-- The loop of lines 1729-1730 from `i` on, for `n` more iterations:
`sum |= Pico.sv.data[i]`. -/
def sv_sum_loop (sv_data : Nat → Nat) : Nat → Nat → Nat → Nat
  | 0, _, sum => sum
  | n + 1, i, sum => sv_sum_loop sv_data n (i + 1) (sum ||| sv_data i)

/-- The function `retro_get_memory_size` (lines 1708-1744). -/
def retro_get_memory_size (k : memory_consts) (type : Nat) (m : memory_state) : Nat :=
  if type = k.RETRO_MEMORY_SAVE_RAM then
    if m.AHW &&& k.PAHW_MCD ≠ 0 then
      if m.opt &&& k.POPT_EN_MCD_RAMCART ≠ 0 then 0x12000 else 0x2000
    else if m.frame_count = 0 then m.sv_size
    else if sv_sum_loop m.sv_data m.sv_size 0 0 ≠ 0 then m.sv_size else 0
  else if type = k.RETRO_MEMORY_SYSTEM_RAM then
    if m.AHW &&& k.PAHW_SMS ≠ 0 then 0x2000 else k.sizeof_ram
  else 0

/-! ## Video mode (lines 631-694) -/

/-- Whether a value is representable in a 32-bit `int`. -/
def int_ok (x : Int) : Bool := decide (-2147483648 ≤ x ∧ x ≤ 2147483647)

/-- The variables `vout_width`, `vout_height` and `vout_offset` (line 112). -/
structure vout_state where
  vout_width : Int
  vout_height : Int
  vout_offset : Int
  deriving DecidableEq, Repr

/-- The function `emu_video_mode_change` (lines 631-694) in a build without
`RENDER_GSKIT_PS2`, as far as the three `vout_` variables go (lines 667-688);
`show_overscan` is the static variable of that name. The arithmetic is on `int`:
where an intermediate value is not representable the behaviour is undefined, which is
the result `none`. -/
def emu_video_mode_change (show_overscan : Bool) (start_line line_count is_32cols : Int) :
    Option vout_state :=
  let vout_width : Int := if is_32cols ≠ 0 then 256 else 320
  let limit : Int := vout_width * (240 - 1) * 2
  if show_overscan then
    if int_ok (start_line * 2) ∧ int_ok (line_count + start_line * 2) then
      let vout_height := line_count + start_line * 2
      let vout_offset : Int := 0
      some { vout_width := vout_width
             vout_height := if vout_height > 240 then 240 else vout_height
             vout_offset := if vout_offset > limit then limit else vout_offset }
    else none
  else
    if int_ok (vout_width * start_line) ∧ int_ok (vout_width * start_line * 2) then
      let vout_height := line_count
      let vout_offset := vout_width * start_line * 2
      some { vout_width := vout_width
             vout_height := if vout_height > 240 then 240 else vout_height
             vout_offset := if vout_offset > limit then limit else vout_offset }
    else none

/-! ## Frameskip set-up (lines 148-198) -/

/-- The `float` operations `init_frameskip` uses, on rational values: what the
hardware delivers for a quotient, a product and a sum. -/
structure float_ops where
  div : ℚ → ℚ → ℚ
  mul : ℚ → ℚ → ℚ
  add : ℚ → ℚ → ℚ

/-- The accuracy of `float` arithmetic that the properties below rely on: a quotient,
product or sum whose exact value is at most 1024 in magnitude is delivered to within
1/1000 (single precision rounds such values to within 2^-15). -/
def float_accurate (f : float_ops) : Prop :=
  ∀ a b : ℚ,
    (b ≠ 0 → |a / b| ≤ 1024 → |f.div a b - a / b| ≤ 1 / 1000)
    ∧ (|a * b| ≤ 1024 → |f.mul a b - a * b| ≤ 1 / 1000)
    ∧ (|a + b| ≤ 1024 → |f.add a b - (a + b)| ≤ 1 / 1000)

/-- Exact arithmetic, as an instance of the `float` operations for examples. -/
def float_exact : float_ops :=
  { div := fun a b => a / b, mul := fun a b => a * b, add := fun a b => a + b }

/-- The variables `audio_latency` and `update_audio_latency` (lines 148-149). -/
structure latency_state where
  audio_latency : Nat
  update_audio_latency : Bool
  deriving DecidableEq, Repr

/-- The conversion `(unsigned)x` of a `float` that is not negative: the value is
truncated. -/
def float_to_unsigned (x : ℚ) : Nat := (Rat.floor x).toNat % 4294967296

/-- The function `init_frameskip` (lines 159-198). `accepts` is what `environ_cb`
returns for `RETRO_ENVIRONMENT_SET_AUDIO_BUFFER_STATUS_CALLBACK`, `pal` is
`Pico.m.pal`; `audio_latency` is `unsigned`. -/
def init_frameskip (f : float_ops) (accepts : Bool) (pal : Bool)
    (s : frameskip_state) (_l : latency_state) : frameskip_state × latency_state :=
  if s.frameskip_type > 0 then
    if accepts = false then
      ({ s with retro_audio_buff_active := false
                retro_audio_buff_occupancy := 0
                retro_audio_buff_underrun := false },
       { audio_latency := 0, update_audio_latency := true })
    else
      let frame_time_msec := f.div 1000 (if pal then 50 else 60)
      let audio_latency := float_to_unsigned (f.add (f.mul 6 frame_time_msec) (1 / 2))
      (s, { audio_latency := ((audio_latency + 0x1F) % 4294967296) &&& 0xFFFFFFE0
            update_audio_latency := true })
  else
    (s, { audio_latency := 0, update_audio_latency := true })

/-! ## Cheats: the patch array while `retro_cheat_set` runs (lines 961-1002) -/

/-- What `retro_cheat_set` does to the array `PicoPatches`: a call of `realloc` for
`n` elements with its outcome, or the stores to the element `PicoPatches[index]` (lines
992-1001). -/
inductive patch_event where
  | realloc (n : Nat) (ok : Bool)
  | write (index : Nat)
  deriving DecidableEq, Repr

/-- The loop of `retro_cheat_set` (lines 970-1005) as `retro_cheat_set_loop` has it,
together with the events on the array, in order; `none` where that loop is `none`,
so also where line 975 or 987 calls `log_cb` while it is `NULL`. `array_len` is an
`int`; it stays representable for patch counts below 2^30. -/
def retro_cheat_set_loop_events (decode : List Char → patch) (realloc_ok : Nat → Bool)
    (log_cb : Bool) (enabled : Bool) :
    Nat → List Char → Nat → cheat_state → Option (cheat_state × List patch_event)
  | 0, _, _, _ => none
  | fuel + 1, rest, array_len, s =>
    match strtok rest '+' with
    | none => some (s, [])
    | some (buff, rest1) =>
      let pt := decode buff
      if pt.addr = 4294967295 ∨ pt.data = 65535 then
        if log_cb then some (s, []) else none
      else
        let grow := decide (array_len < s.PicoPatches.length + 1)
        let array_len1 := if grow then array_len * 2 + 1 else array_len
        if grow ∧ realloc_ok array_len1 = false then
          if log_cb then some (s, [patch_event.realloc array_len1 false]) else none
        else
          let data_old :=
            if pt.addr < s.romsize then rom_read16 s.rom pt.addr
            else m68k_read16 s.bus pt.addr
          match retro_cheat_set_loop_events decode realloc_ok log_cb enabled fuel rest1
              array_len1
              { s with PicoPatches := s.PicoPatches ++
                  [{ code := buff, active := enabled, addr := pt.addr, data := pt.data,
                     data_old := data_old, comp := pt.comp }] } with
          | none => none
          | some (s1, events) =>
            some (s1, (if grow then [patch_event.realloc array_len1 true] else [])
                        ++ patch_event.write s.PicoPatches.length :: events)

/-- The function `retro_cheat_set` (lines 958-1006) as `retro_cheat_set` has it,
together with the events on the array `PicoPatches`. -/
def retro_cheat_set_events (decode : List Char → patch) (realloc_ok : Nat → Bool)
    (log_cb : Bool) (_index : Nat) (enabled : Bool) (code : List Char) (s : cheat_state) :
    Option (cheat_state × List patch_event) :=
  match code with
  | [] => some (s, [])
  | c :: cs =>
    if (c :: cs).length + 1 > 256 then none
    else retro_cheat_set_loop_events decode realloc_ok log_cb enabled ((c :: cs).length + 1)
           (c :: cs) s.PicoPatches.length s

/-- Whether every store of a sequence of events goes to an index below the element
count of the most recent successful `realloc` (`cap`, `none` before the first one), and
nothing follows a failed `realloc`. -/
def writes_in_bounds : Option Nat → List patch_event → Bool
  | _, [] => true
  | _, patch_event.realloc n true :: t => writes_in_bounds (some n) t
  | _, patch_event.realloc _ false :: t => t.isEmpty
  | some c, patch_event.write i :: t => decide (i < c) && writes_in_bounds (some c) t
  | none, patch_event.write _ :: _ => false

/-- The indices of the stores of a sequence of events, in order. -/
def write_indices : List patch_event → List Nat
  | [] => []
  | patch_event.realloc _ _ :: t => write_indices t
  | patch_event.write i :: t => i :: write_indices t

/-! ## Initial disk and the disk set-up of `retro_load_game` (lines 1009-1013,
1174-1188, 1569-1621) -/

/-- The static variables `disk_initial_index` and `disk_initial_path` (lines 1009 and
1013). -/
structure disk_initial where
  disk_initial_index : Nat
  disk_initial_path : List Char
  deriving DecidableEq, Repr

/-- The function `disk_set_initial_image` (lines 1174-1188); `path` is `none` for a
`NULL` pointer. -/
def disk_set_initial_image (index : Nat) (path : Option (List Char)) (ini : disk_initial) :
    Bool × disk_initial :=
  if index ≥ 8 then (false, ini)
  else
    match path with
    | none => (false, ini)
    | some [] => (false, ini)
    | some (c :: cs) =>
      (true, { disk_initial_index := index
               disk_initial_path := (c :: cs).take (PATH_MAX - 1) })

/-- The test `strcasestr(s, "m3u") != NULL` (line 1571): `s` holds the letters `m`,
`3`, `u` in a row, in either case. -/
def strcasestr_m3u : List Char → Bool
  | [] => false
  | a :: rest =>
    (match rest with
      | b :: c :: _ => decide (a.toLower = 'm' ∧ b = '3' ∧ c.toLower = 'u')
      | _ => false)
    || strcasestr_m3u rest

/-- The element `disks[i].fname`; the outer `none` is for an index outside the
array. -/
def slot_fname (s : disk_manager) (i : Nat) : Option (Option (List Char)) :=
  if h : i < 8 then some (s.disks ⟨i, h⟩).fname else none

/-- Outcome of the disk set-up of `retro_load_game`: the disk manager, the value of
`cd_index`, and the `content_path` handed to `PicoLoadMedia` (`none` when the function
returned at line 1577 before the media load). -/
structure load_result where
  state : disk_manager
  cd_index : Nat
  media_path : Option (List Char)

/-- The disk set-up of `retro_load_game` (lines 1569-1621), entered with `base_dir`,
`content_path` and `content_ext` as lines 1509-1560 left them; `file` is what `fopen`
gives for `content_path` (`none` when it fails), and `log_cb` is false when the
pointer of that name is `NULL`. The result is `none` where the code has no defined
behaviour: the call of `log_cb` at line 1576, made without a test when `read_m3u`
fails, while it is `NULL`; `strncpy` from a `NULL` name; an index outside `disks`. -/
def retro_load_game_disks (log_cb : Bool) (base_dir content_path content_ext : List Char)
    (file : Option (List Char)) (ini : disk_initial) (s : disk_manager) :
    Option load_result :=
  let s0 := disk_init s
  if strcasestr_m3u content_ext = true then
    match read_m3u base_dir file s0 with
    | none => none
    | some (false, s1) =>
      if log_cb then some { state := s1, cd_index := 0, media_path := none } else none
    | some (true, s1) =>
      match slot_fname s1 0 with
      | none => none
      | some none => none
      | some (some f0) =>
        let content_path0 := f0.take (PATH_MAX - 1)
        if ini.disk_initial_index > 0 ∧ ini.disk_initial_index < s1.disk_count then
          match slot_fname s1 ini.disk_initial_index with
          | none => none
          | some none =>
            some { state := { s1 with disk_current_index := 0 }, cd_index := 0
                   media_path := some content_path0 }
          | some (some []) =>
            some { state := { s1 with disk_current_index := 0 }, cd_index := 0
                   media_path := some content_path0 }
          | some (some (c :: cs)) =>
            if ini.disk_initial_path = c :: cs then
              if ini.disk_initial_index ≠ 0 then
                some { state := { s1 with disk_current_index := ini.disk_initial_index }
                       cd_index := ini.disk_initial_index
                       media_path := some ((c :: cs).take (PATH_MAX - 1)) }
              else
                some { state := { s1 with disk_current_index := ini.disk_initial_index }
                       cd_index := ini.disk_initial_index
                       media_path := some content_path0 }
            else
              some { state := { s1 with disk_current_index := 0 }, cd_index := 0
                     media_path := some content_path0 }
        else
          some { state := { s1 with disk_current_index := 0 }, cd_index := 0
                 media_path := some content_path0 }
  else
    let disk_label := get_disk_label [] (some content_path) PATH_MAX
    some { state := { s0 with disk_current_index := 0
                              disk_count := 1
                              disks := Function.update s0.disks 0
                                { fname := some content_path, flabel := some disk_label } }
           cd_index := 0
           media_path := some content_path }

/-! ## Allocator calls of `disk_replace_image_index` (lines 1122-1163) -/

/-- A call to the C allocator, the heap blocks being named by numbers: a `free` of a
block, or a `strdup` that returned a block. -/
inductive alloc_event where
  | free (block : Nat)
  | strdup (block : Nat)
  deriving DecidableEq, Repr

/-- One element of `disks[8]` (lines 1014-1017) as the two pointers it holds: `none`
is `NULL`, `some b` points at the block `b`. -/
structure disks_ptrs where
  fname : Option Nat
  flabel : Option Nat
  deriving DecidableEq, Repr

/-- The function `disk_replace_image_index` (lines 1122-1163) on the pointers of the
table: its calls of `free` and `strdup`, in order, and the table afterwards. `info`
is `false` for a `NULL` info; `new_fname` and `new_flabel` are the blocks that the
calls of `strdup` at lines 1147 and 1150 return. `disk_set_image_index` (lines
1081-1115) contains no call of `free` or `strdup` and assigns no element of `disks`. -/
def disk_replace_image_index_events (index : Nat) (info : Bool) (new_fname new_flabel : Nat)
    (disks : Fin 8 → disks_ptrs) : List alloc_event × (Fin 8 → disks_ptrs) :=
  if h : index < 8 then
    let old_fname := (disks ⟨index, h⟩).fname
    let old_flabel := (disks ⟨index, h⟩).flabel
    let ev1 := match (disks ⟨index, h⟩).fname with
      | some b => [alloc_event.free b]
      | none => []
    let ev2 := match (disks ⟨index, h⟩).flabel with
      | some b => [alloc_event.free b]
      | none => []
    let disks1 := Function.update disks ⟨index, h⟩ { fname := none, flabel := none }
    let ev3 := if info then [alloc_event.strdup new_fname, alloc_event.strdup new_flabel]
      else []
    let disks2 := if info then
        Function.update disks1 ⟨index, h⟩ { fname := some new_fname, flabel := some new_flabel }
      else disks1
    let ev4 := match old_fname with
      | some b => [alloc_event.free b]
      | none => []
    let ev5 := match old_flabel with
      | some b => [alloc_event.free b]
      | none => []
    (ev1 ++ ev2 ++ ev3 ++ ev4 ++ ev5, disks2)
  else
    ([], disks)

/-! ## Theorems: save-state stream -/

theorem addSize_of_lt {a b : Nat} (h : a + b < SIZE_MOD) : addSize a b = a + b := by
  unfold addSize
  exact Nat.mod_eq_of_lt h

theorem subSize_of_le {a b : Nat} (hb : b ≤ a) (ha : a < SIZE_MOD) : subSize a b = a - b := by
  unfold subSize SIZE_MOD at *
  omega

theorem bsize_lt (r : write_req) : r.bsize < SIZE_MOD := by
  unfold write_req.bsize
  exact Nat.mod_lt _ (by unfold SIZE_MOD; omega)

/-- The skip-only pass advances the cursor by the total of the requests, as long as
the total fits in `size_t`. -/
theorem skip_pass_pos (reqs : List write_req) (st : savestate_state)
    (h : st.pos + (reqs.map write_req.bsize).sum < SIZE_MOD) :
    (PicoStateFP_save reqs state_skip st).1.pos = st.pos + (reqs.map write_req.bsize).sum := by
  induction reqs generalizing st with
  | nil => simp [PicoStateFP_save]
  | cons r rest ih =>
    simp only [List.map_cons, List.sum_cons] at h
    have h1 : addSize st.pos r.bsize = st.pos + r.bsize := addSize_of_lt (by omega)
    simp only [PicoStateFP_save, List.map_cons, List.sum_cons]
    rw [ih]
    · show addSize st.pos r.bsize + _ = _
      rw [h1]; omega
    · show addSize st.pos r.bsize + _ < _
      rw [h1]; omega

/-- A write that fits below `size` is carried out in full and touches no offset at or
beyond `size`. -/
theorem state_write_fits (p : Nat → Nat) (size nmemb : Nat) (st : savestate_state)
    (hsz : st.size < SIZE_MOD)
    (h : st.pos + (size * nmemb) % SIZE_MOD ≤ st.size) :
    (state_write p size nmemb st).ret = (size * nmemb) % SIZE_MOD
    ∧ (state_write p size nmemb st).state.pos = st.pos + (size * nmemb) % SIZE_MOD
    ∧ (state_write p size nmemb st).state.size = st.size
    ∧ ∀ a, st.size ≤ a → (state_write p size nmemb st).state.save_buf a = st.save_buf a := by
  have h1 : addSize st.pos ((size * nmemb) % SIZE_MOD) = st.pos + (size * nmemb) % SIZE_MOD :=
    addSize_of_lt (by omega)
  have hn : ¬ (addSize st.pos ((size * nmemb) % SIZE_MOD) > st.size) := by rw [h1]; omega
  simp only [state_write, hn, if_false]
  refine ⟨trivial, h1, trivial, ?_⟩
  intro a ha
  simp only [memcpy_to]
  split
  · rename_i hc
    obtain ⟨ha', hlt⟩ := hc
    rw [subSize_of_le (by omega) ha'] at hlt
    omega
  · rfl

/-- The serializer run with `state_write` from a cursor that leaves room for all the
requests: every request is written in full, the cursor ends at the total, offsets at
or beyond `size` keep their contents. -/
theorem write_pass_fits (reqs : List write_req) (st : savestate_state)
    (hsz : st.size < SIZE_MOD)
    (h : st.pos + (reqs.map write_req.bsize).sum ≤ st.size) :
    (PicoStateFP_save reqs state_write st).2 = reqs.map write_req.bsize
    ∧ (PicoStateFP_save reqs state_write st).1.pos = st.pos + (reqs.map write_req.bsize).sum
    ∧ ∀ a, st.size ≤ a → (PicoStateFP_save reqs state_write st).1.save_buf a = st.save_buf a := by
  induction reqs generalizing st with
  | nil => simp [PicoStateFP_save]
  | cons r rest ih =>
    simp only [List.map_cons, List.sum_cons] at h
    have hb : r.bsize = (r.size * r.nmemb) % SIZE_MOD := rfl
    obtain ⟨w1, w2, w3, w4⟩ := state_write_fits r.p r.size r.nmemb st hsz (by rw [← hb]; omega)
    have := ih (state_write r.p r.size r.nmemb st).state (by rw [w3]; exact hsz)
      (by rw [w2, w3, ← hb]; omega)
    obtain ⟨i1, i2, i3⟩ := this
    simp only [PicoStateFP_save, List.map_cons, List.sum_cons]
    refine ⟨?_, ?_, ?_⟩
    · rw [i1, w1, hb]
    · rw [i2, w2, hb]; omega
    · intro a ha
      rw [i3 a (by rw [w3]; exact ha), w4 a ha]

/-- A write that fits below `size` stores the bytes of the request at the cursor, in
order, and leaves every offset below the cursor as it was. -/
theorem state_write_stores (p : Nat → Nat) (size nmemb : Nat) (st : savestate_state)
    (hsz : st.size < SIZE_MOD)
    (h : st.pos + (size * nmemb) % SIZE_MOD ≤ st.size) :
    (∀ i, i < (size * nmemb) % SIZE_MOD →
        (state_write p size nmemb st).state.save_buf (st.pos + i) = p i)
    ∧ ∀ a, a < st.pos → (state_write p size nmemb st).state.save_buf a = st.save_buf a := by
  have h1 : addSize st.pos ((size * nmemb) % SIZE_MOD) = st.pos + (size * nmemb) % SIZE_MOD :=
    addSize_of_lt (by omega)
  have hn : ¬ (addSize st.pos ((size * nmemb) % SIZE_MOD) > st.size) := by rw [h1]; omega
  simp only [state_write, hn, if_false]
  generalize (size * nmemb) % SIZE_MOD = n at h
  constructor
  · intro i hi
    have ha : st.pos + i < SIZE_MOD := by omega
    have hs : subSize (st.pos + i) st.pos = i := by
      rw [subSize_of_le (by omega) ha]; omega
    simp only [memcpy_to]
    rw [if_pos ⟨ha, by rw [hs]; exact hi⟩, hs]
  · intro a ha
    have hs : ¬ (subSize a st.pos < n) := by
      unfold subSize SIZE_MOD at *
      omega
    simp only [memcpy_to]
    rw [if_neg (fun hc => hs hc.2)]

/-- The serializer run with `state_write` from a cursor that leaves room for all the
requests: the bytes of every request stand in the buffer at the offset the request was
made at, which is the cursor at the start plus the bytes of the requests before it;
offsets below the cursor at the start keep their contents. -/
theorem write_pass_stores (reqs : List write_req) (st : savestate_state)
    (hsz : st.size < SIZE_MOD)
    (h : st.pos + (reqs.map write_req.bsize).sum ≤ st.size) :
    (∀ pre r post, reqs = pre ++ r :: post → ∀ i, i < r.bsize →
        (PicoStateFP_save reqs state_write st).1.save_buf
          (st.pos + (pre.map write_req.bsize).sum + i) = r.p i)
    ∧ ∀ a, a < st.pos → (PicoStateFP_save reqs state_write st).1.save_buf a = st.save_buf a := by
  induction reqs generalizing st with
  | nil =>
    refine ⟨fun pre r post hreq => ?_, fun a _ => rfl⟩
    cases pre <;> simp at hreq
  | cons r0 rest ih =>
    simp only [List.map_cons, List.sum_cons] at h
    have hb : r0.bsize = (r0.size * r0.nmemb) % SIZE_MOD := rfl
    obtain ⟨_, w2, w3, _⟩ := state_write_fits r0.p r0.size r0.nmemb st hsz (by rw [← hb]; omega)
    obtain ⟨v1, v2⟩ := state_write_stores r0.p r0.size r0.nmemb st hsz (by rw [← hb]; omega)
    obtain ⟨i1, i2⟩ := ih (state_write r0.p r0.size r0.nmemb st).state (by rw [w3]; exact hsz)
      (by rw [w2, w3, ← hb]; omega)
    rw [w2, ← hb] at i1 i2
    simp only [PicoStateFP_save]
    constructor
    · intro pre r post hreq i hi
      cases pre with
      | nil =>
        simp only [List.nil_append, List.cons.injEq] at hreq
        obtain ⟨hr, _⟩ := hreq
        subst hr
        simp only [List.map_nil, List.sum_nil, Nat.add_zero]
        rw [i2 (st.pos + i) (by omega)]
        exact v1 i (by rw [← hb]; exact hi)
      | cons q pre =>
        simp only [List.cons_append, List.cons.injEq] at hreq
        obtain ⟨hq, hrest⟩ := hreq
        subst hq
        have := i1 pre r post hrest i hi
        simp only [List.map_cons, List.sum_cons]
        rw [← this]
        congr 1
        omega
    · intro a ha
      rw [i2 a (by omega)]
      exact v2 a ha

/-- C3: when the total of the serializer's write requests fits in `size_t`, replaying
them through `state_write` on a buffer of the size `N` found by the skip-only probing
pass carries out every write in full: each request returns the bytes it asked for and
all its bytes stand in the buffer afterwards, at the offset that is the total of the
requests before it; every offset at or beyond `N` is left untouched, and the cursor
ends at `N`. -/
theorem serialize_within_probed_size (reqs : List write_req) (data : Nat → Nat)
    (hfit : (reqs.map write_req.bsize).sum < SIZE_MOD) :
    (retro_serialize reqs data (retro_serialize_size reqs)).2 = reqs.map write_req.bsize
    ∧ (retro_serialize reqs data (retro_serialize_size reqs)).1.pos = retro_serialize_size reqs
    ∧ (∀ a, retro_serialize_size reqs ≤ a →
        (retro_serialize reqs data (retro_serialize_size reqs)).1.save_buf a = data a)
    ∧ (∀ pre r post, reqs = pre ++ r :: post → ∀ i, i < r.bsize →
        (retro_serialize reqs data (retro_serialize_size reqs)).1.save_buf
          ((pre.map write_req.bsize).sum + i) = r.p i)
    ∧ retro_serialize_size reqs = (reqs.map write_req.bsize).sum := by
  have hN : retro_serialize_size reqs = (reqs.map write_req.bsize).sum := by
    unfold retro_serialize_size
    rw [skip_pass_pos _ _ (by simpa [savestate_zero] using hfit)]
    simp [savestate_zero]
  rw [hN]
  obtain ⟨a1, a2, a3⟩ := write_pass_fits reqs
    { savestate_zero with save_buf := data, size := (reqs.map write_req.bsize).sum, pos := 0 }
    hfit (by simp)
  obtain ⟨b1, _⟩ := write_pass_stores reqs
    { savestate_zero with save_buf := data, size := (reqs.map write_req.bsize).sum, pos := 0 }
    hfit (by simp)
  refine ⟨a1, ?_, a3, ?_, rfl⟩
  · simpa using a2
  · intro pre r post hreq i hi
    have := b1 pre r post hreq i hi
    simpa using this

/-- Witness for C3: three requests of 4, 6 and 0 bytes. -/
theorem serialize_within_probed_size_witness :
    (retro_serialize write_reqs_sample (fun _ => 0)
        (retro_serialize_size write_reqs_sample)).2
      = write_reqs_sample.map write_req.bsize
    ∧ (retro_serialize write_reqs_sample (fun _ => 0)
        (retro_serialize_size write_reqs_sample)).1.pos
      = retro_serialize_size write_reqs_sample
    ∧ (∀ a, retro_serialize_size write_reqs_sample ≤ a →
        (retro_serialize write_reqs_sample (fun _ => 0)
          (retro_serialize_size write_reqs_sample)).1.save_buf a = (fun _ => 0) a)
    ∧ (∀ pre r post, write_reqs_sample = pre ++ r :: post → ∀ i, i < r.bsize →
        (retro_serialize write_reqs_sample (fun _ => 0)
          (retro_serialize_size write_reqs_sample)).1.save_buf
            ((pre.map write_req.bsize).sum + i) = r.p i)
    ∧ retro_serialize_size write_reqs_sample
        = (write_reqs_sample.map write_req.bsize).sum :=
  serialize_within_probed_size write_reqs_sample (fun _ => 0) (by decide)

theorem toInt32_small {x : Nat} (h : x < 2147483648) : toInt32 x = (x : Int) := by
  unfold toInt32 INT_MOD
  have : x % 4294967296 = x := Nat.mod_eq_of_lt (by omega)
  rw [this]
  simp [h]

/-- In the range where neither the `size_t` sum nor the cast to `int` can wrap (buffer
below 2 GiB, cursor not past its end, request ending below 2^64), `state_write`
returns `min n (size - pos)` and advances the cursor by that much. -/
theorem state_write_in_range (p : Nat → Nat) (size nmemb : Nat) (st : savestate_state)
    (hsz : st.size < 2147483648) (hpos : st.pos ≤ st.size)
    (hn : st.pos + (size * nmemb) % SIZE_MOD < SIZE_MOD) :
    (state_write p size nmemb st).ret = min ((size * nmemb) % SIZE_MOD) (st.size - st.pos)
    ∧ (state_write p size nmemb st).state.pos
        = st.pos + min ((size * nmemb) % SIZE_MOD) (st.size - st.pos) := by
  unfold state_write
  generalize (size * nmemb) % SIZE_MOD = n at hn
  have h1 : addSize st.pos n = st.pos + n := addSize_of_lt hn
  have h2 : subSize st.size st.pos = st.size - st.pos :=
    subSize_of_le hpos (by unfold SIZE_MOD; omega)
  have h3 : toInt32 (st.size - st.pos) = ((st.size - st.pos : Nat) : Int) :=
    toInt32_small (by omega)
  have h4 : addSize st.pos (st.size - st.pos) = st.size := by
    rw [addSize_of_lt (by unfold SIZE_MOD; omega)]; omega
  simp only [h1, h2, h3, h4]
  clear h1 h2 h3 h4 hn
  split
  · split
    · constructor <;> simp only [] <;> omega
    · constructor <;> simp only [] <;> omega
  · constructor <;> simp only [] <;> omega

theorem state_read_at_wrapped (lb sb p : Nat → Nat) :
    state_read p 1 1 ⟨lb, sb, 16, 18446744073709551612⟩
      = ⟨20, memcpy_from lb 18446744073709551612 20 p, ⟨lb, sb, 16, 16⟩⟩ := by
  have h1 : addSize 18446744073709551612 (1 * 1 % SIZE_MOD) = 18446744073709551613 := by
    unfold addSize SIZE_MOD; omega
  have h2 : subSize 16 18446744073709551612 = 20 := by
    unfold subSize SIZE_MOD; omega
  have h3 : toInt32 20 = 20 := toInt32_small (by omega)
  have h4 : addSize 18446744073709551612 20 = 16 := by
    unfold addSize SIZE_MOD; omega
  simp only [state_read, h1, h2, h3, h4]
  clear h1 h2 h3 h4
  rw [if_pos (by decide), if_neg (by decide)]

theorem state_write_at_wrapped (lb sb p : Nat → Nat) :
    state_write p 1 1 ⟨lb, sb, 16, 18446744073709551612⟩
      = ⟨20, p, ⟨lb, memcpy_to sb 18446744073709551612 20 p, 16, 16⟩⟩ := by
  have h1 : addSize 18446744073709551612 (1 * 1 % SIZE_MOD) = 18446744073709551613 := by
    unfold addSize SIZE_MOD; omega
  have h2 : subSize 16 18446744073709551612 = 20 := by
    unfold subSize SIZE_MOD; omega
  have h3 : toInt32 20 = 20 := toInt32_small (by omega)
  have h4 : addSize 18446744073709551612 20 = 16 := by
    unfold addSize SIZE_MOD; omega
  simp only [state_write, h1, h2, h3, h4]
  clear h1 h2 h3 h4
  rw [if_pos (by decide), if_neg (by decide)]

theorem memcpy_from_at_wrapped (lb p : Nat → Nat) :
    memcpy_from lb 18446744073709551612 20 p 0 = lb 18446744073709551612 := by
  have h5 : (18446744073709551612 + 0) % SIZE_MOD = 18446744073709551612 := by
    unfold SIZE_MOD; omega
  unfold memcpy_from
  rw [if_pos (by decide), h5]

theorem memcpy_to_at_wrapped (sb p : Nat → Nat) :
    memcpy_to sb 18446744073709551612 20 p 18446744073709551612 = p 0 := by
  have h6 : subSize 18446744073709551612 18446744073709551612 = 0 := by
    unfold subSize SIZE_MOD; omega
  have h7 : (18446744073709551612 : Nat) < SIZE_MOD := by
    unfold SIZE_MOD; omega
  unfold memcpy_to
  rw [if_pos ⟨h7, by rw [h6]; decide⟩, h6]

theorem state_fseek_back_from_zero (lb sb : Nat → Nat) :
    (state_fseek ⟨lb, sb, 16, 0⟩ (-4) Whence.SEEK_CUR).2.pos = 18446744073709551612 := by
  have h0 : ofLong (-4) = 18446744073709551612 := by
    unfold ofLong SIZE_MOD; omega
  have h0' : addSize 0 18446744073709551612 = 18446744073709551612 := by
    unfold addSize SIZE_MOD; omega
  simp only [state_fseek, h0, h0']

/-- C7: at a stream of 16 bytes whose cursor has wrapped to `2^64 - 4` (four bytes
before the buffer, as `state_fseek` with offset -4 from cursor 0 leaves it), a request
for one byte makes `state_read` and `state_write` transfer 20 bytes starting outside
the buffer, return 20 and move the cursor to 16, where a bounds-checked transfer
would return 0 and leave the cursor alone. -/
theorem state_read_write_overrun_wrapped_cursor (lb sb p : Nat → Nat) :
    (state_fseek ⟨lb, sb, 16, 0⟩ (-4) Whence.SEEK_CUR).2.pos = 18446744073709551612
    ∧ (state_read p 1 1 ⟨lb, sb, 16, 18446744073709551612⟩).ret = 20
    ∧ (state_read p 1 1 ⟨lb, sb, 16, 18446744073709551612⟩).state.pos = 16
    ∧ (state_read p 1 1 ⟨lb, sb, 16, 18446744073709551612⟩).p 0 = lb 18446744073709551612
    ∧ (state_write p 1 1 ⟨lb, sb, 16, 18446744073709551612⟩).ret = 20
    ∧ (state_write p 1 1 ⟨lb, sb, 16, 18446744073709551612⟩).state.pos = 16
    ∧ (state_write p 1 1 ⟨lb, sb, 16, 18446744073709551612⟩).state.save_buf
        18446744073709551612 = p 0 := by
  rw [state_read_at_wrapped, state_write_at_wrapped]
  exact ⟨state_fseek_back_from_zero lb sb, rfl, rfl, memcpy_from_at_wrapped lb p, rfl, rfl,
    memcpy_to_at_wrapped sb p⟩

/-- C8 as stated fails: `state_skip` of one byte on the zero-initialised stream of the
size-probing pass (size 0, cursor 0) leaves the cursor at 1, beyond the size. -/
theorem state_skip_breaks_pos_le_size :
    savestate_zero.pos ≤ savestate_zero.size
    ∧ ¬ ((state_skip (fun _ => 0) 1 1 savestate_zero).state.pos
          ≤ (state_skip (fun _ => 0) 1 1 savestate_zero).state.size) := by
  have h : addSize 0 (1 * 1 % SIZE_MOD) = 1 := by unfold addSize SIZE_MOD; omega
  simp only [state_skip, savestate_zero, h]
  omega

/-- C8, amended: `pos <= size` is preserved by `state_read`, `state_write` and
`state_eof`, for every request and every caller memory; none of them changes `size`. -/
theorem read_write_eof_preserve_pos_le_size (p : Nat → Nat) (size nmemb : Nat)
    (st : savestate_state) (hsz : st.size < SIZE_MOD) (h : st.pos ≤ st.size) :
    ((state_read p size nmemb st).state.pos ≤ (state_read p size nmemb st).state.size
      ∧ (state_read p size nmemb st).state.size = st.size)
    ∧ ((state_write p size nmemb st).state.pos ≤ (state_write p size nmemb st).state.size
      ∧ (state_write p size nmemb st).state.size = st.size)
    ∧ ((state_eof st).2.pos ≤ (state_eof st).2.size ∧ (state_eof st).2.size = st.size) := by
  have key : ∀ n, ¬ (addSize st.pos n > st.size) → addSize st.pos n ≤ st.size := by
    intro n hn; omega
  have h2 : addSize st.pos (subSize st.size st.pos) = st.size := by
    rw [subSize_of_le h hsz, addSize_of_lt (by omega)]; omega
  refine ⟨?_, ?_, ?_⟩
  · unfold state_read
    simp only []
    split
    · split
      · exact ⟨h, rfl⟩
      · exact ⟨by simp only [h2]; exact Nat.le_refl _, rfl⟩
    · rename_i hc
      exact ⟨key _ hc, rfl⟩
  · unfold state_write
    simp only []
    split
    · split
      · exact ⟨h, rfl⟩
      · exact ⟨by simp only [h2]; exact Nat.le_refl _, rfl⟩
    · rename_i hc
      exact ⟨key _ hc, rfl⟩
  · exact ⟨h, rfl⟩

/-- Witness for C8: a stream of 16 bytes with the cursor at 10, request of 4 by 3 bytes. -/
theorem read_write_eof_preserve_pos_le_size_witness :
    ((state_read (fun _ => 0) 4 3 ⟨fun _ => 0, fun _ => 0, 16, 10⟩).state.pos
        ≤ (state_read (fun _ => 0) 4 3 ⟨fun _ => 0, fun _ => 0, 16, 10⟩).state.size
      ∧ (state_read (fun _ => 0) 4 3 ⟨fun _ => 0, fun _ => 0, 16, 10⟩).state.size = 16)
    ∧ ((state_write (fun _ => 0) 4 3 ⟨fun _ => 0, fun _ => 0, 16, 10⟩).state.pos
        ≤ (state_write (fun _ => 0) 4 3 ⟨fun _ => 0, fun _ => 0, 16, 10⟩).state.size
      ∧ (state_write (fun _ => 0) 4 3 ⟨fun _ => 0, fun _ => 0, 16, 10⟩).state.size = 16)
    ∧ ((state_eof ⟨fun _ => 0, fun _ => 0, 16, 10⟩).2.pos
        ≤ (state_eof ⟨fun _ => 0, fun _ => 0, 16, 10⟩).2.size
      ∧ (state_eof ⟨fun _ => 0, fun _ => 0, 16, 10⟩).2.size = 16) :=
  read_write_eof_preserve_pos_le_size (fun _ => 0) 4 3 ⟨fun _ => 0, fun _ => 0, 16, 10⟩
    (by decide) (by decide)

/-! ## Theorems: disk manager -/

/-- C4: for an index outside the table of 8 slots, `disk_set_image_index` returns
false, makes no call into the media code and leaves the whole disk manager (current
index, eject flag, disk count, every slot) as it was. -/
theorem disk_set_image_index_out_of_range (e : cd_engine) (index : Nat) (s : disk_manager)
    (h : index ≥ 8) :
    (disk_set_image_index e index s).ret = false
    ∧ (disk_set_image_index e index s).state = s
    ∧ (disk_set_image_index e index s).calls = [] := by
  have h8 : ¬ index < 8 := by omega
  simp [disk_set_image_index, h8]

/-- Witness for C4: index 8 on the empty disk manager. -/
theorem disk_set_image_index_out_of_range_witness :
    (disk_set_image_index ⟨fun _ => 1, fun _ _ => 0, 0⟩ 8 disk_manager_empty).ret = false
    ∧ (disk_set_image_index ⟨fun _ => 1, fun _ _ => 0, 0⟩ 8 disk_manager_empty).state
        = disk_manager_empty
    ∧ (disk_set_image_index ⟨fun _ => 1, fun _ _ => 0, 0⟩ 8 disk_manager_empty).calls = [] :=
  disk_set_image_index_out_of_range ⟨fun _ => 1, fun _ _ => 0, 0⟩ 8 disk_manager_empty
    (by decide)

/-- C5: for an index below 8 whose slot holds no path, `disk_set_image_index` returns
true and makes that index the current one, without any call into the media code and
without changing a slot, the disk count or the eject flag. -/
theorem disk_set_image_index_empty_slot (e : cd_engine) (index : Nat) (s : disk_manager)
    (h : index < 8) (hslot : (s.disks ⟨index, h⟩).fname = none) :
    (disk_set_image_index e index s).ret = true
    ∧ (disk_set_image_index e index s).state.disk_current_index = index
    ∧ (disk_set_image_index e index s).calls = []
    ∧ (disk_set_image_index e index s).state.disks = s.disks
    ∧ (disk_set_image_index e index s).state.disk_count = s.disk_count
    ∧ (disk_set_image_index e index s).state.disk_ejected = s.disk_ejected := by
  simp [disk_set_image_index, h, hslot]

/-- Witness for C5: index 3 on the empty disk manager. -/
theorem disk_set_image_index_empty_slot_witness :
    (disk_set_image_index ⟨fun _ => 1, fun _ _ => 0, 0⟩ 3 disk_manager_empty).ret = true
    ∧ (disk_set_image_index ⟨fun _ => 1, fun _ _ => 0, 0⟩ 3
        disk_manager_empty).state.disk_current_index = 3
    ∧ (disk_set_image_index ⟨fun _ => 1, fun _ _ => 0, 0⟩ 3 disk_manager_empty).calls = []
    ∧ (disk_set_image_index ⟨fun _ => 1, fun _ _ => 0, 0⟩ 3 disk_manager_empty).state.disks
        = disk_manager_empty.disks
    ∧ (disk_set_image_index ⟨fun _ => 1, fun _ _ => 0, 0⟩ 3
        disk_manager_empty).state.disk_count = disk_manager_empty.disk_count
    ∧ (disk_set_image_index ⟨fun _ => 1, fun _ _ => 0, 0⟩ 3
        disk_manager_empty).state.disk_ejected = disk_manager_empty.disk_ejected :=
  disk_set_image_index_empty_slot ⟨fun _ => 1, fun _ _ => 0, 0⟩ 3 disk_manager_empty
    (by decide) rfl

/-- C6: for an index below 8 whose slot holds a path, when `PicoCdCheck` yields a
negative or unknown type or `cdd_load` returns non-zero, `disk_set_image_index` returns
false and leaves the disk manager, the current index included, as it was; it returns
true exactly when the type is recognised and `cdd_load` returned 0, and only then,
after that call of `cdd_load`, the current index becomes `index`. -/
theorem disk_set_image_index_load (e : cd_engine) (index : Nat) (s : disk_manager)
    (fname : List Char) (h : index < 8) (hslot : (s.disks ⟨index, h⟩).fname = some fname) :
    ((e.PicoCdCheck fname < 0 ∨ e.PicoCdCheck fname = e.CT_UNKNOWN
        ∨ e.cdd_load fname (e.PicoCdCheck fname) ≠ 0) →
      (disk_set_image_index e index s).ret = false ∧ (disk_set_image_index e index s).state = s)
    ∧ ((disk_set_image_index e index s).ret = true ↔
        (0 ≤ e.PicoCdCheck fname ∧ e.PicoCdCheck fname ≠ e.CT_UNKNOWN
          ∧ e.cdd_load fname (e.PicoCdCheck fname) = 0))
    ∧ ((disk_set_image_index e index s).ret = true →
        (disk_set_image_index e index s).state.disk_current_index = index
        ∧ media_call.cdd_load fname (e.PicoCdCheck fname) ∈ (disk_set_image_index e index s).calls) := by
  simp only [disk_set_image_index, h, hslot, dite_true]
  by_cases h1 : e.PicoCdCheck fname ≥ 0 ∧ e.PicoCdCheck fname ≠ e.CT_UNKNOWN
  · by_cases h2 : e.cdd_load fname (e.PicoCdCheck fname) ≠ 0
    · rw [if_pos h1, if_pos h2]
      refine ⟨fun _ => ⟨rfl, rfl⟩, ⟨fun hc => ?_, fun hc => absurd hc.2.2 h2⟩, fun hc => ?_⟩
      · exact absurd hc (by simp)
      · exact absurd hc (by simp)
    · rw [if_pos h1, if_neg h2]
      have h2' : e.cdd_load fname (e.PicoCdCheck fname) = 0 := by
        by_contra hne; exact h2 hne
      refine ⟨fun hb => ?_, ⟨fun _ => ⟨h1.1, h1.2, h2'⟩, fun _ => rfl⟩, fun _ => ⟨rfl, ?_⟩⟩
      · rcases hb with hb | hb | hb
        · exact absurd h1.1 (by omega)
        · exact absurd hb h1.2
        · exact absurd h2' hb
      · simp
  · rw [if_neg h1]
    refine ⟨fun _ => ⟨rfl, rfl⟩, ⟨fun hc => ?_, fun hc => absurd ⟨hc.1, hc.2.1⟩ h1⟩, fun hc => ?_⟩
    · exact absurd hc (by simp)
    · exact absurd hc (by simp)

/-- Witness for C6: slot 0 holds `a.cue`, the image is recognised (type 1) and
`cdd_load` fails with 5. -/
theorem disk_set_image_index_load_witness :
    (((1 : Int) < 0 ∨ (1 : Int) = 0 ∨ (5 : Int) ≠ 0) →
      (disk_set_image_index ⟨fun _ => 1, fun _ _ => 5, 0⟩ 0 disk_manager_one).ret = false
      ∧ (disk_set_image_index ⟨fun _ => 1, fun _ _ => 5, 0⟩ 0 disk_manager_one).state
          = disk_manager_one)
    ∧ ((disk_set_image_index ⟨fun _ => 1, fun _ _ => 5, 0⟩ 0 disk_manager_one).ret = true ↔
        ((0 : Int) ≤ 1 ∧ (1 : Int) ≠ 0 ∧ (5 : Int) = 0))
    ∧ ((disk_set_image_index ⟨fun _ => 1, fun _ _ => 5, 0⟩ 0 disk_manager_one).ret = true →
        (disk_set_image_index ⟨fun _ => 1, fun _ _ => 5, 0⟩ 0
          disk_manager_one).state.disk_current_index = 0
        ∧ media_call.cdd_load ['a', '.', 'c', 'u', 'e'] 1
            ∈ (disk_set_image_index ⟨fun _ => 1, fun _ _ => 5, 0⟩ 0 disk_manager_one).calls) :=
  disk_set_image_index_load ⟨fun _ => 1, fun _ _ => 5, 0⟩ 0 disk_manager_one
    ['a', '.', 'c', 'u', 'e'] (by decide) (by decide)

/-- C18: from every state, `disk_init` leaves all 8 slots without path and without
label, the disk count 0, the current index 0 and the eject flag false. -/
theorem disk_init_clears (s : disk_manager) :
    (∀ i : Fin 8, ((disk_init s).disks i).fname = none ∧ ((disk_init s).disks i).flabel = none)
    ∧ (disk_init s).disk_count = 0
    ∧ (disk_init s).disk_current_index = 0
    ∧ (disk_init s).disk_ejected = false :=
  ⟨fun _ => ⟨rfl, rfl⟩, rfl, rfl, rfl⟩

/-- C13 as stated fails: with slot 0 holding `a.cue` and one disk counted,
`retro_unload_game` leaves the path in slot 0 and the disk count at 1. -/
theorem retro_unload_game_keeps_disks :
    ((retro_unload_game disk_manager_one).disks 0).fname = some ['a', '.', 'c', 'u', 'e']
    ∧ (retro_unload_game disk_manager_one).disk_count = 1
    ∧ ¬ ((∀ i : Fin 8, ((retro_unload_game disk_manager_one).disks i).fname = none
            ∧ ((retro_unload_game disk_manager_one).disks i).flabel = none)
          ∧ (retro_unload_game disk_manager_one).disk_count = 0) := by
  refine ⟨by decide, rfl, ?_⟩
  intro hc
  exact absurd hc.2 (by decide)

/-- C13, amended: `retro_unload_game` leaves the disk manager as it was; it is
`retro_deinit` after which, from every prior state, all 8 slots hold no path and no
label and the disk count is 0. -/
theorem retro_deinit_clears_disks (s : disk_manager) :
    retro_unload_game s = s
    ∧ (∀ i : Fin 8, ((retro_deinit s).disks i).fname = none
          ∧ ((retro_deinit s).disks i).flabel = none)
    ∧ (retro_deinit s).disk_count = 0 :=
  ⟨rfl, fun _ => ⟨rfl, rfl⟩, rfl⟩

/-- C14: `disk_add_image_index` returns true exactly when fewer than 8 disks are
counted and then adds 1 to the disk count; with 8 or more it leaves the count as it
was; the current index, the eject flag and the slots are never changed. -/
theorem disk_add_image_index_counts (s : disk_manager) :
    ((disk_add_image_index s).1 = true ↔ s.disk_count < 8)
    ∧ (disk_add_image_index s).2.disk_count = (if s.disk_count < 8 then s.disk_count + 1
        else s.disk_count)
    ∧ (disk_add_image_index s).2.disk_current_index = s.disk_current_index
    ∧ (disk_add_image_index s).2.disk_ejected = s.disk_ejected
    ∧ (disk_add_image_index s).2.disks = s.disks := by
  unfold disk_add_image_index
  by_cases h : s.disk_count ≥ 8
  · have h2 : ¬ s.disk_count < 8 := by omega
    simp [h, h2]
  · have h2 : s.disk_count < 8 := by omega
    simp [h, h2]

/-- After a successful `disk_get_image_path` on a slot holding `p`, the buffer holds
the first `min |p| (len - 1)` characters of `p` followed by a NUL. -/
theorem disk_get_image_path_some (index : Nat) (path : Nat → Char) (len : Nat) (s : disk_manager)
    (p : List Char) (h : index < 8) (hlen : 1 ≤ len) (hp : p ≠ [])
    (hslot : (s.disks ⟨index, h⟩).fname = some p) :
    (disk_get_image_path index path len s).1 = true
    ∧ (∀ i, i < min p.length (len - 1) →
        (disk_get_image_path index path len s).2 i = p.getD i (Char.ofNat 0))
    ∧ (disk_get_image_path index path len s).2 (min p.length (len - 1)) = Char.ofNat 0 := by
  have hl : ¬ len < 1 := by omega
  cases p with
  | nil => exact absurd rfl hp
  | cons c cs =>
    simp only [disk_get_image_path, hl, h, hslot, if_false, dite_true]
    refine ⟨trivial, ?_, ?_⟩
    · intro i hi
      have h1 : i ≠ len - 1 := by omega
      have h2 : i < len - 1 := by omega
      simp [Function.update, h1, strncpy, h2]
    · by_cases hc : (c :: cs).length < len - 1
      · have h1 : min (c :: cs).length (len - 1) = (c :: cs).length := by omega
        have h2 : (c :: cs).length ≠ len - 1 := by omega
        rw [h1, Function.update_noteq h2]
        simp only [strncpy, hc, if_true]
        exact List.getD_eq_default _ _ (Nat.le_refl _)
      · have h1 : min (c :: cs).length (len - 1) = len - 1 := by omega
        rw [h1, Function.update_same]

/-- The cases in which `disk_get_image_path` fails: `len < 1`, `index >= 8`, or a slot
without path; the buffer is left as it was. -/
theorem disk_get_image_path_fails (index : Nat) (path : Nat → Char) (len : Nat) (s : disk_manager)
    (hbad : len < 1 ∨ index ≥ 8 ∨ ∃ h : index < 8, (s.disks ⟨index, h⟩).fname = none) :
    disk_get_image_path index path len s = (false, path) := by
  unfold disk_get_image_path
  rcases hbad with hb | hb | ⟨h, hb⟩
  · simp [hb]
  · have h8 : ¬ index < 8 := by omega
    simp [h8]
  · simp [h, hb]

/-- The function `disk_set_image_index` changes no slot, whatever it returns. -/
theorem disk_set_image_index_keeps_slots (e : cd_engine) (index : Nat) (t : disk_manager) :
    (disk_set_image_index e index t).state.disks = t.disks := by
  unfold disk_set_image_index
  by_cases h : index < 8
  · simp only [h, dite_true]
    cases (t.disks ⟨index, h⟩).fname with
    | none => rfl
    | some f =>
      simp only []
      split_ifs <;> rfl
  · simp only [h, dite_false]

/-- On a slot that holds neither path nor label, `disk_replace_image_index` with a
path `p` stores `p` in the slot, whatever it returns. -/
theorem disk_replace_image_index_empty_slot (e : cd_engine) (index : Nat) (p : List Char)
    (s : disk_manager) (h : index < 8)
    (hslot : s.disks ⟨index, h⟩ = { fname := none, flabel := none }) :
    ∃ r, disk_replace_image_index e index (some p) s = some r
      ∧ (r.state.disks ⟨index, h⟩).fname = some p := by
  simp only [disk_replace_image_index, h, hslot, dite_true]
  simp only [Option.isSome_none, Bool.false_eq_true, or_self, if_false]
  refine ⟨_, rfl, ?_⟩
  split_ifs
  · rw [disk_set_image_index_keeps_slots]
    simp
  · simp

/-- C15: with slot 0 holding `a.cue` (as `read_m3u` or an earlier replacement leaves
it), `disk_replace_image_index(0, info)` with the path `b.cue`, and likewise with a
`NULL` info, releases the old path and label twice; the call has no defined result,
so nothing is guaranteed about a following `disk_get_image_path`. -/
theorem disk_replace_image_index_releases_twice :
    disk_replace_image_index ⟨fun _ => 1, fun _ _ => 0, 0⟩ 0 (some ['b', '.', 'c', 'u', 'e'])
        disk_manager_one = none
    ∧ disk_replace_image_index ⟨fun _ => 1, fun _ _ => 0, 0⟩ 0 none disk_manager_one = none := by
  constructor <;> rfl

/-! ## Theorems: frameskip -/

/-- The decision of one frame: what `PicoIn.skipFrame` is and what becomes of the
counter. -/
theorem retro_run_frameskip_cases (s : frameskip_state) :
    ((retro_run_frameskip s).1 = 1
        ∧ s.frameskip_counter < 60
        ∧ (retro_run_frameskip s).2.frameskip_counter = s.frameskip_counter + 1
        ∧ s.frameskip_type > 0 ∧ s.retro_audio_buff_active = true
        ∧ ((s.frameskip_type = 1 ∧ s.retro_audio_buff_underrun = true)
            ∨ (s.frameskip_type = 2 ∧ s.retro_audio_buff_occupancy < s.frameskip_threshold)))
    ∨ ((retro_run_frameskip s).1 = 0
        ∧ (retro_run_frameskip s).2.frameskip_counter = 0
        ∧ s.frameskip_type > 0 ∧ s.retro_audio_buff_active = true
        ∧ (s.frameskip_counter ≥ 60
            ∨ ¬ ((s.frameskip_type = 1 ∧ s.retro_audio_buff_underrun = true)
              ∨ (s.frameskip_type = 2 ∧ s.retro_audio_buff_occupancy < s.frameskip_threshold))))
    ∨ ((retro_run_frameskip s).1 = 0
        ∧ (retro_run_frameskip s).2 = s
        ∧ (s.frameskip_type = 0 ∨ s.retro_audio_buff_active = false)) := by
  obtain ⟨ty, thr, c, act, occ, und⟩ := s
  simp only [retro_run_frameskip, FRAMESKIP_MAX]
  cases act
  · right; right
    simp
  · rcases ty with _ | _ | _ | n
    · right; right
      simp
    · cases und
      · right; left
        simp
      · rcases Nat.lt_or_ge c 60 with hc | hc
        · left
          have h1 : (c + 1) % 65536 = c + 1 := by omega
          have h2 : ¬ c ≥ 60 := by omega
          simp [h1, h2, hc]
        · right; left
          simp [hc]
    · by_cases ho : occ < thr
      · rcases Nat.lt_or_ge c 60 with hc | hc
        · left
          have h1 : (c + 1) % 65536 = c + 1 := by omega
          have h2 : ¬ c ≥ 60 := by omega
          simp [h1, h2, hc, ho]
        · right; left
          simp [hc, ho]
      · right; left
        simp [ho]
    · right; left
      simp

/-- C17: `PicoIn.skipFrame` is 1 exactly when the audio-buffer status is active, the
counter is below 60 and either the policy is auto (1) with an underrun reported likely
or the policy is manual (2) with the occupancy below the threshold; otherwise it is 0;
with the policy off (0) or the status inactive the frame is not skipped and no
frameskip variable, the counter included, changes. -/
theorem retro_run_skip_frame_iff (s : frameskip_state) :
    ((retro_run_frameskip s).1 = 1 ↔
        (s.retro_audio_buff_active = true ∧ s.frameskip_counter < 60
          ∧ ((s.frameskip_type = 1 ∧ s.retro_audio_buff_underrun = true)
            ∨ (s.frameskip_type = 2 ∧ s.retro_audio_buff_occupancy < s.frameskip_threshold))))
    ∧ ((retro_run_frameskip s).1 = 0 ∨ (retro_run_frameskip s).1 = 1)
    ∧ ((s.frameskip_type = 0 ∨ s.retro_audio_buff_active = false) →
        (retro_run_frameskip s).1 = 0 ∧ (retro_run_frameskip s).2 = s) := by
  rcases retro_run_frameskip_cases s with h | h | h
  · obtain ⟨h1, h2, _, h4, h5, h6⟩ := h
    refine ⟨⟨fun _ => ⟨h5, h2, h6⟩, fun _ => h1⟩, Or.inr h1, ?_⟩
    rintro (h0 | h0)
    · omega
    · rw [h5] at h0; exact absurd h0 (by decide)
  · obtain ⟨h1, _, h3, h4, h5⟩ := h
    refine ⟨⟨fun hc => ?_, fun hc => ?_⟩, Or.inl h1, ?_⟩
    · omega
    · rcases h5 with h5 | h5
      · omega
      · exact absurd hc.2.2 h5
    · rintro (h0 | h0)
      · omega
      · rw [h4] at h0; exact absurd h0 (by decide)
  · obtain ⟨h1, h2, h3⟩ := h
    refine ⟨⟨fun hc => ?_, fun hc => ?_⟩, Or.inl h1, fun _ => ⟨h1, h2⟩⟩
    · omega
    · rcases h3 with h3 | h3
      · rcases hc.2.2 with h4 | h4 <;> omega
      · rw [hc.1] at h3; exact absurd h3 (by decide)

/-- The counter after a step, in terms of the value of `PicoIn.skipFrame`. -/
theorem retro_run_step_counter (e : frame_env) (s : frameskip_state) :
    ((retro_run_step e s).1 = 1 ∧ s.frameskip_counter < 60
        ∧ (retro_run_step e s).2.frameskip_counter = s.frameskip_counter + 1)
    ∨ ((retro_run_step e s).1 = 0
        ∧ ((retro_run_step e s).2.frameskip_counter = 0
          ∨ ((retro_run_step e s).2.frameskip_counter = s.frameskip_counter
              ∧ (e.frameskip_type = 0 ∨ e.active = false)))) := by
  unfold retro_run_step
  rcases retro_run_frameskip_cases
    { frameskip_type := e.frameskip_type, frameskip_threshold := e.frameskip_threshold,
      frameskip_counter := s.frameskip_counter, retro_audio_buff_active := e.active,
      retro_audio_buff_occupancy := e.occupancy, retro_audio_buff_underrun := e.underrun }
    with h | h | h
  · exact Or.inl ⟨h.1, h.2.1, h.2.2.1⟩
  · exact Or.inr ⟨h.1, Or.inl h.2.1⟩
  · refine Or.inr ⟨h.1, Or.inr ⟨?_, h.2.2⟩⟩
    rw [h.2.1]

/-- C19: the counter is 0 after `retro_init`; a `retro_run` step from a counter of at
most 60 leaves it at most 60, for every policy, threshold and audio-buffer status;
and a frame that is rendered (`PicoIn.skipFrame` 0) while frameskip is active (policy
not off, status active) leaves the counter at 0. -/
theorem frameskip_counter_le_max (type threshold : Nat) (e : frame_env) (s : frameskip_state)
    (h : s.frameskip_counter ≤ FRAMESKIP_MAX) :
    (retro_init type threshold).frameskip_counter = 0
    ∧ (retro_run_step e s).2.frameskip_counter ≤ FRAMESKIP_MAX
    ∧ ((e.frameskip_type > 0 ∧ e.active = true ∧ (retro_run_step e s).1 = 0) →
        (retro_run_step e s).2.frameskip_counter = 0) := by
  unfold FRAMESKIP_MAX at *
  refine ⟨rfl, ?_, ?_⟩
  · rcases retro_run_step_counter e s with h1 | ⟨_, h1 | h1⟩ <;> omega
  · rintro ⟨ht, ha, h0⟩
    rcases retro_run_step_counter e s with h1 | ⟨_, h1 | h1⟩
    · omega
    · exact h1
    · rcases h1.2 with h2 | h2
      · omega
      · rw [ha] at h2; exact absurd h2 (by decide)

/-- Witness for C19: manual policy with threshold 33, occupancy 10, counter 59. -/
theorem frameskip_counter_le_max_witness :
    (retro_init 2 33).frameskip_counter = 0
    ∧ (retro_run_step ⟨2, 33, true, 10, false⟩ ⟨2, 33, 59, true, 10, false⟩).2.frameskip_counter
        ≤ FRAMESKIP_MAX
    ∧ (((2 : Nat) > 0 ∧ true = true
          ∧ (retro_run_step ⟨2, 33, true, 10, false⟩ ⟨2, 33, 59, true, 10, false⟩).1 = 0) →
        (retro_run_step ⟨2, 33, true, 10, false⟩
          ⟨2, 33, 59, true, 10, false⟩).2.frameskip_counter = 0) :=
  frameskip_counter_le_max 2 33 ⟨2, 33, true, 10, false⟩ ⟨2, 33, 59, true, 10, false⟩
    (by decide)

/-- When the first `k` frames of a run are all skipped, either `k` is 0 or the counter
the run starts from, plus `k`, is at most 60. -/
theorem skipped_prefix_bound (k : Nat) (es : List frame_env) (s : frameskip_state)
    (h : ∀ j, j < k → ∃ v, (retro_run_steps es s).1[j]? = some v ∧ v ≠ 0) :
    k = 0 ∨ s.frameskip_counter + k ≤ 60 := by
  induction k generalizing es s with
  | zero => exact Or.inl rfl
  | succ k ih =>
    right
    cases es with
    | nil =>
      obtain ⟨v, hv, _⟩ := h 0 (by omega)
      simp [retro_run_steps] at hv
    | cons e es =>
      obtain ⟨v, hv, hv0⟩ := h 0 (by omega)
      simp only [retro_run_steps, List.getElem?_cons_zero, Option.some.injEq] at hv
      have hrest : ∀ j, j < k →
          ∃ v, (retro_run_steps es (retro_run_step e s).2).1[j]? = some v ∧ v ≠ 0 := by
        intro j hj
        obtain ⟨w, hw, hw0⟩ := h (j + 1) (by omega)
        simp only [retro_run_steps, List.getElem?_cons_succ] at hw
        exact ⟨w, hw, hw0⟩
      rcases retro_run_step_counter e s with h1 | h1
      · rcases ih es (retro_run_step e s).2 hrest with h2 | h2
        · omega
        · omega
      · omega

/-- From every state, every window of 61 consecutive frames of a run holds a frame
that is not skipped. -/
theorem skipped_window_bound (i : Nat) (es : List frame_env) (s : frameskip_state) :
    ∃ j, j < 61 ∧ ∀ v, (retro_run_steps es s).1[i + j]? = some v → v = 0 := by
  induction i generalizing es s with
  | zero =>
    by_contra hc
    have hall : ∀ j, j < 61 → ∃ v, (retro_run_steps es s).1[j]? = some v ∧ v ≠ 0 := by
      intro j hj
      by_contra hn
      apply hc
      refine ⟨j, hj, fun v hv => ?_⟩
      by_contra hv0
      exact hn ⟨v, by simpa using hv, hv0⟩
    rcases skipped_prefix_bound 61 es s hall with h | h <;> omega
  | succ i ih =>
    cases es with
    | nil =>
      refine ⟨0, by omega, fun v hv => ?_⟩
      simp [retro_run_steps] at hv
    | cons e es =>
      obtain ⟨j, hj, hv⟩ := ih es (retro_run_step e s).2
      refine ⟨j, hj, fun v hv1 => hv v ?_⟩
      have : i + 1 + j = (i + j) + 1 := by omega
      rw [this] at hv1
      simpa [retro_run_steps] using hv1

/-- C9: in every run of `retro_run` steps from the state `retro_init` leaves, whatever
the policy, the threshold and the audio-buffer status of each frame, every window of
61 consecutive frames holds a position that is not a frame with `PicoIn.skipFrame`
set: at most 60 (`FRAMESKIP_MAX`) consecutive frames are skipped. -/
theorem at_most_60_consecutive_skips (type threshold : Nat) (es : List frame_env) (i : Nat) :
    ∃ j, j < FRAMESKIP_MAX + 1
      ∧ ∀ v, (retro_run_steps es (retro_init type threshold)).1[i + j]? = some v → v = 0 :=
  skipped_window_bound i es (retro_init type threshold)

/-! ## Theorems: input -/

/-- The loop ORs into `pad` the table entries of the pressed buttons it visits. -/
theorem pad_loop_eq_foldl (map : List Nat) (pressed : Nat → Bool) (n i pad : Nat) :
    pad_loop map pressed n i pad
      = (((List.range' i n).filter pressed).map (fun k => map.getD k 0)).foldl
          (fun a b => a ||| b) pad := by
  induction n generalizing i pad with
  | zero => simp [pad_loop]
  | succ n ih =>
    rw [pad_loop, ih, List.range'_succ]
    cases hp : pressed i
    · simp [List.filter_cons, hp]
    · simp [List.filter_cons, hp]

/-- The loop only looks at the buttons it visits. -/
theorem pad_loop_congr (map : List Nat) (p q : Nat → Bool) (n i pad : Nat)
    (h : ∀ k, i ≤ k → k < i + n → p k = q k) :
    pad_loop map p n i pad = pad_loop map q n i pad := by
  induction n generalizing i pad with
  | zero => rfl
  | succ n ih =>
    rw [pad_loop, pad_loop, h i (Nat.le_refl _) (by omega)]
    exact ih _ _ (fun k hk1 hk2 => h k (by omega) (by omega))

/-- C16: on either path the pad value is the bitwise OR of `retro_pico_map[i]` over
the `i` in 0..11 whose button is reported pressed (bit `i` of the mask word, or a
non-zero answer to query `i`); when the answers agree on 0..11 the two paths give the
same pad value; and a mask word that differs only in bits 12 and up gives the same pad
value. -/
theorem pad_value_paths_agree (g : gbtn) (input input2 : Nat) (query : Nat → Int)
    (hagree : ∀ i, i < 12 → (query i ≠ 0 ↔ input.testBit i = true))
    (hlow : input2 % 4096 = input % 4096) :
    retro_run_pad_bitmask g input = pad_or_of_pressed g (fun i => input.testBit i)
    ∧ retro_run_pad_buttons g query = pad_or_of_pressed g (fun i => decide (query i ≠ 0))
    ∧ retro_run_pad_buttons g query = retro_run_pad_bitmask g input
    ∧ retro_run_pad_bitmask g input2 = retro_run_pad_bitmask g input := by
  have hlen : RETRO_PICO_MAP_LEN g = 12 := rfl
  refine ⟨?_, ?_, ?_, ?_⟩
  · unfold retro_run_pad_bitmask pad_or_of_pressed
    rw [hlen, pad_loop_eq_foldl, List.range_eq_range']
  · unfold retro_run_pad_buttons pad_or_of_pressed
    rw [hlen, pad_loop_eq_foldl, List.range_eq_range']
  · unfold retro_run_pad_buttons retro_run_pad_bitmask
    rw [hlen]
    apply pad_loop_congr
    intro k _ hk
    have := hagree k (by omega)
    cases hb : input.testBit k
    · simp [hb] at this
      simp [this]
    · simp [hb] at this
      simp [this]
  · unfold retro_run_pad_bitmask
    rw [hlen]
    apply pad_loop_congr
    intro k _ hk
    have h1 : ∀ x : Nat, (x % 4096).testBit k = x.testBit k := by
      intro x
      have := Nat.testBit_mod_two_pow x 12 k
      have hk12 : k < 12 := by omega
      simpa [hk12] using this
    show input2.testBit k = input.testBit k
    rw [← h1 input2, ← h1 input, hlow]

/-- Witness for C16: buttons 0 and 2 pressed, the second mask word with bit 12 set. -/
theorem pad_value_paths_agree_witness :
    retro_run_pad_bitmask ⟨4, 6, 11, 7, 0, 1, 2, 3, 5, 9, 10, 8⟩ 5
        = pad_or_of_pressed ⟨4, 6, 11, 7, 0, 1, 2, 3, 5, 9, 10, 8⟩ (fun i => Nat.testBit 5 i)
    ∧ retro_run_pad_buttons ⟨4, 6, 11, 7, 0, 1, 2, 3, 5, 9, 10, 8⟩
          (fun i => if i = 0 ∨ i = 2 then 1 else 0)
        = pad_or_of_pressed ⟨4, 6, 11, 7, 0, 1, 2, 3, 5, 9, 10, 8⟩
            (fun i => decide ((if i = 0 ∨ i = 2 then (1 : Int) else 0) ≠ 0))
    ∧ retro_run_pad_buttons ⟨4, 6, 11, 7, 0, 1, 2, 3, 5, 9, 10, 8⟩
          (fun i => if i = 0 ∨ i = 2 then 1 else 0)
        = retro_run_pad_bitmask ⟨4, 6, 11, 7, 0, 1, 2, 3, 5, 9, 10, 8⟩ 5
    ∧ retro_run_pad_bitmask ⟨4, 6, 11, 7, 0, 1, 2, 3, 5, 9, 10, 8⟩ 4101
        = retro_run_pad_bitmask ⟨4, 6, 11, 7, 0, 1, 2, 3, 5, 9, 10, 8⟩ 5 :=
  pad_value_paths_agree ⟨4, 6, 11, 7, 0, 1, 2, 3, 5, 9, 10, 8⟩ 5 4101
    (fun i => if i = 0 ∨ i = 2 then 1 else 0) (by decide) (by decide)

/-! ## Theorems: palette conversion -/

/-- One pass of the inner loop body stores four pixels. -/
theorem convert_pixel4 (pal : Nat → Nat) (fb : Int → Nat) (st : convert_state) :
    (convert_pixel pal fb (convert_pixel pal fb (convert_pixel pal fb
        (convert_pixel pal fb st)))).pd = st.pd + 4
    ∧ (convert_pixel pal fb (convert_pixel pal fb (convert_pixel pal fb
        (convert_pixel pal fb st)))).ps = st.ps + 4
    ∧ (∀ j : Nat, j < 4 →
        (convert_pixel pal fb (convert_pixel pal fb (convert_pixel pal fb
          (convert_pixel pal fb st)))).vout_buf (st.pd + j) = pal (fb (st.ps + j)))
    ∧ (∀ k, (k < st.pd ∨ st.pd + 4 ≤ k) →
        (convert_pixel pal fb (convert_pixel pal fb (convert_pixel pal fb
          (convert_pixel pal fb st)))).vout_buf k = st.vout_buf k) := by
  refine ⟨rfl, by simp only [convert_pixel]; omega, ?_, ?_⟩
  · intro j hj
    have hj4 : j = 0 ∨ j = 1 ∨ j = 2 ∨ j = 3 := by omega
    rcases hj4 with rfl | rfl | rfl | rfl <;>
      simp [convert_pixel, Function.update, add_assoc]
  · intro k hk
    have h0 : k ≠ st.pd := by omega
    have h1 : k ≠ st.pd + 1 := by omega
    have h2 : k ≠ st.pd + 1 + 1 := by omega
    have h3 : k ≠ st.pd + 1 + 1 + 1 := by omega
    simp [convert_pixel, Function.update, h0, h1, h2, h3]

/-- The inner loop run `n` times stores `4 * n` pixels, taken through the palette from
`4 * n` consecutive bytes of the image, and touches nothing else. -/
theorem convert_row_spec (pal : Nat → Nat) (fb : Int → Nat) (n : Nat) (st : convert_state) :
    (convert_row pal fb n st).pd = st.pd + 4 * n
    ∧ (convert_row pal fb n st).ps = st.ps + 4 * n
    ∧ (∀ j : Nat, j < 4 * n →
        (convert_row pal fb n st).vout_buf (st.pd + j) = pal (fb (st.ps + j)))
    ∧ (∀ k, (k < st.pd ∨ st.pd + 4 * n ≤ k) →
        (convert_row pal fb n st).vout_buf k = st.vout_buf k) := by
  induction n generalizing st with
  | zero =>
    refine ⟨rfl, by simp [convert_row], fun j hj => by omega, fun _ _ => rfl⟩
  | succ n ih =>
    obtain ⟨p1, p2, p3, p4⟩ := convert_pixel4 pal fb st
    obtain ⟨r1, r2, r3, r4⟩ := ih (convert_pixel pal fb (convert_pixel pal fb
      (convert_pixel pal fb (convert_pixel pal fb st))))
    rw [convert_row]
    refine ⟨by rw [r1, p1]; omega, by rw [r2, p2]; push_cast; omega, ?_, ?_⟩
    · intro j hj
      by_cases h4 : j < 4
      · rw [r4 _ (Or.inl (by rw [p1]; omega))]
        exact p3 j h4
      · have hj2 : st.pd + j = (st.pd + 4) + (j - 4) := by omega
        rw [hj2, ← p1, r3 (j - 4) (by omega), p2]
        congr 2
        omega
    · intro k hk
      rw [r4 k (by rw [p1]; omega)]
      exact p4 k (by omega)

/-- The outer loop run for `n` rows of width `w = 4 * m`: row `i` of the output holds
the bytes `i * 328 ..` of the image taken through the palette; `n * w` pixels are
stored and nothing else is touched. -/
theorem convert_rows_spec (pal : Nat → Nat) (fb : Int → Nat) (w m : Nat) (hw : w = 4 * m)
    (n : Nat) (st : convert_state) :
    (convert_rows pal fb w n st).pd = st.pd + n * w
    ∧ (∀ i x : Nat, i < n → x < w →
        (convert_rows pal fb w n st).vout_buf (st.pd + i * w + x)
          = pal (fb (st.ps + i * 328 + x)))
    ∧ (∀ k, (k < st.pd ∨ st.pd + n * w ≤ k) →
        (convert_rows pal fb w n st).vout_buf k = st.vout_buf k) := by
  have hm : (w + 3) / 4 = m := by omega
  induction n generalizing st with
  | zero =>
    refine ⟨by simp [convert_rows], fun i x hi => by omega, fun _ _ => rfl⟩
  | succ n ih =>
    obtain ⟨r1, r2, r3, r4⟩ := convert_row_spec pal fb m st
    obtain ⟨q1, q2, q3⟩ := ih
      { convert_row pal fb m st with
        ps := (convert_row pal fb m st).ps + (320 - (w : Int)) + 8 }
    rw [convert_rows]
    simp only [hm, r1, r2]
    simp only [r1, r2] at q1 q2 q3
    have e1 : (n + 1) * w = n * w + w := by ring
    refine ⟨by rw [q1, e1]; omega, ?_, ?_⟩
    · intro i x hi hx
      cases i with
      | zero =>
        rw [q3 _ (Or.inl (by omega))]
        simp only [Nat.zero_mul, Nat.add_zero]
        rw [r3 x (by omega)]
        congr 2
        push_cast
        omega
      | succ i =>
        have e2 : (i + 1) * w = i * w + w := by ring
        have e3 : st.pd + (i + 1) * w + x = st.pd + 4 * m + i * w + x := by rw [e2]; omega
        rw [e3, q2 i x (by omega) hx]
        congr 2
        push_cast
        omega
    · intro k hk
      rw [q3 k (by rw [e1] at hk; omega)]
      exact r4 k (by rw [e1] at hk; omega)

/-- C20 as stated fails: on a skipped frame (`PicoIn.skipFrame` 1) with `vout_16bit` 0
and width 320, `retro_run` returns before the conversion; no pixel is stored and
`vout_buf[0]` keeps its value 0 where the palette image has 1. -/
theorem retro_run_convert_skipped_frame :
    (retro_run_convert 1 false 320 (fun _ => 1) (fun _ => 0) (fun _ => 0)).pd = 0
    ∧ (retro_run_convert 1 false 320 (fun _ => 1) (fun _ => 0) (fun _ => 0)).vout_buf
          (0 * 320 + 0)
        ≠ (fun _ => 1) ((fun (_ : Int) => 0) (8 + 0 * 328 + 0)) := by
  constructor
  · rfl
  · simp [retro_run_convert]

/-- C20, amended: on a frame that is not skipped, with `vout_16bit` 0 and a width of
256 or 320, `retro_run` stores `vout_buf[i*vout_width + x] = HighPal[Draw2FB[8 + i*328
+ x]]` for every row `i < 240` and column `x < vout_width`; it stores exactly
`240 * vout_width` pixels, which is within the 320x240 buffer, and leaves every later
element as it was; with `vout_16bit` set, or on a skipped frame, it stores nothing. -/
theorem retro_run_convert_spec (vout_width : Nat) (HighPal : Nat → Nat) (Draw2FB : Int → Nat)
    (vout_buf : Nat → Nat) (hw : vout_width = 256 ∨ vout_width = 320) :
    (∀ i x : Nat, i < 240 → x < vout_width →
        (retro_run_convert 0 false vout_width HighPal Draw2FB vout_buf).vout_buf
            (i * vout_width + x)
          = HighPal (Draw2FB (8 + i * 328 + x)))
    ∧ (retro_run_convert 0 false vout_width HighPal Draw2FB vout_buf).pd = 240 * vout_width
    ∧ 240 * vout_width ≤ VOUT_MAX_WIDTH * VOUT_MAX_HEIGHT
    ∧ (∀ k, 240 * vout_width ≤ k →
        (retro_run_convert 0 false vout_width HighPal Draw2FB vout_buf).vout_buf k = vout_buf k)
    ∧ (∀ skipFrame,
        (retro_run_convert skipFrame true vout_width HighPal Draw2FB vout_buf).vout_buf = vout_buf
        ∧ (retro_run_convert skipFrame true vout_width HighPal Draw2FB vout_buf).pd = 0)
    ∧ (∀ skipFrame vout_16bit, skipFrame ≠ 0 →
        (retro_run_convert skipFrame vout_16bit vout_width HighPal Draw2FB vout_buf).vout_buf
          = vout_buf
        ∧ (retro_run_convert skipFrame vout_16bit vout_width HighPal Draw2FB vout_buf).pd = 0) := by
  have h4 : ∃ m, vout_width = 4 * m := by
    rcases hw with h | h
    · exact ⟨64, by omega⟩
    · exact ⟨80, by omega⟩
  obtain ⟨m, hm⟩ := h4
  obtain ⟨c1, c2, c3⟩ := convert_rows_spec HighPal Draw2FB vout_width m hm 240
    { pd := 0, ps := 8, vout_buf := vout_buf }
  have hrun : retro_run_convert 0 false vout_width HighPal Draw2FB vout_buf
      = convert_rows HighPal Draw2FB vout_width 240 { pd := 0, ps := 8, vout_buf := vout_buf } := by
    simp [retro_run_convert, VOUT_MAX_HEIGHT]
  rw [hrun]
  refine ⟨?_, ?_, ?_, ?_, ?_, ?_⟩
  · intro i x hi hx
    have := c2 i x hi hx
    simp only [Nat.zero_add] at this
    rw [this]
  · rw [c1]; simp
  · unfold VOUT_MAX_WIDTH VOUT_MAX_HEIGHT
    rcases hw with h | h <;> omega
  · intro k hk
    exact c3 k (Or.inr (by simpa using hk))
  · intro skipFrame
    unfold retro_run_convert
    by_cases hs : skipFrame ≠ 0
    · rw [if_pos hs]
      exact ⟨rfl, rfl⟩
    · rw [if_neg hs, if_neg (by decide)]
      exact ⟨rfl, rfl⟩
  · intro skipFrame vout_16bit hs
    unfold retro_run_convert
    rw [if_pos hs]
    exact ⟨rfl, rfl⟩

/-- Witness for C20: width 256, the identity palette, an image of bytes 7. -/
theorem retro_run_convert_spec_witness :
    (∀ i x : Nat, i < 240 → x < 256 →
        (retro_run_convert 0 false 256 (fun c => c) (fun _ => 7) (fun _ => 0)).vout_buf
            (i * 256 + x)
          = (fun c => c) ((fun (_ : Int) => 7) (8 + i * 328 + x)))
    ∧ (retro_run_convert 0 false 256 (fun c => c) (fun _ => 7) (fun _ => 0)).pd = 240 * 256
    ∧ 240 * 256 ≤ VOUT_MAX_WIDTH * VOUT_MAX_HEIGHT
    ∧ (∀ k, 240 * 256 ≤ k →
        (retro_run_convert 0 false 256 (fun c => c) (fun _ => 7) (fun _ => 0)).vout_buf k
          = (fun _ => 0) k)
    ∧ (∀ skipFrame,
        (retro_run_convert skipFrame true 256 (fun c => c) (fun _ => 7) (fun _ => 0)).vout_buf
          = (fun _ => 0)
        ∧ (retro_run_convert skipFrame true 256 (fun c => c) (fun _ => 7) (fun _ => 0)).pd = 0)
    ∧ (∀ skipFrame vout_16bit, skipFrame ≠ 0 →
        (retro_run_convert skipFrame vout_16bit 256 (fun c => c) (fun _ => 7)
            (fun _ => 0)).vout_buf = (fun _ => 0)
        ∧ (retro_run_convert skipFrame vout_16bit 256 (fun c => c) (fun _ => 7)
            (fun _ => 0)).pd = 0) :=
  retro_run_convert_spec 256 (fun c => c) (fun _ => 7) (fun _ => 0) (Or.inl rfl)

/-! ## Theorems: cheats -/

/-- The stores of the reset loop are those of the active patches, in list order. -/
theorem retro_cheat_reset_loop_writes (romsize : Nat) (ps : List PicoPatch)
    (m : (Nat → Nat) × (Nat → Nat)) :
    (retro_cheat_reset_loop romsize ps m).2
      = (ps.filter (fun p => p.active)).map (fun p =>
          if p.addr < romsize then mem_write.rom p.addr p.data_old
          else mem_write.bus p.addr p.data_old) := by
  induction ps generalizing m with
  | nil => rfl
  | cons p ps ih =>
    unfold retro_cheat_reset_loop
    by_cases hr : p.addr < romsize <;> cases ha : p.active <;>
      simp [hr, ha, ih, List.filter_cons]

/-- C11 as stated fails: with an active patch for address 4 added before an active
patch for address 2, `retro_cheat_reset` restores address 4 first and address 2 second,
which is not ascending order of address. -/
theorem retro_cheat_reset_not_address_order :
    (retro_cheat_reset cheat_state_two).2 = [mem_write.rom 4 1, mem_write.rom 2 2]
    ∧ ¬ List.Pairwise (fun a b => a ≤ b)
          ((retro_cheat_reset cheat_state_two).2.map mem_write.addr) := by
  have h : (retro_cheat_reset cheat_state_two).2 = [mem_write.rom 4 1, mem_write.rom 2 2] := by
    simp [retro_cheat_reset, retro_cheat_reset_loop_writes, cheat_state_two, List.filter_cons]
  refine ⟨h, ?_⟩
  rw [h]
  decide

/-- C11, amended: `retro_cheat_reset` writes the saved original value back for every
active patch and for no inactive patch, in the order of the patch list (the order in
which the patches were added), to the ROM for an address below `Pico.romsize` and
through `m68k_write16` otherwise; afterwards the patch list is empty. -/
theorem retro_cheat_reset_list_order (s : cheat_state) :
    (retro_cheat_reset s).2
      = (s.PicoPatches.filter (fun p => p.active)).map (fun p =>
          if p.addr < s.romsize then mem_write.rom p.addr p.data_old
          else mem_write.bus p.addr p.data_old)
    ∧ (retro_cheat_reset s).1.PicoPatches = [] := by
  refine ⟨?_, rfl⟩
  unfold retro_cheat_reset
  exact retro_cheat_reset_loop_writes s.romsize s.PicoPatches (s.rom, s.bus)

/-- A list split at `d`: the first piece is the part before the first `d`, the other
pieces come from what follows that `d`. -/
theorem splitOn_take_drop (d : Char) (l : List Char) :
    l.splitOn d = l.takeWhile (fun x => x ≠ d) ::
      (match l.dropWhile (fun x => x ≠ d) with
       | [] => []
       | _ :: as => as.splitOn d) := by
  induction l with
  | nil => rfl
  | cons c l ih =>
    unfold List.splitOn at *
    rw [List.splitOnP_cons]
    by_cases hc : c = d
    · subst hc
      simp
    · have h1 : (c == d) = false := by simpa using hc
      simp only [h1, Bool.false_eq_true, if_false]
      rw [ih]
      simp [List.takeWhile_cons, List.dropWhile_cons, hc, List.modifyHead]

theorem sub_codes_nil : sub_codes [] = [] := by
  simp [sub_codes]

theorem sub_codes_cons_delim (l : List Char) : sub_codes ('+' :: l) = sub_codes l := by
  simp [sub_codes, List.splitOn, List.splitOnP_cons]

theorem sub_codes_cons_token (c : Char) (l : List Char) (hc : c ≠ '+') :
    sub_codes (c :: l)
      = ((c :: l).takeWhile (fun x => x ≠ '+'))
          :: sub_codes (((c :: l).dropWhile (fun x => x ≠ '+')).drop 1) := by
  unfold sub_codes
  rw [splitOn_take_drop '+' (c :: l)]
  have htw : (c :: l).takeWhile (fun x => x ≠ '+') ≠ [] := by
    simp [List.takeWhile_cons, hc]
  rw [List.filter_cons]
  simp only [htw, ne_eq, not_false_eq_true, decide_True, if_true]
  congr 1
  cases hd : (c :: l).dropWhile (fun x => x ≠ '+') with
  | nil => simp
  | cons x as => simp

/-- What `strtok` returns, against the sub-codes of the specification: no token when
there is no sub-code, otherwise the first sub-code, and the scan resumes on a string
whose sub-codes are the remaining ones. -/
theorem strtok_sub_codes (l : List Char) :
    (strtok l '+' = none ∧ sub_codes l = [])
    ∨ (∃ t rest, strtok l '+' = some (t, rest) ∧ sub_codes l = t :: sub_codes rest
        ∧ rest.length < l.length) := by
  induction l with
  | nil => left; exact ⟨rfl, sub_codes_nil⟩
  | cons c l ih =>
    by_cases hc : c = '+'
    · subst hc
      have hs : strtok ('+' :: l) '+' = strtok l '+' := by
        simp [strtok, List.dropWhile_cons]
      rw [hs, sub_codes_cons_delim]
      rcases ih with h | ⟨t, rest, h1, h2, h3⟩
      · exact Or.inl h
      · exact Or.inr ⟨t, rest, h1, h2, by simp; omega⟩
    · right
      refine ⟨(c :: l).takeWhile (fun x => x ≠ '+'),
        ((c :: l).dropWhile (fun x => x ≠ '+')).drop 1, ?_, sub_codes_cons_token c l hc, ?_⟩
      · simp [strtok, List.dropWhile_cons, hc]
      · have h1 : ((c :: l).dropWhile (fun x => x ≠ '+')).length ≤ l.length := by
          rw [List.dropWhile_cons]
          simp only [ne_eq, hc, not_false_eq_true, decide_True, if_true]
          exact (List.dropWhile_sublist _).length_le
        simp only [List.length_drop, List.length_cons]
        omega

/-- The sub-codes for which a patch is appended precede the first invalid sub-code;
when `realloc` never fails they are all of those, and the walk stops early exactly when
some sub-code is invalid. -/
theorem appended_sub_codes_prefix (decode : List Char → patch) (realloc_ok : Nat → Bool)
    (ts : List (List Char)) (array_len count : Nat) :
    (appended_sub_codes decode realloc_ok ts array_len count).1
        <+: ts.takeWhile (code_valid decode)
    ∧ ((appended_sub_codes decode realloc_ok ts array_len count).2 = false →
        (appended_sub_codes decode realloc_ok ts array_len count).1 = ts)
    ∧ ((∀ n, realloc_ok n = true) →
        (appended_sub_codes decode realloc_ok ts array_len count).1
            = ts.takeWhile (code_valid decode)
        ∧ ((appended_sub_codes decode realloc_ok ts array_len count).2 = true
            ↔ ∃ t ∈ ts, code_valid decode t = false)) := by
  induction ts generalizing array_len count with
  | nil =>
    refine ⟨List.prefix_refl _, fun _ => rfl, fun _ => ⟨rfl, ?_⟩⟩
    simp [appended_sub_codes]
  | cons t ts ih =>
    unfold appended_sub_codes
    cases hv : code_valid decode t
    · simp only [if_true, List.takeWhile_cons, hv]
      refine ⟨List.nil_prefix, fun h => absurd h (by decide), fun _ => ⟨rfl, ?_⟩⟩
      exact ⟨fun _ => ⟨t, List.mem_cons_self _ _, hv⟩, fun _ => trivial⟩
    · simp only [Bool.true_eq_false, if_false, List.takeWhile_cons, hv]
      have hstep : ∀ al,
          (t :: (appended_sub_codes decode realloc_ok ts al (count + 1)).1
              <+: t :: ts.takeWhile (code_valid decode))
          ∧ ((appended_sub_codes decode realloc_ok ts al (count + 1)).2 = false →
              t :: (appended_sub_codes decode realloc_ok ts al (count + 1)).1 = t :: ts)
          ∧ ((∀ n, realloc_ok n = true) →
              t :: (appended_sub_codes decode realloc_ok ts al (count + 1)).1
                  = t :: ts.takeWhile (code_valid decode)
              ∧ ((appended_sub_codes decode realloc_ok ts al (count + 1)).2 = true
                  ↔ ∃ u ∈ t :: ts, code_valid decode u = false)) := by
        intro al
        obtain ⟨i1, i2, i3⟩ := ih al (count + 1)
        refine ⟨?_, fun h => by rw [i2 h], fun hall => ?_⟩
        · obtain ⟨r, hr⟩ := i1
          exact ⟨r, by rw [List.cons_append, hr]⟩
        · obtain ⟨j1, j2⟩ := i3 hall
          refine ⟨by rw [j1], ?_⟩
          rw [j2]
          constructor
          · rintro ⟨u, hu, hu2⟩
            exact ⟨u, List.mem_cons_of_mem _ hu, hu2⟩
          · rintro ⟨u, hu, hu2⟩
            rcases List.mem_cons.mp hu with rfl | hu'
            · rw [hv] at hu2
              exact absurd hu2 (by decide)
            · exact ⟨u, hu', hu2⟩
      by_cases hlt : array_len < count + 1
      · rw [if_pos hlt]
        cases hr : realloc_ok (array_len * 2 + 1)
        · simp only [if_true]
          refine ⟨List.nil_prefix, fun h => absurd h (by decide), fun hall => ?_⟩
          rw [hall] at hr
          exact absurd hr (by decide)
        · simp only [Bool.true_eq_false, if_false]
          exact hstep (array_len * 2 + 1)
      · rw [if_neg hlt]
        exact hstep array_len

/-- The loop of `retro_cheat_set` with enough fuel: it ends; it walks the sub-codes in
order and appends the patch of each one until it meets one that is invalid or for which
growing the array fails; there it calls `log_cb` and returns, which is undefined when
`log_cb` is `NULL`. Memory and the patches already in the list are left alone. -/
theorem retro_cheat_set_loop_walk (decode : List Char → patch) (realloc_ok : Nat → Bool)
    (log_cb : Bool) (enabled : Bool) (fuel : Nat) (rest : List Char) (array_len : Nat)
    (s : cheat_state) (hfuel : rest.length < fuel) :
    retro_cheat_set_loop decode realloc_ok log_cb enabled fuel rest array_len s
      = if (appended_sub_codes decode realloc_ok (sub_codes rest) array_len
              s.PicoPatches.length).2 = true ∧ log_cb = false then none
        else some { s with PicoPatches := s.PicoPatches ++
          (appended_sub_codes decode realloc_ok (sub_codes rest) array_len
            s.PicoPatches.length).1.map (patch_of decode enabled s.romsize s.rom s.bus) } := by
  induction fuel generalizing rest array_len s with
  | zero => omega
  | succ fuel ih =>
    rcases strtok_sub_codes rest with ⟨h1, h2⟩ | ⟨t, rest1, h1, h2, h3⟩
    · rw [h2]
      simp [retro_cheat_set_loop, h1, appended_sub_codes]
    · rw [h2]
      by_cases hv : (decode t).addr = 4294967295 ∨ (decode t).data = 65535
      · have hcv : code_valid decode t = false := by simp [code_valid, hv]
        cases log_cb <;> simp [retro_cheat_set_loop, h1, hv, appended_sub_codes, hcv]
      · have hcv : code_valid decode t = true := by simp [code_valid, hv]
        have hlen : (s.PicoPatches ++ [patch_of decode enabled s.romsize s.rom s.bus t]).length
            = s.PicoPatches.length + 1 := by simp
        by_cases hlt : array_len < s.PicoPatches.length + 1
        · cases hr : realloc_ok (array_len * 2 + 1)
          · cases log_cb <;>
              simp [retro_cheat_set_loop, h1, hv, hlt, hr, appended_sub_codes, hcv]
          · have := ih rest1 (array_len * 2 + 1)
              { s with PicoPatches := s.PicoPatches ++
                  [patch_of decode enabled s.romsize s.rom s.bus t] } (by omega)
            simp only [hlen] at this
            simp only [patch_of, read_old] at this
            simp [retro_cheat_set_loop, h1, hv, hlt, hr, appended_sub_codes, hcv, this,
              patch_of, read_old]
        · have := ih rest1 array_len
            { s with PicoPatches := s.PicoPatches ++
                [patch_of decode enabled s.romsize s.rom s.bus t] } (by omega)
          simp only [hlen] at this
          simp only [patch_of, read_old] at this
          simp [retro_cheat_set_loop, h1, hv, hlt, appended_sub_codes, hcv, this,
            patch_of, read_old]

/-- The function `retro_cheat_set` on a code shorter than 256 characters, as
`retro_cheat_set_loop_walk` has it for the loop. -/
theorem retro_cheat_set_walk (decode : List Char → patch) (realloc_ok : Nat → Bool)
    (log_cb : Bool) (index : Nat) (enabled : Bool) (code : List Char) (s : cheat_state)
    (hlen : code.length < 256) :
    retro_cheat_set decode realloc_ok log_cb index enabled code s
      = if (appended_sub_codes decode realloc_ok (sub_codes code) s.PicoPatches.length
              s.PicoPatches.length).2 = true ∧ log_cb = false then none
        else some { s with PicoPatches := s.PicoPatches ++
          (appended_sub_codes decode realloc_ok (sub_codes code) s.PicoPatches.length
            s.PicoPatches.length).1.map (patch_of decode enabled s.romsize s.rom s.bus) } := by
  cases code with
  | nil => simp [retro_cheat_set, sub_codes_nil, appended_sub_codes]
  | cons c cs =>
    have h256 : ¬ ((c :: cs).length + 1 > 256) := by omega
    simp only [retro_cheat_set, h256, if_false]
    exact retro_cheat_set_loop_walk decode realloc_ok log_cb enabled _ (c :: cs) _ s (by omega)

/-- C10 as stated fails: when `realloc` fails, `retro_cheat_set` with the code `A`,
whose only sub-code `A` is valid, appends nothing. -/
theorem retro_cheat_set_realloc_fails :
    (retro_cheat_set decode_sample (fun _ => false) true 0 true ['A'] cheat_state_zero).map
        (fun s => s.PicoPatches) = some []
    ∧ (sub_codes ['A']).takeWhile (code_valid decode_sample) = [['A']] := by
  constructor
  · simp [retro_cheat_set, retro_cheat_set_loop, strtok, decode_sample, cheat_state_zero]
  · rw [sub_codes_cons_token 'A' [] (by decide)]
    simp [sub_codes_nil, code_valid, decode_sample]

/-- C10, amended: for every cheat code shorter than 256 characters, `retro_cheat_set`
walks the sub-codes in order and appends exactly one patch, with the sub-code's text,
its decoded address, data and compare flag, `active = enabled` and the value read at
the address as `data_old`, for each sub-code that precedes the first one that is
invalid or for which growing the array fails; it appends nothing for that sub-code or a
later one, the patches before it stay, and nothing else changes. When it meets such a
sub-code it calls `log_cb`, so the call is undefined there when `log_cb` is `NULL`. The
appended sub-codes precede the first invalid one, and are all of those when `realloc`
never fails. -/
theorem retro_cheat_set_appends (decode : List Char → patch) (realloc_ok : Nat → Bool)
    (log_cb : Bool) (index : Nat) (enabled : Bool) (code : List Char) (s : cheat_state)
    (hlen : code.length < 256) :
    retro_cheat_set decode realloc_ok log_cb index enabled code s
      = (if (appended_sub_codes decode realloc_ok (sub_codes code) s.PicoPatches.length
              s.PicoPatches.length).2 = true ∧ log_cb = false then none
         else some { s with PicoPatches := s.PicoPatches ++
          (appended_sub_codes decode realloc_ok (sub_codes code) s.PicoPatches.length
              s.PicoPatches.length).1.map (fun t =>
            { code := t, active := enabled, addr := (decode t).addr, data := (decode t).data,
              data_old := read_old s.romsize s.rom s.bus (decode t).addr,
              comp := (decode t).comp }) })
    ∧ (appended_sub_codes decode realloc_ok (sub_codes code) s.PicoPatches.length
          s.PicoPatches.length).1 <+: (sub_codes code).takeWhile (code_valid decode)
    ∧ ((appended_sub_codes decode realloc_ok (sub_codes code) s.PicoPatches.length
          s.PicoPatches.length).2 = false →
        (appended_sub_codes decode realloc_ok (sub_codes code) s.PicoPatches.length
          s.PicoPatches.length).1 = sub_codes code)
    ∧ ((∀ n, realloc_ok n = true) →
        (appended_sub_codes decode realloc_ok (sub_codes code) s.PicoPatches.length
            s.PicoPatches.length).1 = (sub_codes code).takeWhile (code_valid decode)
        ∧ ((appended_sub_codes decode realloc_ok (sub_codes code) s.PicoPatches.length
            s.PicoPatches.length).2 = true
            ↔ ∃ t ∈ sub_codes code, code_valid decode t = false)) := by
  obtain ⟨p1, p2, p3⟩ := appended_sub_codes_prefix decode realloc_ok (sub_codes code)
    s.PicoPatches.length s.PicoPatches.length
  refine ⟨?_, p1, p2, p3⟩
  rw [retro_cheat_set_walk decode realloc_ok log_cb index enabled code s hlen]
  rfl

/-- Witness for C10: the code `A+Z+B` with `Z` invalid, a `realloc` that succeeds and
a log function: only the patch of `A` is appended. -/
theorem retro_cheat_set_appends_witness :
    retro_cheat_set decode_sample (fun _ => true) true 0 true ['A', '+', 'Z', '+', 'B']
        cheat_state_zero
      = (if (appended_sub_codes decode_sample (fun _ => true)
              (sub_codes ['A', '+', 'Z', '+', 'B']) cheat_state_zero.PicoPatches.length
              cheat_state_zero.PicoPatches.length).2 = true ∧ true = false then none
         else some { cheat_state_zero with PicoPatches := cheat_state_zero.PicoPatches ++
          (appended_sub_codes decode_sample (fun _ => true)
              (sub_codes ['A', '+', 'Z', '+', 'B']) cheat_state_zero.PicoPatches.length
              cheat_state_zero.PicoPatches.length).1.map (fun t =>
            { code := t, active := true, addr := (decode_sample t).addr,
              data := (decode_sample t).data,
              data_old := read_old cheat_state_zero.romsize cheat_state_zero.rom
                cheat_state_zero.bus (decode_sample t).addr,
              comp := (decode_sample t).comp }) })
    ∧ (appended_sub_codes decode_sample (fun _ => true) (sub_codes ['A', '+', 'Z', '+', 'B'])
          cheat_state_zero.PicoPatches.length cheat_state_zero.PicoPatches.length).1
        <+: (sub_codes ['A', '+', 'Z', '+', 'B']).takeWhile (code_valid decode_sample)
    ∧ ((appended_sub_codes decode_sample (fun _ => true) (sub_codes ['A', '+', 'Z', '+', 'B'])
          cheat_state_zero.PicoPatches.length cheat_state_zero.PicoPatches.length).2 = false →
        (appended_sub_codes decode_sample (fun _ => true) (sub_codes ['A', '+', 'Z', '+', 'B'])
          cheat_state_zero.PicoPatches.length cheat_state_zero.PicoPatches.length).1
          = sub_codes ['A', '+', 'Z', '+', 'B'])
    ∧ ((∀ n, (fun _ => true : Nat → Bool) n = true) →
        (appended_sub_codes decode_sample (fun _ => true) (sub_codes ['A', '+', 'Z', '+', 'B'])
            cheat_state_zero.PicoPatches.length cheat_state_zero.PicoPatches.length).1
          = (sub_codes ['A', '+', 'Z', '+', 'B']).takeWhile (code_valid decode_sample)
        ∧ ((appended_sub_codes decode_sample (fun _ => true)
              (sub_codes ['A', '+', 'Z', '+', 'B'])
              cheat_state_zero.PicoPatches.length cheat_state_zero.PicoPatches.length).2 = true
            ↔ ∃ t ∈ sub_codes ['A', '+', 'Z', '+', 'B'], code_valid decode_sample t = false)) :=
  retro_cheat_set_appends decode_sample (fun _ => true) true 0 true ['A', '+', 'Z', '+', 'B']
    cheat_state_zero (by decide)

/-- Applying patches of the list `P` changes memory only under active patches of `P`. -/
theorem PicoPatchApply_loop_covered (romsize : Nat) (rom0 bus0 : Nat → Nat)
    (P Q : List PicoPatch) (m : (Nat → Nat) × (Nat → Nat))
    (hQ : ∀ p ∈ Q, p ∈ P)
    (hrom : ∀ a, m.1 a = rom0 a ∨ covered_rom romsize P a)
    (hbus : ∀ a, m.2 a = bus0 a ∨ covered_bus romsize P a) :
    (∀ a, (PicoPatchApply_loop romsize Q m).1 a = rom0 a ∨ covered_rom romsize P a)
    ∧ (∀ a, (PicoPatchApply_loop romsize Q m).2 a = bus0 a ∨ covered_bus romsize P a) := by
  induction Q generalizing m with
  | nil => exact ⟨hrom, hbus⟩
  | cons p Q ih =>
    have hp : p ∈ P := hQ p (List.mem_cons_self _ _)
    have hQ2 : ∀ q ∈ Q, q ∈ P := fun q hq => hQ q (List.mem_cons_of_mem _ hq)
    unfold PicoPatchApply_loop
    cases ha : p.active
    · simp only [Bool.false_eq_true, if_false]
      exact ih m hQ2 hrom hbus
    · simp only [if_true]
      by_cases hr : p.addr < romsize
      · rw [if_pos hr]
        refine ih (rom_write16 m.1 p.addr p.data, m.2) hQ2 ?_ hbus
        intro a
        by_cases h1 : a = p.addr ∨ a = p.addr + 1
        · exact Or.inr ⟨p, hp, ha, hr, h1⟩
        · have h2 : a ≠ p.addr := fun h => h1 (Or.inl h)
          have h3 : a ≠ p.addr + 1 := fun h => h1 (Or.inr h)
          simp only [rom_write16, h2, h3, if_false]
          exact hrom a
      · rw [if_neg hr]
        refine ih (m.1, m68k_write16 m.2 p.addr p.data) hQ2 hrom ?_
        intro a
        by_cases h1 : a = p.addr
        · exact Or.inr ⟨p, hp, ha, hr, h1⟩
        · simp only [m68k_write16, h1, if_false]
          exact hbus a

/-- Writing back the 16-bit value read from well-formed ROM bytes restores them. -/
theorem rom_write16_read16 (rom0 : Nat → Nat) (hwf : ∀ a, rom0 a < 256) (m : Nat → Nat)
    (addr : Nat) :
    rom_write16 m addr (rom_read16 rom0 addr) addr = rom0 addr
    ∧ rom_write16 m addr (rom_read16 rom0 addr) (addr + 1) = rom0 (addr + 1) := by
  have h0 := hwf addr
  have h1 := hwf (addr + 1)
  unfold rom_write16 rom_read16
  constructor
  · simp only [if_true]
    omega
  · have hne : addr + 1 ≠ addr := by omega
    simp only [hne, if_false, if_true]
    omega

/-- A byte under an active patch of a list is under an active patch of the list with
more patches appended. -/
theorem covered_rom_append (romsize : Nat) (P Q : List PicoPatch) (a : Nat)
    (h : covered_rom romsize P a) : covered_rom romsize (P ++ Q) a := by
  obtain ⟨p, hp, h2⟩ := h
  exact ⟨p, List.mem_append_left _ hp, h2⟩

/-- An address of an active patch of a list is one of the list with more patches
appended. -/
theorem covered_bus_append (romsize : Nat) (P Q : List PicoPatch) (a : Nat)
    (h : covered_bus romsize P a) : covered_bus romsize (P ++ Q) a := by
  obtain ⟨p, hp, h2⟩ := h
  exact ⟨p, List.mem_append_left _ hp, h2⟩

/-- With a log function every sequence of host steps whose codes fit `codeCopy` runs
to its end: it has a result. -/
theorem cheat_run_returns (decode : List Char → patch) (realloc_ok : Nat → Bool)
    (ops : List cheat_op) (s : cheat_state) (hfit : codes_fit ops = true) :
    ∃ s1, cheat_run decode realloc_ok true ops s = some s1 := by
  induction ops generalizing s with
  | nil => exact ⟨s, rfl⟩
  | cons op ops ih =>
    cases op with
    | set index enabled code =>
      simp only [codes_fit, Bool.and_eq_true, decide_eq_true_eq] at hfit
      have hw := retro_cheat_set_walk decode realloc_ok true index enabled code s hfit.1
      rw [if_neg (fun h => absurd h.2 (by decide))] at hw
      simp only [cheat_run, hw]
      exact ih _ hfit.2
    | apply =>
      simp only [codes_fit] at hfit
      simp only [cheat_run]
      exact ih _ hfit

/-- Through any sequence of host steps, as long as every active patch is added while
the word at its address holds its original value: every active patch of the list saved
the original value, and memory differs from the original only under active patches of
the list. -/
theorem cheat_run_inv (decode : List Char → patch) (realloc_ok : Nat → Bool) (log_cb : Bool)
    (rom0 bus0 : Nat → Nat) (romsize : Nat) (ops : List cheat_op) (s s1 : cheat_state)
    (hfit : codes_fit ops = true)
    (hun : cheat_run_unpatched decode realloc_ok log_cb rom0 bus0 ops s = true)
    (hrun : cheat_run decode realloc_ok log_cb ops s = some s1)
    (hsize : s.romsize = romsize)
    (hold : ∀ p ∈ s.PicoPatches, p.active = true →
      p.data_old = read_old romsize rom0 bus0 p.addr)
    (hrom : ∀ a, s.rom a = rom0 a ∨ covered_rom romsize s.PicoPatches a)
    (hbus : ∀ a, s.bus a = bus0 a ∨ covered_bus romsize s.PicoPatches a) :
    s1.romsize = romsize
    ∧ (∀ p ∈ s1.PicoPatches, p.active = true →
        p.data_old = read_old romsize rom0 bus0 p.addr)
    ∧ (∀ a, s1.rom a = rom0 a ∨ covered_rom romsize s1.PicoPatches a)
    ∧ (∀ a, s1.bus a = bus0 a ∨ covered_bus romsize s1.PicoPatches a) := by
  induction ops generalizing s with
  | nil =>
    simp only [cheat_run, Option.some.injEq] at hrun
    subst hrun
    exact ⟨hsize, hold, hrom, hbus⟩
  | cons op ops ih =>
    cases op with
    | set index enabled code =>
      simp only [codes_fit, Bool.and_eq_true, decide_eq_true_eq] at hfit
      have hw := retro_cheat_set_walk decode realloc_ok log_cb index enabled code s hfit.1
      cases hset : retro_cheat_set decode realloc_ok log_cb index enabled code s with
      | none => simp [cheat_run, hset] at hrun
      | some s2 =>
        rw [hset] at hw
        simp only [cheat_run, hset] at hrun
        simp only [cheat_run_unpatched, hset, Bool.and_eq_true] at hun
        obtain ⟨hall, hun2⟩ := hun
        split_ifs at hw with hstop
        simp only [Option.some.injEq] at hw
        generalize (appended_sub_codes decode realloc_ok (sub_codes code)
          s.PicoPatches.length s.PicoPatches.length).1 = ts at hw
        subst hw
        simp only [List.drop_left, List.all_eq_true, List.mem_map, Bool.or_eq_true,
          Bool.not_eq_true', decide_eq_true_eq, forall_exists_index, and_imp] at hall
        subst hsize
        refine ih _ hfit.2 hun2 hrun rfl ?_ ?_ ?_
        · intro p hp hact
          rcases List.mem_append.mp hp with h | h
          · exact hold p h hact
          · obtain ⟨u, hu, rfl⟩ := List.mem_map.mp h
            have h2 := hall _ u hu rfl
            rcases h2 with h2 | h2
            · rw [h2] at hact
              exact absurd hact (by decide)
            · rw [← h2]
              rfl
        · intro a
          rcases hrom a with h | h
          · exact Or.inl h
          · exact Or.inr (covered_rom_append _ _ _ a h)
        · intro a
          rcases hbus a with h | h
          · exact Or.inl h
          · exact Or.inr (covered_bus_append _ _ _ a h)
    | apply =>
      simp only [codes_fit] at hfit
      simp only [cheat_run] at hrun
      simp only [cheat_run_unpatched] at hun
      obtain ⟨a1, a2⟩ := PicoPatchApply_loop_covered romsize rom0 bus0 s.PicoPatches
        s.PicoPatches (s.rom, s.bus) (fun _ h => h) hrom hbus
      refine ih (PicoPatchApply s) hfit hun hrun hsize hold ?_ ?_
      · intro a
        have := a1 a
        rw [← hsize] at this
        rw [← hsize]
        exact this
      · intro a
        have := a2 a
        rw [← hsize] at this
        rw [← hsize]
        exact this

/-- Calls of `retro_cheat_set` that all come before the first patch application add
their patches while memory is as it was: the condition of `cheat_run_unpatched`
holds. -/
theorem cheat_run_unpatched_sets_first (decode : List Char → patch)
    (realloc_ok : Nat → Bool) (log_cb : Bool) (sets : List (Nat × Bool × List Char))
    (n : Nat) (s : cheat_state) (hfit : ∀ c ∈ sets, c.2.2.length < 256) :
    cheat_run_unpatched decode realloc_ok log_cb s.rom s.bus
      (sets.map (fun c => cheat_op.set c.1 c.2.1 c.2.2) ++ List.replicate n cheat_op.apply) s
      = true := by
  have happ : ∀ (r b : Nat → Nat) (k : Nat) (s2 : cheat_state),
      cheat_run_unpatched decode realloc_ok log_cb r b (List.replicate k cheat_op.apply) s2
        = true := by
    intro r b k
    induction k with
    | zero => intro s2; rfl
    | succ k ihk =>
      intro s2
      rw [List.replicate_succ]
      simp only [cheat_run_unpatched]
      exact ihk _
  have hgen : ∀ (r b : Nat → Nat) (s2 : cheat_state), s2.rom = r → s2.bus = b →
      cheat_run_unpatched decode realloc_ok log_cb r b
        (sets.map (fun c => cheat_op.set c.1 c.2.1 c.2.2)
          ++ List.replicate n cheat_op.apply) s2 = true := by
    intro r b
    induction sets with
    | nil =>
      intro s2 _ _
      exact happ r b n s2
    | cons c sets ih =>
      intro s2 hr hb
      have hw := retro_cheat_set_walk decode realloc_ok log_cb c.1 c.2.1 c.2.2 s2
        (hfit c (List.mem_cons_self _ _))
      simp only [List.map_cons, List.cons_append, cheat_run_unpatched]
      cases hset : retro_cheat_set decode realloc_ok log_cb c.1 c.2.1 c.2.2 s2 with
      | none => rfl
      | some s3 =>
        rw [hset] at hw
        split_ifs at hw with hstop
        simp only [Option.some.injEq] at hw
        subst hw
        simp only [Bool.and_eq_true]
        refine ⟨?_, ih (fun d hd => hfit d (List.mem_cons_of_mem _ hd)) _ hr hb⟩
        rw [List.all_eq_true]
        intro p _
        rw [hr, hb]
        simp
  exact hgen s.rom s.bus s rfl rfl

/-- The reset loop run on memory that differs from the original only under active
patches of the list, each of which saved the original value, gives back the original
memory. -/
theorem retro_cheat_reset_loop_restores (romsize : Nat) (rom0 bus0 : Nat → Nat)
    (hwr : ∀ a, rom0 a < 256) (hwb : ∀ a, bus0 a < 65536)
    (Q : List PicoPatch) (m : (Nat → Nat) × (Nat → Nat))
    (hold : ∀ p ∈ Q, p.active = true → p.data_old = read_old romsize rom0 bus0 p.addr)
    (hrom : ∀ a, m.1 a = rom0 a ∨ covered_rom romsize Q a)
    (hbus : ∀ a, m.2 a = bus0 a ∨ covered_bus romsize Q a) :
    (∀ a, (retro_cheat_reset_loop romsize Q m).1.1 a = rom0 a)
    ∧ (∀ a, (retro_cheat_reset_loop romsize Q m).1.2 a = bus0 a) := by
  induction Q generalizing m with
  | nil =>
    refine ⟨fun a => ?_, fun a => ?_⟩
    · rcases hrom a with h | ⟨p, hp, _⟩
      · exact h
      · exact absurd hp (List.not_mem_nil _)
    · rcases hbus a with h | ⟨p, hp, _⟩
      · exact h
      · exact absurd hp (List.not_mem_nil _)
  | cons p Q ih =>
    have hold2 : ∀ q ∈ Q, q.active = true → q.data_old = read_old romsize rom0 bus0 q.addr :=
      fun q hq => hold q (List.mem_cons_of_mem _ hq)
    have hp := hold p (List.mem_cons_self _ _)
    unfold retro_cheat_reset_loop
    by_cases hr : p.addr < romsize
    · rw [if_pos hr]
      cases ha : p.active
      · simp only [Bool.false_eq_true, if_false]
        refine ih m hold2 (fun a => ?_) (fun a => ?_)
        · rcases hrom a with h | ⟨q, hq, hqa, hq2⟩
          · exact Or.inl h
          · rcases List.mem_cons.mp hq with rfl | hq'
            · rw [ha] at hqa; exact absurd hqa (by decide)
            · exact Or.inr ⟨q, hq', hqa, hq2⟩
        · rcases hbus a with h | ⟨q, hq, hqa, hq2⟩
          · exact Or.inl h
          · rcases List.mem_cons.mp hq with rfl | hq'
            · rw [ha] at hqa; exact absurd hqa (by decide)
            · exact Or.inr ⟨q, hq', hqa, hq2⟩
      · simp only [if_true]
        have hd : p.data_old = rom_read16 rom0 p.addr := by
          rw [hp ha, read_old, if_pos hr]
        obtain ⟨w0, w1⟩ := rom_write16_read16 rom0 hwr m.1 p.addr
        refine ih (rom_write16 m.1 p.addr p.data_old, m.2) hold2 (fun a => ?_) (fun a => ?_)
        · by_cases h0 : a = p.addr
          · left; rw [h0, hd]; exact w0
          · by_cases h1 : a = p.addr + 1
            · left; rw [h1, hd]; exact w1
            · rcases hrom a with h | ⟨q, hq, hqa, hq2, hq3⟩
              · left
                simp only [rom_write16, h0, h1, if_false]
                exact h
              · rcases List.mem_cons.mp hq with rfl | hq'
                · rcases hq3 with h | h
                  · exact absurd h h0
                  · exact absurd h h1
                · exact Or.inr ⟨q, hq', hqa, hq2, hq3⟩
        · rcases hbus a with h | ⟨q, hq, hqa, hq2, hq3⟩
          · exact Or.inl h
          · rcases List.mem_cons.mp hq with rfl | hq'
            · exact absurd hr hq2
            · exact Or.inr ⟨q, hq', hqa, hq2, hq3⟩
    · rw [if_neg hr]
      cases ha : p.active
      · simp only [Bool.false_eq_true, if_false]
        refine ih m hold2 (fun a => ?_) (fun a => ?_)
        · rcases hrom a with h | ⟨q, hq, hqa, hq2⟩
          · exact Or.inl h
          · rcases List.mem_cons.mp hq with rfl | hq'
            · rw [ha] at hqa; exact absurd hqa (by decide)
            · exact Or.inr ⟨q, hq', hqa, hq2⟩
        · rcases hbus a with h | ⟨q, hq, hqa, hq2⟩
          · exact Or.inl h
          · rcases List.mem_cons.mp hq with rfl | hq'
            · rw [ha] at hqa; exact absurd hqa (by decide)
            · exact Or.inr ⟨q, hq', hqa, hq2⟩
      · simp only [if_true]
        have hd : p.data_old = bus0 p.addr := by
          rw [hp ha, read_old, if_neg hr, m68k_read16]
          exact Nat.mod_eq_of_lt (hwb _)
        refine ih (m.1, m68k_write16 m.2 p.addr p.data_old) hold2 (fun a => ?_) (fun a => ?_)
        · rcases hrom a with h | ⟨q, hq, hqa, hq2, hq3⟩
          · exact Or.inl h
          · rcases List.mem_cons.mp hq with rfl | hq'
            · exact absurd hq2 hr
            · exact Or.inr ⟨q, hq', hqa, hq2, hq3⟩
        · by_cases h0 : a = p.addr
          · left
            simp only [m68k_write16, h0, if_true, hd]
            exact Nat.mod_eq_of_lt (hwb _)
          · rcases hbus a with h | ⟨q, hq, hqa, hq2, hq3⟩
            · left
              simp only [m68k_write16, h0, if_false]
              exact h
            · rcases List.mem_cons.mp hq with rfl | hq'
              · exact absurd hq3 h0
              · exact Or.inr ⟨q, hq', hqa, hq2, hq3⟩

/-- C2 as stated fails: from a ROM of zero bytes, the code `A` (address 16, data 1) is
set, a frame applies it, and the same code is set again, which saves the patched value
1 as the second patch's original; `retro_cheat_reset` then leaves 1 at address 16,
where the memory held 0 before the first patch was applied. The second call adds its
patch over a word that an application has changed. -/
theorem cheat_reset_after_late_set :
    (cheat_run decode_sample (fun _ => true) true
        [cheat_op.set 0 true ['A'], cheat_op.apply, cheat_op.set 0 true ['A']]
        cheat_state_zero).map (fun s => (retro_cheat_reset s).1.rom 16) = some 1
    ∧ cheat_state_zero.rom 16 = 0
    ∧ cheat_run_unpatched decode_sample (fun _ => true) true cheat_state_zero.rom
        cheat_state_zero.bus
        [cheat_op.set 0 true ['A'], cheat_op.apply, cheat_op.set 0 true ['A']]
        cheat_state_zero = false := by
  refine ⟨?_, ?_, ?_⟩
  · rfl
  · rfl
  · rfl

/-- C2, amended: from an empty patch list and any memory image (ROM bytes below 256,
live-memory values below 65536), after any sequence of calls of `retro_cheat_set`
(codes shorter than 256 characters) interleaved in any way with patch applications, in
which every active patch is added while the 16-bit word at its address still holds the
value it had before the first application, `retro_cheat_reset` leaves the ROM and the
live memory exactly as they were before the first patch was applied, and the patch list
empty. With a log function the sequence always has a defined result. -/
theorem cheat_reset_restores_memory (decode : List Char → patch) (realloc_ok : Nat → Bool)
    (log_cb : Bool) (s0 : cheat_state) (ops : List cheat_op)
    (hempty : s0.PicoPatches = [])
    (hwr : ∀ a, s0.rom a < 256) (hwb : ∀ a, s0.bus a < 65536)
    (hfit : codes_fit ops = true)
    (hun : cheat_run_unpatched decode realloc_ok log_cb s0.rom s0.bus ops s0 = true) :
    (log_cb = true → ∃ s1, cheat_run decode realloc_ok log_cb ops s0 = some s1)
    ∧ ∀ s1, cheat_run decode realloc_ok log_cb ops s0 = some s1 →
        (retro_cheat_reset s1).1.rom = s0.rom
        ∧ (retro_cheat_reset s1).1.bus = s0.bus
        ∧ (retro_cheat_reset s1).1.PicoPatches = [] := by
  constructor
  · intro hlog
    rw [hlog]
    exact cheat_run_returns decode realloc_ok ops s0 hfit
  · intro s1 hrun
    obtain ⟨e1, e2, e3, e4⟩ := cheat_run_inv decode realloc_ok log_cb s0.rom s0.bus s0.romsize
      ops s0 s1 hfit hun hrun rfl
      (by rw [hempty]; intro p hp; exact absurd hp (List.not_mem_nil _))
      (fun a => Or.inl rfl) (fun a => Or.inl rfl)
    obtain ⟨g1, g2⟩ := retro_cheat_reset_loop_restores s1.romsize s0.rom s0.bus hwr hwb
      s1.PicoPatches (s1.rom, s1.bus)
      (by rw [e1]; exact e2) (by rw [e1]; exact e3) (by rw [e1]; exact e4)
    refine ⟨?_, ?_, rfl⟩
    · funext a
      exact g1 a
    · funext a
      exact g2 a

/-- Witness for C2: on the zero memory image the code `A` is set, a frame applies it,
the code `B` for another address is set, and a frame applies both. -/
theorem cheat_reset_restores_memory_witness :
    (true = true → ∃ s1, cheat_run decode_sample (fun _ => true) true
        [cheat_op.set 0 true ['A'], cheat_op.apply, cheat_op.set 1 true ['B'], cheat_op.apply]
        cheat_state_zero = some s1)
    ∧ ∀ s1, cheat_run decode_sample (fun _ => true) true
        [cheat_op.set 0 true ['A'], cheat_op.apply, cheat_op.set 1 true ['B'], cheat_op.apply]
        cheat_state_zero = some s1 →
        (retro_cheat_reset s1).1.rom = cheat_state_zero.rom
        ∧ (retro_cheat_reset s1).1.bus = cheat_state_zero.bus
        ∧ (retro_cheat_reset s1).1.PicoPatches = [] :=
  cheat_reset_restores_memory decode_sample (fun _ => true) true cheat_state_zero
    [cheat_op.set 0 true ['A'], cheat_op.apply, cheat_op.set 1 true ['B'], cheat_op.apply]
    rfl (fun _ => by show (0 : Nat) < 256; decide) (fun _ => by show (0 : Nat) < 65536; decide)
    rfl rfl

/-! ## Theorems: playlist reader -/

/-- What `fgets` stores from a file whose first line is shorter than the room in the
buffer: the line with its newline (when it has one), the rest of the file being what
follows that newline. -/
theorem fgets_chars_line (n : Nat) (f : List Char)
    (hlen : (f.takeWhile (fun x => x ≠ '\n')).length < n) :
    fgets_chars n f
      = (f.takeWhile (fun x => x ≠ '\n') ++ (f.dropWhile (fun x => x ≠ '\n')).take 1,
         (f.dropWhile (fun x => x ≠ '\n')).drop 1) := by
  induction f generalizing n with
  | nil =>
    cases n with
    | zero => simp at hlen
    | succ n => rfl
  | cons c f ih =>
    cases n with
    | zero => simp at hlen
    | succ n =>
      by_cases hc : c = '\n'
      · subst hc
        simp [fgets_chars]
      · have h1 : (c :: f).takeWhile (fun x => x ≠ '\n')
            = c :: f.takeWhile (fun x => x ≠ '\n') := by
          rw [List.takeWhile_cons]
          simp only [ne_eq, hc, not_false_eq_true, decide_True, if_true]
        have h2 : (f.takeWhile (fun x => x ≠ '\n')).length < n := by
          rw [h1, List.length_cons] at hlen
          omega
        simp [fgets_chars, hc, ih n h2, List.takeWhile_cons, List.dropWhile_cons]

/-- The cuts of lines 1321-1326 applied to what `fgets` stored for a line give the line
cut at its first NUL or CR. -/
theorem cut_line (l : List Char) (nl : List Char) (hnl : nl = [] ∨ nl = ['\n'])
    (hl : ∀ c ∈ l, c ≠ '\n') :
    cut_at (cut_at (c_str (l ++ nl)) '\r') '\n' = entry_name l := by
  induction l with
  | nil =>
    rcases hnl with rfl | rfl
    · rfl
    · decide
  | cons c l ih =>
    have hc : c ≠ '\n' := hl c (List.mem_cons_self _ _)
    have ih2 := ih (fun d hd => hl d (List.mem_cons_of_mem _ hd))
    unfold entry_name cut_at c_str at *
    by_cases h0 : c = Char.ofNat 0
    · simp [List.takeWhile_cons, h0]
    · by_cases hr : c = '\r'
      · simp [List.takeWhile_cons, h0, hr]
      · simp only [List.cons_append, List.takeWhile_cons, ne_eq, h0, not_false_eq_true,
          decide_True, if_true, hr, hc]
        rw [ih2]

/-- What is left behind the first line starts with the newline that ended it. -/
theorem dropWhile_newline (f : List Char) :
    (f.dropWhile (fun x => x ≠ '\n')).take 1 = []
    ∨ (f.dropWhile (fun x => x ≠ '\n')).take 1 = ['\n'] := by
  induction f with
  | nil => left; rfl
  | cons c f ih =>
    by_cases hc : c = '\n'
    · right
      subst hc
      simp [List.dropWhile_cons]
    · rw [List.dropWhile_cons]
      simp only [ne_eq, hc, not_false_eq_true, decide_True, if_true]
      exact ih

/-- One iteration of the loop of `read_m3u` on a file that is not at its end and whose
first line is shorter than 1023 characters: with 8 disks counted the loop ends;
otherwise the line makes an entry or not, and the loop goes on behind the line. -/
theorem read_m3u_loop_step (base_dir : List Char) (fuel : Nat) (f : List Char) (s : disk_manager)
    (hf : f ≠ []) (htw : (f.takeWhile (fun x => x ≠ '\n')).length < 1023) :
    read_m3u_loop base_dir (fuel + 1) f s
      = if h : s.disk_count < 8 then
          if playlist_entry (f.takeWhile (fun x => x ≠ '\n')) = true then
            read_m3u_loop base_dir fuel ((f.dropWhile (fun x => x ≠ '\n')).drop 1)
              { s with disks := Function.update s.disks ⟨s.disk_count, h⟩
                          (slot_of base_dir (f.takeWhile (fun x => x ≠ '\n')))
                       disk_count := s.disk_count + 1 }
          else
            read_m3u_loop base_dir fuel ((f.dropWhile (fun x => x ≠ '\n')).drop 1) s
        else some s := by
  have hfg : fgets 1024 f
      = some (f.takeWhile (fun x => x ≠ '\n') ++ (f.dropWhile (fun x => x ≠ '\n')).take 1,
              (f.dropWhile (fun x => x ≠ '\n')).drop 1) := by
    cases f with
    | nil => exact absurd rfl hf
    | cons c cs =>
      show some (fgets_chars 1023 (c :: cs)) = _
      rw [fgets_chars_line 1023 (c :: cs) htw]
  have hmem : ∀ c ∈ f.takeWhile (fun x => x ≠ '\n'), c ≠ '\n' := by
    intro c hc
    have := List.mem_takeWhile_imp hc
    simpa using this
  have hcut := cut_line (f.takeWhile (fun x => x ≠ '\n'))
    ((f.dropWhile (fun x => x ≠ '\n')).take 1) (dropWhile_newline f) hmem
  have hhead : (f.takeWhile (fun x => x ≠ '\n')
        ++ (f.dropWhile (fun x => x ≠ '\n')).take 1).head? = some '#'
      ↔ (f.takeWhile (fun x => x ≠ '\n')).head? = some '#' := by
    cases htk : f.takeWhile (fun x => x ≠ '\n') with
    | nil =>
      rcases dropWhile_newline f with h | h <;> rw [h] <;> decide
    | cons t ts => simp
  rw [read_m3u_loop, hfg]
  simp only []
  clear hfg hmem htw
  generalize f.takeWhile (fun x => x ≠ '\n') = tw at hcut hhead ⊢
  generalize (f.dropWhile (fun x => x ≠ '\n')).take 1 = nl at hcut hhead ⊢
  generalize (f.dropWhile (fun x => x ≠ '\n')).drop 1 = rest at hcut hhead ⊢
  by_cases h8 : s.disk_count < 8
  · simp only [h8, dite_true]
    rw [hcut]
    by_cases hh : tw.head? = some '#'
    · have hpe : playlist_entry tw = false := by
        simp [playlist_entry, hh]
      rw [if_pos (hhead.mpr hh), hpe]
      simp
    · rw [if_neg (fun hc => hh (hhead.mp hc))]
      by_cases he : entry_name tw = []
      · have hpe : playlist_entry tw = false := by
          simp [playlist_entry, he]
        rw [hpe]
        simp [he]
      · have hpe : playlist_entry tw = true := by
          simp [playlist_entry, he, hh]
        rw [hpe]
        simp only [ne_eq, he, not_false_eq_true, if_true]
        rfl
  · simp only [h8, dite_false]

/-- The lines of a file: the first line, then the lines of what follows its newline. -/
theorem file_lines_cons (f : List Char) :
    (f.dropWhile (fun x => x ≠ '\n') = [] ∧ file_lines f = [f.takeWhile (fun x => x ≠ '\n')])
    ∨ (f.dropWhile (fun x => x ≠ '\n') ≠ []
        ∧ file_lines f = f.takeWhile (fun x => x ≠ '\n')
            :: file_lines ((f.dropWhile (fun x => x ≠ '\n')).drop 1)) := by
  unfold file_lines
  rw [splitOn_take_drop '\n' f]
  cases hd : f.dropWhile (fun x => x ≠ '\n') with
  | nil => left; exact ⟨rfl, rfl⟩
  | cons d as => right; exact ⟨by simp, rfl⟩

/-- The empty file has one line, the empty one, and it is no entry. -/
theorem file_lines_nil_entries : (file_lines []).filter playlist_entry = [] := by
  decide

/-- The entries of a file: the first line when it is one, then the entries of what
follows its newline. -/
theorem file_entries_cons (f : List Char) :
    (file_lines f).filter playlist_entry
      = (if playlist_entry (f.takeWhile (fun x => x ≠ '\n')) = true
          then [f.takeWhile (fun x => x ≠ '\n')] else [])
        ++ (file_lines ((f.dropWhile (fun x => x ≠ '\n')).drop 1)).filter playlist_entry := by
  rcases file_lines_cons f with ⟨h1, h2⟩ | ⟨h1, h2⟩
  · rw [h2, h1]
    simp only [List.drop_nil, file_lines_nil_entries, List.append_nil, List.filter_cons,
      List.filter_nil]
  · rw [h2, List.filter_cons]
    split_ifs <;> simp

/-- Line lengths are inherited by what follows the first newline. -/
theorem file_lines_rest_len (f : List Char) (n : Nat) (hn : 0 < n)
    (h : ∀ l ∈ file_lines f, l.length < n) :
    (f.takeWhile (fun x => x ≠ '\n')).length < n
    ∧ ∀ l ∈ file_lines ((f.dropWhile (fun x => x ≠ '\n')).drop 1), l.length < n := by
  rcases file_lines_cons f with ⟨h1, h2⟩ | ⟨h1, h2⟩
  · rw [h2] at h
    refine ⟨h _ (List.mem_singleton.mpr rfl), ?_⟩
    rw [h1]
    intro l hl
    have : l = [] := by simpa [file_lines] using hl
    rw [this]
    exact hn
  · rw [h2] at h
    exact ⟨h _ (List.mem_cons_self _ _), fun l hl => h l (List.mem_cons_of_mem _ hl)⟩

/-- The loop of `read_m3u` on a file whose lines are shorter than 1023 characters, with
enough fuel: it ends; the disk count grows by the number of entries, up to 8; slots
below the old count and from the new count on are untouched, and the slots between
hold the entries in order; index and eject flag are untouched. -/
theorem read_m3u_loop_spec (base_dir : List Char) (fuel : Nat) (f : List Char) (s : disk_manager)
    (hfuel : f.length < fuel) (hcount : s.disk_count ≤ 8)
    (hlines : ∀ l ∈ file_lines f, l.length < 1023) :
    ∃ r, read_m3u_loop base_dir fuel f s = some r
      ∧ r.disk_count = min 8 (s.disk_count + ((file_lines f).filter playlist_entry).length)
      ∧ r.disk_ejected = s.disk_ejected
      ∧ r.disk_current_index = s.disk_current_index
      ∧ (∀ j : Fin 8, (j.val < s.disk_count ∨ r.disk_count ≤ j.val) → r.disks j = s.disks j)
      ∧ (∀ (i : Nat) (l : List Char) (h8 : s.disk_count + i < 8),
          ((file_lines f).filter playlist_entry)[i]? = some l →
          r.disks ⟨s.disk_count + i, h8⟩ = slot_of base_dir l) := by
  induction fuel generalizing f s with
  | zero => omega
  | succ fuel ih =>
    cases hf : f with
    | nil =>
      refine ⟨s, by simp [read_m3u_loop, fgets], ?_, rfl, rfl, fun _ _ => rfl, ?_⟩
      · rw [file_lines_nil_entries]; simp; omega
      · intro i l h8 hl
        rw [file_lines_nil_entries] at hl
        simp at hl
    | cons c cs =>
      rw [← hf]
      have hne : f ≠ [] := by rw [hf]; simp
      obtain ⟨htw, hrest⟩ := file_lines_rest_len f 1023 (by omega) hlines
      have hrl : ((f.dropWhile (fun x => x ≠ '\n')).drop 1).length < fuel := by
        have h1 : (f.dropWhile (fun x => x ≠ '\n')).length ≤ f.length :=
          (List.dropWhile_sublist _).length_le
        have h2 : 0 < f.length := List.length_pos.mpr hne
        simp only [List.length_drop]
        omega
      rw [read_m3u_loop_step base_dir fuel f s hne htw, file_entries_cons f]
      by_cases h8 : s.disk_count < 8
      · simp only [h8, dite_true]
        by_cases hpe : playlist_entry (f.takeWhile (fun x => x ≠ '\n')) = true
        · simp only [hpe, if_true]
          obtain ⟨r, e1, e2, e3, e4, e5, e6⟩ := ih ((f.dropWhile (fun x => x ≠ '\n')).drop 1)
            { s with disks := Function.update s.disks ⟨s.disk_count, h8⟩
                        (slot_of base_dir (f.takeWhile (fun x => x ≠ '\n')))
                     disk_count := s.disk_count + 1 } hrl (by show s.disk_count + 1 ≤ 8; omega)
            hrest
          simp only [] at e2 e5 e6
          refine ⟨r, e1, ?_, e3, e4, ?_, ?_⟩
          · rw [e2]
            simp only [List.singleton_append, List.length_cons]
            omega
          · intro j hj
            have hjc : j ≠ ⟨s.disk_count, h8⟩ := by
              intro hc
              rw [hc] at hj
              simp only [] at hj
              omega
            rw [e5 j (by omega), Function.update_noteq hjc]
          · intro i l h8i hl
            cases i with
            | zero =>
              simp only [List.singleton_append, List.getElem?_cons_zero, Option.some.injEq] at hl
              rw [e5 ⟨s.disk_count + 0, h8i⟩ (Or.inl (by show s.disk_count + 0 < s.disk_count + 1; omega))]
              rw [← hl]
              exact Function.update_same _ _ _
            | succ i =>
              simp only [List.singleton_append, List.getElem?_cons_succ] at hl
              have := e6 i l (by omega) hl
              have hidx : (⟨s.disk_count + (i + 1), h8i⟩ : Fin 8)
                  = ⟨s.disk_count + 1 + i, by omega⟩ := by
                apply Fin.ext
                show s.disk_count + (i + 1) = s.disk_count + 1 + i
                omega
              rw [hidx]
              exact this
        · simp only [hpe, Bool.false_eq_true, if_false, List.nil_append]
          exact ih ((f.dropWhile (fun x => x ≠ '\n')).drop 1) s hrl hcount hrest
      · simp only [h8, dite_false]
        refine ⟨s, rfl, by omega, rfl, rfl, fun _ _ => rfl, ?_⟩
        intro i l h8i
        omega

/-- The function `read_m3u` on a file that could be opened, whose lines are shorter
than 1023 characters, from the empty disk table: it returns, and the table holds the
entries of the file in order, up to 8 of them. -/
theorem read_m3u_spec (base_dir : List Char) (f : List Char)
    (hlines : ∀ l ∈ file_lines f, l.length < 1023) :
    ∃ r, read_m3u base_dir (some f) disk_manager_empty = some (decide (r.disk_count ≠ 0), r)
      ∧ r.disk_count = min 8 ((file_lines f).filter playlist_entry).length
      ∧ (∀ j : Fin 8, r.disk_count ≤ j.val → r.disks j = { fname := none, flabel := none })
      ∧ (∀ (i : Nat) (l : List Char) (h8 : i < 8),
          ((file_lines f).filter playlist_entry)[i]? = some l →
          r.disks ⟨i, h8⟩ = slot_of base_dir l) := by
  obtain ⟨r, e1, e2, _, _, e5, e6⟩ := read_m3u_loop_spec base_dir (f.length + 1) f
    disk_manager_empty (by omega) (by decide) hlines
  refine ⟨r, ?_, ?_, ?_, ?_⟩
  · simp [read_m3u, e1]
  · rw [e2]
    simp [disk_manager_empty]
  · intro j hj
    rw [e5 j (Or.inr hj)]
    rfl
  · intro i l h8 hl
    have := e6 i l (by simpa [disk_manager_empty] using h8) hl
    have hidx : (⟨i, h8⟩ : Fin 8) = ⟨disk_manager_empty.disk_count + i,
        by simpa [disk_manager_empty] using h8⟩ := by
      apply Fin.ext
      show i = 0 + i
      omega
    rw [hidx]
    exact this

/-- C1 as stated fails: the playlist with the single line CR `X` has one line that does
not start with `#` and is not empty once its trailing CR/LF is stripped, but `read_m3u`
cuts the line at its first CR and counts no disk. -/
theorem read_m3u_line_starting_with_cr :
    (read_m3u ['d'] (some ['\r', 'X', '\n']) disk_manager_empty).map (fun r => r.2.disk_count)
      = some 0
    ∧ min 8 ((file_lines ['\r', 'X', '\n']).filter claimed_entry).length = 1 := by
  constructor
  · rfl
  · decide

/-- C1, amended: for every playlist file whose lines are shorter than 1023 characters,
starting from the empty disk table, `read_m3u` returns and leaves `disk_count` equal to
`min(8, k)`, where `k` is the number of lines that do not start with `#` and are not
empty once cut at their first CR (or NUL); it returns true exactly when that is not
0. -/
theorem read_m3u_disk_count (base_dir : List Char) (f : List Char)
    (hlines : ∀ l ∈ file_lines f, l.length < 1023) :
    ∃ r, read_m3u base_dir (some f) disk_manager_empty = some r
      ∧ r.2.disk_count = min 8 ((file_lines f).filter playlist_entry).length
      ∧ (r.1 = true ↔ r.2.disk_count ≠ 0) := by
  obtain ⟨r, e1, e2, _, _⟩ := read_m3u_spec base_dir f hlines
  exact ⟨_, e1, e2, by simp⟩

/-- Witness for C1: a playlist with the lines `a`, `#c`, an empty line and `b` CR. -/
theorem read_m3u_disk_count_witness :
    ∃ r, read_m3u ['d'] (some ['a', '\n', '#', 'c', '\n', '\n', 'b', '\r', '\n'])
          disk_manager_empty = some r
      ∧ r.2.disk_count = min 8 ((file_lines
          ['a', '\n', '#', 'c', '\n', '\n', 'b', '\r', '\n']).filter playlist_entry).length
      ∧ (r.1 = true ↔ r.2.disk_count ≠ 0) :=
  read_m3u_disk_count ['d'] ['a', '\n', '#', 'c', '\n', '\n', 'b', '\r', '\n'] (by decide)

/-- A name made of a base directory of at most 1023 characters and the name of a line
shorter than 1023 characters fits in `PATH_MAX`: `snprintf` stores it whole. -/
theorem snprintf_scs_whole (base_dir l : List Char) (hbase : base_dir.length < 1024)
    (hl : l.length < 1023) :
    snprintf_scs PATH_MAX base_dir SLASH (entry_name l) = base_dir ++ SLASH :: entry_name l := by
  have h1 : (entry_name l).length ≤ l.length := by
    unfold entry_name cut_at c_str
    exact le_trans (List.takeWhile_sublist _).length_le (List.takeWhile_sublist _).length_le
  unfold snprintf_scs PATH_MAX
  apply List.take_of_length_le
  simp only [List.length_append, List.length_cons]
  omega

/-- C12 as stated fails: for the playlist with the single line `a` CR `b` the
specification's path is the base directory, the separator and the whole line, but
`read_m3u` cuts the line at the CR and stores the path `d/a`. -/
theorem read_m3u_line_with_cr_inside :
    (read_m3u ['d'] (some ['a', '\r', 'b', '\n']) disk_manager_empty).map
        (fun r => (r.2.disks 0).fname) = some (some ['d', '/', 'a'])
    ∧ (file_lines ['a', '\r', 'b', '\n']).filter claimed_entry = [['a', '\r', 'b']]
    ∧ ['d'] ++ SLASH :: strip_trailing_crlf ['a', '\r', 'b'] = ['d', '/', 'a', '\r', 'b'] := by
  refine ⟨?_, ?_, ?_⟩
  · rfl
  · decide
  · decide

/-- C12, amended: for every playlist file whose lines are shorter than 1023 characters
and every content directory `base_dir` (at most 1023 characters, as the buffer holds),
after `read_m3u` on the empty disk table every slot `i < disk_count` holds the path
`base_dir`, path separator, `L_i`, where `L_i` is the `i`-th line of the file that does
not start with `#` and is not empty once cut at its first CR (or NUL), cut there; the
slots are filled in playlist order without gaps, and the slots at `disk_count` and
above stay empty. -/
theorem read_m3u_slots (base_dir : List Char) (f : List Char)
    (hbase : base_dir.length < 1024) (hlines : ∀ l ∈ file_lines f, l.length < 1023) :
    ∃ r, read_m3u base_dir (some f) disk_manager_empty = some r
      ∧ (∀ (i : Nat) (h8 : i < 8), i < r.2.disk_count →
          ∃ l, ((file_lines f).filter playlist_entry)[i]? = some l
            ∧ (r.2.disks ⟨i, h8⟩).fname = some (base_dir ++ SLASH :: entry_name l))
      ∧ (∀ j : Fin 8, r.2.disk_count ≤ j.val →
          (r.2.disks j).fname = none ∧ (r.2.disks j).flabel = none) := by
  obtain ⟨r, e1, e2, e3, e4⟩ := read_m3u_spec base_dir f hlines
  refine ⟨_, e1, ?_, ?_⟩
  · intro i h8 hi
    simp only [] at hi
    have hlt : i < ((file_lines f).filter playlist_entry).length := by
      rw [e2] at hi
      omega
    refine ⟨((file_lines f).filter playlist_entry)[i], List.getElem?_eq_getElem hlt, ?_⟩
    simp only []
    rw [e4 i _ h8 (List.getElem?_eq_getElem hlt)]
    have hmem : ((file_lines f).filter playlist_entry)[i] ∈ file_lines f :=
      (List.mem_filter.mp (List.getElem_mem hlt)).1
    show some (snprintf_scs PATH_MAX base_dir SLASH _) = _
    rw [snprintf_scs_whole base_dir _ hbase (hlines _ hmem)]
  · intro j hj
    simp only [] at hj ⊢
    rw [e3 j hj]
    exact ⟨rfl, rfl⟩

/-- Witness for C12: the playlist with the lines `a`, `#c`, an empty line and `b` CR,
in the directory `d`. -/
theorem read_m3u_slots_witness :
    ∃ r, read_m3u ['d'] (some ['a', '\n', '#', 'c', '\n', '\n', 'b', '\r', '\n'])
          disk_manager_empty = some r
      ∧ (∀ (i : Nat) (h8 : i < 8), i < r.2.disk_count →
          ∃ l, ((file_lines ['a', '\n', '#', 'c', '\n', '\n', 'b', '\r', '\n']).filter
                  playlist_entry)[i]? = some l
            ∧ (r.2.disks ⟨i, h8⟩).fname = some (['d'] ++ SLASH :: entry_name l))
      ∧ (∀ j : Fin 8, r.2.disk_count ≤ j.val →
          (r.2.disks j).fname = none ∧ (r.2.disks j).flabel = none) :=
  read_m3u_slots ['d'] ['a', '\n', '#', 'c', '\n', '\n', 'b', '\r', '\n'] (by decide)
    (by decide)

/-! ## Theorems: memory regions -/

/-- A bitwise OR is zero exactly when both operands are. -/
theorem nat_or_eq_zero (a b : Nat) : a ||| b = 0 ↔ a = 0 ∧ b = 0 := by
  constructor
  · intro h
    have ht : ∀ i, (a ||| b).testBit i = false := by
      intro i; rw [h]; exact Nat.zero_testBit i
    constructor
    · apply Nat.eq_of_testBit_eq
      intro i
      have := ht i
      rw [Nat.testBit_or, Bool.or_eq_false_iff] at this
      rw [this.1, Nat.zero_testBit]
    · apply Nat.eq_of_testBit_eq
      intro i
      have := ht i
      rw [Nat.testBit_or, Bool.or_eq_false_iff] at this
      rw [this.2, Nat.zero_testBit]
  · rintro ⟨rfl, rfl⟩
    rfl

/-- The OR of the save bytes is zero exactly when the running value and every byte the
loop visits are zero. -/
theorem sv_sum_loop_eq_zero (sv_data : Nat → Nat) (n i sum : Nat) :
    sv_sum_loop sv_data n i sum = 0 ↔ sum = 0 ∧ ∀ j, i ≤ j → j < i + n → sv_data j = 0 := by
  induction n generalizing i sum with
  | zero =>
    simp only [sv_sum_loop]
    exact ⟨fun h => ⟨h, fun j h1 h2 => by omega⟩, fun h => h.1⟩
  | succ n ih =>
    rw [sv_sum_loop, ih, nat_or_eq_zero]
    constructor
    · rintro ⟨⟨h1, h2⟩, h3⟩
      refine ⟨h1, fun j hj1 hj2 => ?_⟩
      by_cases hji : j = i
      · rw [hji]; exact h2
      · exact h3 j (by omega) (by omega)
    · rintro ⟨h1, h2⟩
      exact ⟨⟨h1, h2 i (Nat.le_refl _) (by omega)⟩, fun j hj1 hj2 => h2 j (by omega) (by omega)⟩

/-- C21: for the save-RAM type on a system without CD hardware, the size is
`Pico.sv.size` while `frame_count` is 0, and afterwards `Pico.sv.size` when some save
byte is non-zero and 0 when all save bytes are zero; with CD hardware it is 0x12000
with the RAM cart option and 0x2000 without; for a type that is neither save RAM nor
system RAM it is 0. -/
theorem retro_get_memory_size_cases (k : memory_consts) (type : Nat) (m : memory_state) :
    (type = k.RETRO_MEMORY_SAVE_RAM → m.AHW &&& k.PAHW_MCD = 0 → m.frame_count = 0 →
      retro_get_memory_size k type m = m.sv_size)
    ∧ (type = k.RETRO_MEMORY_SAVE_RAM → m.AHW &&& k.PAHW_MCD = 0 → m.frame_count ≠ 0 →
        (∃ j, j < m.sv_size ∧ m.sv_data j ≠ 0) → retro_get_memory_size k type m = m.sv_size)
    ∧ (type = k.RETRO_MEMORY_SAVE_RAM → m.AHW &&& k.PAHW_MCD = 0 → m.frame_count ≠ 0 →
        (∀ j, j < m.sv_size → m.sv_data j = 0) → retro_get_memory_size k type m = 0)
    ∧ (type = k.RETRO_MEMORY_SAVE_RAM → m.AHW &&& k.PAHW_MCD ≠ 0 →
        m.opt &&& k.POPT_EN_MCD_RAMCART ≠ 0 → retro_get_memory_size k type m = 0x12000)
    ∧ (type = k.RETRO_MEMORY_SAVE_RAM → m.AHW &&& k.PAHW_MCD ≠ 0 →
        m.opt &&& k.POPT_EN_MCD_RAMCART = 0 → retro_get_memory_size k type m = 0x2000)
    ∧ (type ≠ k.RETRO_MEMORY_SAVE_RAM → type ≠ k.RETRO_MEMORY_SYSTEM_RAM →
        retro_get_memory_size k type m = 0) := by
  refine ⟨?_, ?_, ?_, ?_, ?_, ?_⟩
  · intro h1 h2 h3
    simp [retro_get_memory_size, h1, h2, h3]
  · rintro h1 h2 h3 ⟨j, hj, hne⟩
    have hs : sv_sum_loop m.sv_data m.sv_size 0 0 ≠ 0 := by
      intro hc
      exact hne (((sv_sum_loop_eq_zero _ _ _ _).mp hc).2 j (Nat.zero_le _) (by omega))
    simp [retro_get_memory_size, h1, h2, h3, hs]
  · intro h1 h2 h3 hall
    have hs : sv_sum_loop m.sv_data m.sv_size 0 0 = 0 :=
      (sv_sum_loop_eq_zero _ _ _ _).mpr ⟨rfl, fun j _ hj => hall j (by omega)⟩
    simp [retro_get_memory_size, h1, h2, h3, hs]
  · intro h1 h2 h3
    simp [retro_get_memory_size, h1, h2, h3]
  · intro h1 h2 h3
    simp [retro_get_memory_size, h1, h2, h3]
  · intro h1 h2
    simp [retro_get_memory_size, h1, h2]

/-! ## Theorems: disk labels -/

/-- The call `strrchr` finds nothing exactly when the character does not occur. -/
theorem strrchr_none (s : List Char) (c : Char) : strrchr s c = none ↔ c ∉ s := by
  induction s with
  | nil => simp [strrchr]
  | cons x xs ih =>
    unfold strrchr
    cases h : strrchr xs c with
    | none =>
      have hx : c ∉ xs := ih.mp h
      by_cases hxc : x = c
      · simp [hxc]
      · simp only [hxc, if_false, List.mem_cons, not_or, true_iff]
        exact ⟨fun hc => hxc hc.symm, hx⟩
    | some i =>
      have hx : ¬ c ∉ xs := fun hc => by
        rw [ih.mpr hc] at h
        exact absurd h (by simp)
      simp only [List.mem_cons, not_or, false_iff, not_and, reduceCtorEq]
      exact fun _ => hx

/-- The index `strrchr` finds splits the string at the last occurrence: the character
stands at that index and does not occur behind it. -/
theorem strrchr_some (s : List Char) (c : Char) (i : Nat) (h : strrchr s c = some i) :
    ∃ suf, c ∉ suf ∧ s.drop i = c :: suf ∧ s = s.take i ++ c :: suf := by
  induction s generalizing i with
  | nil => simp [strrchr] at h
  | cons x xs ih =>
    unfold strrchr at h
    cases hx : strrchr xs c with
    | none =>
      rw [hx] at h
      by_cases hxc : x = c
      · simp only [hxc, if_true, Option.some.injEq] at h
        subst h
        exact ⟨xs, (strrchr_none xs c).mp hx, by rw [hxc]; rfl, by rw [hxc]; rfl⟩
      · simp [hxc] at h
    | some j =>
      rw [hx] at h
      simp only [Option.some.injEq] at h
      subst h
      obtain ⟨suf, h1, h2, h3⟩ := ih j hx
      refine ⟨suf, h1, by simpa using h2, ?_⟩
      simp only [List.take_succ_cons, List.cons_append]
      rw [← h3]

/-- C22: for a non-empty path `p` (and a buffer length of at least 1) the label is
made from `base`, the part of `p` after its last path separator (all of `p` when it
has none), cut to `len - 1` characters: it is that string when it holds no `.`, and
otherwise what stands before its last `.`; the label holds no path separator; for a
missing or empty path the label buffer is left as it was. -/
theorem get_disk_label_spec (disk_label p : List Char) (len : Nat)
    (hp : p ≠ []) (_hlen : 0 < len) :
    (∃ base, SLASH ∉ base ∧ (p = base ∨ ∃ pre, p = pre ++ SLASH :: base)
      ∧ (('.' ∉ base.take (len - 1)
            ∧ get_disk_label disk_label (some p) len = base.take (len - 1))
          ∨ ∃ ext, '.' ∉ ext
              ∧ base.take (len - 1) = get_disk_label disk_label (some p) len ++ '.' :: ext))
    ∧ SLASH ∉ get_disk_label disk_label (some p) len
    ∧ get_disk_label disk_label none len = disk_label
    ∧ get_disk_label disk_label (some []) len = disk_label := by
  have hcut : ∀ base : List Char,
      (match strrchr (base.take (len - 1)) '.' with
        | some i => (base.take (len - 1)).take i
        | none => base.take (len - 1)) <+: base.take (len - 1)
      ∧ (('.' ∉ base.take (len - 1)
            ∧ (match strrchr (base.take (len - 1)) '.' with
                | some i => (base.take (len - 1)).take i
                | none => base.take (len - 1)) = base.take (len - 1))
          ∨ ∃ ext, '.' ∉ ext
              ∧ base.take (len - 1) = (match strrchr (base.take (len - 1)) '.' with
                  | some i => (base.take (len - 1)).take i
                  | none => base.take (len - 1)) ++ '.' :: ext) := by
    intro base
    cases hd : strrchr (base.take (len - 1)) '.' with
    | none =>
      exact ⟨List.prefix_refl _, Or.inl ⟨(strrchr_none _ _).mp hd, rfl⟩⟩
    | some i =>
      obtain ⟨ext, e1, _, e3⟩ := strrchr_some _ _ i hd
      exact ⟨List.take_prefix _ _, Or.inr ⟨ext, e1, e3⟩⟩
  have hmain : ∃ base, SLASH ∉ base ∧ (p = base ∨ ∃ pre, p = pre ++ SLASH :: base)
      ∧ get_disk_label disk_label (some p) len
          = (match strrchr (base.take (len - 1)) '.' with
              | some i => (base.take (len - 1)).take i
              | none => base.take (len - 1)) := by
    cases p with
    | nil => exact absurd rfl hp
    | cons c cs =>
      cases hs : strrchr (c :: cs) SLASH with
      | none =>
        have hno : SLASH ∉ c :: cs := (strrchr_none _ _).mp hs
        have hhead : (c :: cs).head? ≠ some SLASH := by
          intro hc
          simp only [List.head?_cons, Option.some.injEq] at hc
          exact hno (by rw [hc]; exact List.mem_cons_self _ _)
        refine ⟨c :: cs, hno, Or.inl rfl, ?_⟩
        simp only [get_disk_label, hs, hhead, if_false]
      | some i =>
        obtain ⟨suf, s1, s2, s3⟩ := strrchr_some _ _ i hs
        refine ⟨suf, s1, Or.inr ⟨_, s3⟩, ?_⟩
        simp only [get_disk_label, hs, s2, List.head?_cons, if_true, List.drop_succ_cons,
          List.drop_zero]
  obtain ⟨base, b1, b2, b3⟩ := hmain
  obtain ⟨c1, c2⟩ := hcut base
  refine ⟨⟨base, b1, b2, ?_⟩, ?_, rfl, rfl⟩
  · rw [b3]
    exact c2
  · rw [b3]
    intro hmem
    exact b1 ((List.take_sublist _ _).subset (c1.subset hmem))

/-- Witness for C22: the path `dir/a.b.cue` with a buffer of 6 characters. -/
theorem get_disk_label_spec_witness :
    (∃ base, SLASH ∉ base
      ∧ (['d', 'i', 'r', '/', 'a', '.', 'b', '.', 'c', 'u', 'e'] = base
          ∨ ∃ pre, ['d', 'i', 'r', '/', 'a', '.', 'b', '.', 'c', 'u', 'e'] = pre ++ SLASH :: base)
      ∧ (('.' ∉ base.take (6 - 1)
            ∧ get_disk_label ['x']
                (some ['d', 'i', 'r', '/', 'a', '.', 'b', '.', 'c', 'u', 'e']) 6
              = base.take (6 - 1))
          ∨ ∃ ext, '.' ∉ ext
              ∧ base.take (6 - 1)
                = get_disk_label ['x']
                    (some ['d', 'i', 'r', '/', 'a', '.', 'b', '.', 'c', 'u', 'e']) 6
                  ++ '.' :: ext))
    ∧ SLASH ∉ get_disk_label ['x']
        (some ['d', 'i', 'r', '/', 'a', '.', 'b', '.', 'c', 'u', 'e']) 6
    ∧ get_disk_label ['x'] none 6 = ['x']
    ∧ get_disk_label ['x'] (some []) 6 = ['x'] :=
  get_disk_label_spec ['x'] ['d', 'i', 'r', '/', 'a', '.', 'b', '.', 'c', 'u', 'e'] 6
    (by decide) (by decide)

/-! ## Theorems: video mode -/

/-- The width is 256 or 320, whatever the column argument. -/
theorem vout_width_cases (is_32cols : Int) :
    ((if is_32cols ≠ 0 then (256 : Int) else 320) = 256 ∧ is_32cols ≠ 0)
    ∨ ((if is_32cols ≠ 0 then (256 : Int) else 320) = 320 ∧ is_32cols = 0) := by
  by_cases h : is_32cols = 0
  · right; simp [h]
  · left; simp [h]

/-- C24: when the `int` arithmetic does not overflow (`640 * start_line` and
`line_count + 2 * start_line` are representable), `emu_video_mode_change` leaves
`vout_width` at 256 for a non-zero `is_32cols` and 320 otherwise, `vout_height` at
`min(240, line_count + 2*start_line)` with overscan shown and `min(240, line_count)`
without, and `vout_offset` at 0 with overscan shown and
`min(vout_width*start_line*2, vout_width*239*2)` without. -/
theorem emu_video_mode_change_values (show_overscan : Bool)
    (start_line line_count is_32cols : Int)
    (h1 : int_ok (640 * start_line) = true)
    (h2 : int_ok (line_count + 2 * start_line) = true) :
    emu_video_mode_change show_overscan start_line line_count is_32cols
      = some { vout_width := if is_32cols ≠ 0 then 256 else 320
               vout_height := if show_overscan then min 240 (line_count + 2 * start_line)
                 else min 240 line_count
               vout_offset := if show_overscan then 0
                 else min ((if is_32cols ≠ 0 then 256 else 320) * start_line * 2)
                        ((if is_32cols ≠ 0 then 256 else 320) * 239 * 2) } := by
  simp only [int_ok, decide_eq_true_eq] at h1 h2
  unfold emu_video_mode_change
  rcases vout_width_cases is_32cols with ⟨hw, _⟩ | ⟨hw, _⟩ <;> rw [hw] <;> cases show_overscan
  all_goals simp only [int_ok, decide_eq_true_eq, Bool.false_eq_true, if_false, if_true]
  all_goals rw [if_pos (by omega)]
  all_goals
    congr 1
    simp only [vout_state.mk.injEq, true_and]
    constructor
    · split_ifs <;> omega
    · split_ifs <;> omega

/-- Witness for C24: the 224-line mode in 32-column mode with overscan shown. -/
theorem emu_video_mode_change_values_witness :
    emu_video_mode_change true 8 224 1
      = some { vout_width := if (1 : Int) ≠ 0 then 256 else 320
               vout_height := if true then min 240 (224 + 2 * 8) else min 240 224
               vout_offset := if true then 0
                 else min ((if (1 : Int) ≠ 0 then 256 else 320) * 8 * 2)
                        ((if (1 : Int) ≠ 0 then 256 else 320) * 239 * 2) } :=
  emu_video_mode_change_values true 8 224 1 (by decide) (by decide)

/-- C25 as stated fails: with overscan not shown, `start_line = 16`, `line_count = 240`
and 40-column mode, the window starts 10240 bytes into the buffer and has 240 rows of
640 bytes; it ends at byte 163840, beyond the 153600 bytes of the output buffer. -/
theorem emu_video_mode_change_window_overrun :
    emu_video_mode_change false 16 240 0
      = some { vout_width := 320, vout_height := 240, vout_offset := 10240 }
    ∧ ¬ ((10240 : Int) + 240 * 320 * 2 ≤ 153600) := by
  constructor
  · rfl
  · decide

/-- C25, amended: for `start_line >= 0` and `line_count >= 0` and either column mode,
with overscan shown (and `line_count + 2*start_line` representable), or with overscan
not shown and `start_line + line_count <= 240`, `emu_video_mode_change` leaves a
window of `vout_height` rows of `2*vout_width` bytes at `vout_offset` that lies inside
the output buffer of 320*240*2 bytes. -/
theorem emu_video_mode_change_window_inside (show_overscan : Bool)
    (start_line line_count is_32cols : Int)
    (hs : 0 ≤ start_line) (hl : 0 ≤ line_count)
    (h : (show_overscan = true ∧ int_ok (line_count + 2 * start_line) = true)
          ∨ (show_overscan = false ∧ start_line + line_count ≤ 240)) :
    ∃ v, emu_video_mode_change show_overscan start_line line_count is_32cols = some v
      ∧ 0 ≤ v.vout_offset ∧ 0 ≤ v.vout_height
      ∧ v.vout_offset + v.vout_height * v.vout_width * 2 ≤ 320 * 240 * 2 := by
  have hcases : (show_overscan = true ∧ line_count + 2 * start_line ≤ 2147483647)
      ∨ (show_overscan = false ∧ start_line + line_count ≤ 240) := by
    rcases h with ⟨h1, h2⟩ | h
    · simp only [int_ok, decide_eq_true_eq] at h2
      exact Or.inl ⟨h1, h2.2⟩
    · exact Or.inr h
  clear h
  unfold emu_video_mode_change
  rcases vout_width_cases is_32cols with ⟨hw, _⟩ | ⟨hw, _⟩ <;> rw [hw] <;>
    rcases hcases with ⟨ho, hb⟩ | ⟨ho, hb⟩ <;> subst ho
  all_goals simp only [int_ok, decide_eq_true_eq, Bool.false_eq_true, if_false, if_true]
  all_goals rw [if_pos (by omega)]
  all_goals refine ⟨_, rfl, ?_, ?_, ?_⟩
  all_goals simp only []
  all_goals split_ifs <;> omega

/-- Witness for C25: the 224-line mode (`start_line = 8`, `line_count = 224`) in
32-column mode without overscan. -/
theorem emu_video_mode_change_window_inside_witness :
    ∃ v, emu_video_mode_change false 8 224 1 = some v
      ∧ 0 ≤ v.vout_offset ∧ 0 ≤ v.vout_height
      ∧ v.vout_offset + v.vout_height * v.vout_width * 2 ≤ 320 * 240 * 2 :=
  emu_video_mode_change_window_inside false 8 224 1 (by decide) (by decide)
    (Or.inr ⟨rfl, by decide⟩)

/-! ## Theorems: frameskip set-up -/

/-- With accurate `float` arithmetic the value converted to `unsigned` is 100 at 60 Hz
and 120 at 50 Hz: six frame times in milliseconds, rounded to nearest. -/
theorem six_frame_times (f : float_ops) (hf : float_accurate f) (pal : Bool) :
    float_to_unsigned (f.add (f.mul 6 (f.div 1000 (if pal then 50 else 60))) (1 / 2))
      = if pal then 120 else 100 := by
  have key : ∀ fps e : ℚ, (fps = 50 ∧ e = 120) ∨ (fps = 60 ∧ e = 100) →
      (e : ℚ) ≤ f.add (f.mul 6 (f.div 1000 fps)) (1 / 2)
      ∧ f.add (f.mul 6 (f.div 1000 fps)) (1 / 2) < e + 1 := by
    intro fps e hfe
    have hq : 1000 / fps * 6 = e ∧ fps ≠ 0 := by
      rcases hfe with ⟨h1, h2⟩ | ⟨h1, h2⟩ <;> subst h1 <;> subst h2 <;> norm_num
    have he : 100 ≤ e ∧ e ≤ 120 := by
      rcases hfe with ⟨_, h2⟩ | ⟨_, h2⟩ <;> subst h2 <;> norm_num
    have h1 := (hf 1000 fps).1 hq.2 (by rw [abs_le]; constructor <;> linarith [hq.1])
    rw [abs_le] at h1
    have h2 := (hf 6 (f.div 1000 fps)).2.1 (by rw [abs_le]; constructor <;> linarith [hq.1])
    rw [abs_le] at h2
    have h3 := (hf (f.mul 6 (f.div 1000 fps)) (1 / 2)).2.2
      (by rw [abs_le]; constructor <;> linarith [hq.1])
    rw [abs_le] at h3
    constructor <;> linarith [hq.1]
  have hfloor : ∀ (x : ℚ) (z : Int), (z : ℚ) ≤ x → x < z + 1 → Rat.floor x = z := by
    intro x z h1 h2
    rw [Rat.floor_def', ← Rat.floor_def]
    exact Int.floor_eq_iff.mpr ⟨h1, h2⟩
  cases pal
  · obtain ⟨k1, k2⟩ := key 60 100 (Or.inr ⟨rfl, rfl⟩)
    have hfl := hfloor _ 100 (by exact_mod_cast k1) (by exact_mod_cast k2)
    simp only [Bool.false_eq_true, if_false, float_to_unsigned, hfl]
    decide
  · obtain ⟨k1, k2⟩ := key 50 120 (Or.inl ⟨rfl, rfl⟩)
    have hfl := hfloor _ 120 (by exact_mod_cast k1) (by exact_mod_cast k2)
    simp only [if_true, float_to_unsigned, hfl]
    decide

/-- Exact arithmetic is accurate. -/
theorem float_exact_accurate : float_accurate float_exact := by
  intro a b
  simp [float_exact]

/-- C28: with frameskip enabled and a frontend that accepts the audio-buffer status
callback, and `float` arithmetic of the stated accuracy, `init_frameskip` leaves
`audio_latency` at 128 for both 60 Hz and 50 Hz, which is the smallest multiple of 32
that is at least six frame times in milliseconds rounded to nearest (100 at 60 Hz, 120
at 50 Hz); with frameskip off, or when the frontend rejects the callback,
`audio_latency` is 0; in all cases `update_audio_latency` is set. -/
theorem init_frameskip_latency (f : float_ops) (hf : float_accurate f) (accepts pal : Bool)
    (s : frameskip_state) (l : latency_state) :
    (s.frameskip_type > 0 → accepts = true →
      (init_frameskip f accepts pal s l).2.audio_latency = 128
      ∧ 128 % 32 = 0
      ∧ (if pal then 120 else 100) ≤ 128 ∧ 128 - 32 < (if pal then 120 else 100)
      ∧ (if pal then (120 : Int) else 100) = ⌊(6 * 1000 / (if pal then 50 else 60) : ℚ) + 1 / 2⌋)
    ∧ ((s.frameskip_type = 0 ∨ accepts = false) →
        (init_frameskip f accepts pal s l).2.audio_latency = 0)
    ∧ (init_frameskip f accepts pal s l).2.update_audio_latency = true := by
  refine ⟨?_, ?_, ?_⟩
  · intro ht ha
    have h6 := six_frame_times f hf pal
    refine ⟨?_, by decide, ?_, ?_, ?_⟩
    · simp only [init_frameskip, ht, ha, if_true, Bool.true_eq_false, if_false, h6]
      cases pal <;> decide
    · cases pal <;> decide
    · cases pal <;> decide
    · cases pal
      · simp only [Bool.false_eq_true, if_false]
        symm
        rw [Int.floor_eq_iff]
        norm_num
      · simp only [if_true]
        symm
        rw [Int.floor_eq_iff]
        norm_num
  · rintro (h | h)
    · have h0 : ¬ s.frameskip_type > 0 := by omega
      simp only [init_frameskip, h0, if_false]
    · by_cases ht : s.frameskip_type > 0
      · simp only [init_frameskip, ht, h, if_true]
      · simp only [init_frameskip, ht, if_false]
  · unfold init_frameskip
    split_ifs <;> rfl

/-- Witness for C28: exact arithmetic, a PAL machine, manual frameskip. -/
theorem init_frameskip_latency_witness :
    ((retro_init 2 33).frameskip_type > 0 → true = true →
      (init_frameskip float_exact true true (retro_init 2 33) ⟨0, false⟩).2.audio_latency = 128
      ∧ 128 % 32 = 0
      ∧ (if true then 120 else 100) ≤ 128 ∧ 128 - 32 < (if true then 120 else 100)
      ∧ (if true then (120 : Int) else 100)
          = ⌊(6 * 1000 / (if true then 50 else 60) : ℚ) + 1 / 2⌋)
    ∧ (((retro_init 2 33).frameskip_type = 0 ∨ true = false) →
        (init_frameskip float_exact true true (retro_init 2 33) ⟨0, false⟩).2.audio_latency = 0)
    ∧ (init_frameskip float_exact true true (retro_init 2 33)
        ⟨0, false⟩).2.update_audio_latency = true :=
  init_frameskip_latency float_exact float_exact_accurate true true (retro_init 2 33)
    ⟨0, false⟩

/-! ## Theorems: the patch array while `retro_cheat_set` runs -/

/-- Leaving the events out of the loop with events gives the loop of
`retro_cheat_set`. -/
theorem retro_cheat_set_loop_events_state (decode : List Char → patch)
    (realloc_ok : Nat → Bool) (log_cb : Bool) (enabled : Bool) (fuel : Nat) (rest : List Char)
    (array_len : Nat) (s : cheat_state) :
    (retro_cheat_set_loop_events decode realloc_ok log_cb enabled fuel rest array_len s).map
        (fun r => r.1)
      = retro_cheat_set_loop decode realloc_ok log_cb enabled fuel rest array_len s := by
  induction fuel generalizing rest array_len s with
  | zero => rfl
  | succ fuel ih =>
    unfold retro_cheat_set_loop_events retro_cheat_set_loop
    cases strtok rest '+' with
    | none => rfl
    | some tr =>
      obtain ⟨buff, rest1⟩ := tr
      simp only []
      split_ifs <;> try rfl
      all_goals
        rw [← ih]
        generalize retro_cheat_set_loop_events _ _ _ _ _ _ _ _ = r
        cases r <;> rfl

/-- Leaving the events out of `retro_cheat_set_events` gives `retro_cheat_set`. -/
theorem retro_cheat_set_events_state (decode : List Char → patch) (realloc_ok : Nat → Bool)
    (log_cb : Bool) (index : Nat) (enabled : Bool) (code : List Char) (s : cheat_state) :
    (retro_cheat_set_events decode realloc_ok log_cb index enabled code s).map (fun r => r.1)
      = retro_cheat_set decode realloc_ok log_cb index enabled code s := by
  unfold retro_cheat_set_events retro_cheat_set
  cases code with
  | nil => rfl
  | cons c cs =>
    simp only []
    split_ifs
    · rfl
    · exact retro_cheat_set_loop_events_state _ _ _ _ _ _ _ _

/-- The loop with events and a log function, entered either before any `realloc` of the call with
`array_len` equal to the patch count, or with `array_len` the element count of the
last successful `realloc` and at least the patch count: it ends, every store is below
the element count of the last successful `realloc`, nothing follows a failed one, the
stores go to the consecutive indices from the patch count on, one for each patch
appended, and before any `realloc` the first event is the `realloc` for twice the
patch count plus one. -/
theorem retro_cheat_set_loop_events_spec (decode : List Char → patch)
    (realloc_ok : Nat → Bool) (enabled : Bool) (fuel : Nat) (rest : List Char)
    (array_len : Nat) (s : cheat_state) (cap : Option Nat)
    (hfuel : rest.length < fuel)
    (hcap : (cap = none ∧ array_len = s.PicoPatches.length)
            ∨ (cap = some array_len ∧ s.PicoPatches.length ≤ array_len)) :
    ∃ s1 events,
      retro_cheat_set_loop_events decode realloc_ok true enabled fuel rest array_len s
        = some (s1, events)
      ∧ writes_in_bounds cap events = true
      ∧ s.PicoPatches.length ≤ s1.PicoPatches.length
      ∧ write_indices events
          = List.range' s.PicoPatches.length (s1.PicoPatches.length - s.PicoPatches.length)
      ∧ (cap = none → events = []
          ∨ ∃ ok t, events = patch_event.realloc (2 * s.PicoPatches.length + 1) ok :: t) := by
  induction fuel generalizing rest array_len s cap with
  | zero => omega
  | succ fuel ih =>
    have hnil : ∃ s1 events, some (s, ([] : List patch_event)) = some (s1, events)
        ∧ writes_in_bounds cap events = true
        ∧ s.PicoPatches.length ≤ s1.PicoPatches.length
        ∧ write_indices events
            = List.range' s.PicoPatches.length
                (s1.PicoPatches.length - s.PicoPatches.length)
        ∧ (cap = none → events = []
            ∨ ∃ ok t, events = patch_event.realloc (2 * s.PicoPatches.length + 1) ok :: t) := by
      refine ⟨s, [], rfl, ?_, Nat.le_refl _, ?_, fun _ => Or.inl rfl⟩
      · cases cap <;> rfl
      · simp [write_indices]
    rcases strtok_sub_codes rest with ⟨h1, _⟩ | ⟨t, rest1, h1, _, h3⟩
    · simp only [retro_cheat_set_loop_events, h1]
      exact hnil
    · by_cases hv : (decode t).addr = 4294967295 ∨ (decode t).data = 65535
      · simp only [retro_cheat_set_loop_events, h1, hv, if_true]
        exact hnil
      · by_cases hlt : array_len < s.PicoPatches.length + 1
        · have hal : array_len = s.PicoPatches.length := by
            rcases hcap with ⟨_, h⟩ | ⟨_, h⟩ <;> omega
          cases hr : realloc_ok (array_len * 2 + 1)
          · refine ⟨s, [patch_event.realloc (array_len * 2 + 1) false], ?_, ?_, Nat.le_refl _,
              ?_, fun _ => Or.inr ⟨false, [], ?_⟩⟩
            · simp [retro_cheat_set_loop_events, h1, hv, hlt, hr]
            · cases cap <;> rfl
            · simp [write_indices]
            · rw [hal, Nat.mul_comm]
          · obtain ⟨s1, ev, e1, e2, e3, e4, _⟩ := ih rest1 (array_len * 2 + 1)
              { s with PicoPatches := s.PicoPatches ++
                  [patch_of decode enabled s.romsize s.rom s.bus t] }
              (some (array_len * 2 + 1)) (by omega)
              (Or.inr ⟨rfl, by simp only [List.length_append, List.length_singleton]; omega⟩)
            simp only [List.length_append, List.length_singleton] at e3 e4
            refine ⟨s1, patch_event.realloc (array_len * 2 + 1) true
              :: patch_event.write s.PicoPatches.length :: ev, ?_, ?_, by omega, ?_,
              fun _ => Or.inr ⟨true, _, by rw [hal, Nat.mul_comm]⟩⟩
            · simp only [patch_of, read_old] at e1
              simp [retro_cheat_set_loop_events, h1, hv, hlt, hr, e1]
            · have hb : s.PicoPatches.length < array_len * 2 + 1 := by omega
              cases cap <;> simp [writes_in_bounds, hb, e2]
            · have hk : s1.PicoPatches.length - s.PicoPatches.length
                  = (s1.PicoPatches.length - (s.PicoPatches.length + 1)) + 1 := by omega
              rw [hk, List.range'_succ, ← e4]
              rfl
        · have hc : cap = some array_len ∧ s.PicoPatches.length + 1 ≤ array_len := by
            rcases hcap with ⟨_, h⟩ | ⟨h, _⟩
            · omega
            · exact ⟨h, by omega⟩
          obtain ⟨s1, ev, e1, e2, e3, e4, _⟩ := ih rest1 array_len
            { s with PicoPatches := s.PicoPatches ++
                [patch_of decode enabled s.romsize s.rom s.bus t] }
            (some array_len) (by omega)
            (Or.inr ⟨rfl, by simp only [List.length_append, List.length_singleton]; omega⟩)
          simp only [List.length_append, List.length_singleton] at e3 e4
          refine ⟨s1, patch_event.write s.PicoPatches.length :: ev, ?_, ?_, by omega, ?_,
            fun hn => ?_⟩
          · simp only [patch_of, read_old] at e1
            simp [retro_cheat_set_loop_events, h1, hv, hlt, e1]
          · have hb : s.PicoPatches.length < array_len := by omega
            rw [hc.1]
            simp [writes_in_bounds, hb, e2]
          · have hk : s1.PicoPatches.length - s.PicoPatches.length
                = (s1.PicoPatches.length - (s.PicoPatches.length + 1)) + 1 := by omega
            rw [hk, List.range'_succ, ← e4]
            rfl
          · rw [hc.1] at hn
            exact absurd hn (by simp)

/-- With a log function, for every code shorter than 256 characters and every starting
patch count (below 2^30, so that `array_len` stays an `int`), `retro_cheat_set`
returns; every store to `PicoPatches[PicoPatchCount]` goes to an index strictly below
the element count of the most recent successful `realloc` of the call; when anything
happens to the array at all, the first event is the `realloc` for
`2 * PicoPatchCount + 1` elements, before the first store; nothing, so no store,
follows a failed `realloc`; and the stores go to the consecutive indices from the
starting patch count on, one for each patch appended. -/
theorem retro_cheat_set_writes_in_bounds (decode : List Char → patch)
    (realloc_ok : Nat → Bool) (index : Nat) (enabled : Bool) (code : List Char)
    (s : cheat_state) (hlen : code.length < 256)
    (_hcount : s.PicoPatches.length < 1073741568) :
    ∃ s1 events,
      retro_cheat_set_events decode realloc_ok true index enabled code s = some (s1, events)
      ∧ retro_cheat_set decode realloc_ok true index enabled code s = some s1
      ∧ writes_in_bounds none events = true
      ∧ write_indices events
          = List.range' s.PicoPatches.length (s1.PicoPatches.length - s.PicoPatches.length)
      ∧ (events = []
          ∨ ∃ ok t, events = patch_event.realloc (2 * s.PicoPatches.length + 1) ok :: t) := by
  have hstate := retro_cheat_set_events_state decode realloc_ok true index enabled code s
  cases code with
  | nil =>
    refine ⟨s, [], rfl, rfl, rfl, by simp [write_indices], Or.inl rfl⟩
  | cons c cs =>
    have h256 : ¬ ((c :: cs).length + 1 > 256) := by omega
    obtain ⟨s1, ev, e1, e2, _, e4, e5⟩ := retro_cheat_set_loop_events_spec decode realloc_ok
      enabled ((c :: cs).length + 1) (c :: cs) s.PicoPatches.length s none (by omega)
      (Or.inl ⟨rfl, rfl⟩)
    have hev : retro_cheat_set_events decode realloc_ok true index enabled (c :: cs) s
        = some (s1, ev) := by
      simp only [retro_cheat_set_events, h256, if_false]
      exact e1
    refine ⟨s1, ev, hev, ?_, e2, e4, e5 rfl⟩
    rw [← hstate, hev]
    rfl

/-- The code `A+B` on the empty patch list with a `realloc` that succeeds and a log
function: the stores stay inside the array. -/
theorem retro_cheat_set_writes_in_bounds_sample :
    ∃ s1 events,
      retro_cheat_set_events decode_sample (fun _ => true) true 0 true ['A', '+', 'B']
          cheat_state_zero = some (s1, events)
      ∧ retro_cheat_set decode_sample (fun _ => true) true 0 true ['A', '+', 'B']
          cheat_state_zero = some s1
      ∧ writes_in_bounds none events = true
      ∧ write_indices events
          = List.range' cheat_state_zero.PicoPatches.length
              (s1.PicoPatches.length - cheat_state_zero.PicoPatches.length)
      ∧ (events = []
          ∨ ∃ ok t, events
              = patch_event.realloc (2 * cheat_state_zero.PicoPatches.length + 1) ok :: t) :=
  retro_cheat_set_writes_in_bounds decode_sample (fun _ => true) 0 true ['A', '+', 'B']
    cheat_state_zero (by decide) (by decide)

/-- C27: two calls of `retro_cheat_set` have no defined result, so nothing bounds what
they store. When `realloc` fails and `log_cb` is `NULL`, line 987 calls the null
pointer instead of returning (with a log function the call stops after the failed
`realloc` and appends nothing). For a code of 256 characters or more, whatever follows
its first 256 characters, `strcpy` at line 967 writes past the end of `codeCopy`. -/
theorem retro_cheat_set_undefined_calls (decode : List Char → patch)
    (realloc_ok : Nat → Bool) (log_cb : Bool) (index : Nat) (enabled : Bool) (c : Char)
    (tail : List Char) (s : cheat_state) :
    retro_cheat_set_events decode_sample (fun _ => false) false 0 true ['A'] cheat_state_zero
      = none
    ∧ (retro_cheat_set_events decode_sample (fun _ => false) true 0 true ['A']
          cheat_state_zero).map (fun r => (r.1.PicoPatches, r.2))
        = some ([], [patch_event.realloc 1 false])
    ∧ retro_cheat_set_events decode realloc_ok log_cb index enabled
        (List.replicate 256 c ++ tail) s = none
    ∧ retro_cheat_set decode realloc_ok log_cb index enabled
        (List.replicate 256 c ++ tail) s = none := by
  have hcons : List.replicate 256 c ++ tail = c :: (List.replicate 255 c ++ tail) := rfl
  have hlen : (c :: (List.replicate 255 c ++ tail)).length + 1 > 256 := by
    simp only [List.length_cons, List.length_append, List.length_replicate]
    omega
  refine ⟨rfl, rfl, ?_, ?_⟩
  · rw [hcons]
    simp only [retro_cheat_set_events, hlen, if_true]
  · rw [hcons]
    simp only [retro_cheat_set, hlen, if_true]

/-! ## Theorems: disk invariants and the initial disk -/

/-- What `fgets` leaves of the file is no longer than the file. -/
theorem fgets_chars_rest_le (n : Nat) (f : List Char) :
    (fgets_chars n f).2.length ≤ f.length := by
  induction f generalizing n with
  | nil => cases n <;> simp [fgets_chars]
  | cons c f ih =>
    cases n with
    | zero => simp [fgets_chars]
    | succ n =>
      unfold fgets_chars
      by_cases hc : c = '\n'
      · simp [hc]
      · simp only [hc, if_false, List.length_cons]
        have := ih n
        omega

/-- A successful `fgets` reads at least one character. -/
theorem fgets_rest_lt (f line rest : List Char) (h : fgets 1024 f = some (line, rest)) :
    rest.length < f.length := by
  cases f with
  | nil => simp [fgets] at h
  | cons c cs =>
    simp only [fgets, Option.some.injEq] at h
    have h2 : (fgets_chars 1023 (c :: cs)).2 = rest := by rw [h]
    rw [← h2]
    show (fgets_chars (1022 + 1) (c :: cs)).2.length < _
    unfold fgets_chars
    by_cases hc : c = '\n'
    · simp [hc]
    · simp only [hc, if_false, List.length_cons]
      have := fgets_chars_rest_le 1022 cs
      omega

/-- The name `snprintf` makes of a directory, the separator and a line is never
empty. -/
theorem snprintf_scs_ne_nil (a b : List Char) :
    ∃ c cs, snprintf_scs PATH_MAX a SLASH b = c :: cs := by
  unfold snprintf_scs PATH_MAX
  cases h : a ++ SLASH :: b with
  | nil => simp at h
  | cons x xs => exact ⟨x, xs.take 4094, rfl⟩

/-- The loop of `read_m3u` on any file, with enough fuel and at most 8 disks counted:
it ends; the disk count does not shrink and stays at most 8; index and eject flag are
untouched; every slot below the new count either lies below the old count and is
untouched, or holds a name that is not empty. -/
theorem read_m3u_loop_inv (base_dir : List Char) (fuel : Nat) (f : List Char) (s : disk_manager)
    (hfuel : f.length < fuel) (hcount : s.disk_count ≤ 8) :
    ∃ r, read_m3u_loop base_dir fuel f s = some r
      ∧ s.disk_count ≤ r.disk_count ∧ r.disk_count ≤ 8
      ∧ r.disk_current_index = s.disk_current_index
      ∧ r.disk_ejected = s.disk_ejected
      ∧ (∀ j : Fin 8, j.val < r.disk_count →
          (j.val < s.disk_count ∧ r.disks j = s.disks j)
          ∨ ∃ c cs, (r.disks j).fname = some (c :: cs)) := by
  induction fuel generalizing f s with
  | zero => omega
  | succ fuel ih =>
    have hself : ∃ r, some s = some r
        ∧ s.disk_count ≤ r.disk_count ∧ r.disk_count ≤ 8
        ∧ r.disk_current_index = s.disk_current_index
        ∧ r.disk_ejected = s.disk_ejected
        ∧ (∀ j : Fin 8, j.val < r.disk_count →
            (j.val < s.disk_count ∧ r.disks j = s.disks j)
            ∨ ∃ c cs, (r.disks j).fname = some (c :: cs)) :=
      ⟨s, rfl, Nat.le_refl _, hcount, rfl, rfl, fun j hj => Or.inl ⟨hj, rfl⟩⟩
    unfold read_m3u_loop
    cases hfg : fgets 1024 f with
    | none => exact hself
    | some lr =>
      obtain ⟨line, rest⟩ := lr
      have hrest : rest.length < fuel := by
        have := fgets_rest_lt f line rest hfg
        omega
      simp only []
      by_cases h8 : s.disk_count < 8
      · simp only [h8, dite_true]
        by_cases hh : line.head? = some '#'
        · rw [if_pos hh]
          exact ih rest s hrest hcount
        · rw [if_neg hh]
          by_cases he : cut_at (cut_at (c_str line) '\r') '\n' ≠ []
          · rw [if_pos he]
            obtain ⟨r, e1, e2, e3, e4, e5, e6⟩ := ih rest
              { s with disks := Function.update s.disks ⟨s.disk_count, h8⟩
                          { fname := some (snprintf_scs PATH_MAX base_dir SLASH
                              (cut_at (cut_at (c_str line) '\r') '\n'))
                            flabel := some (get_disk_label []
                              (some (snprintf_scs PATH_MAX base_dir SLASH
                                (cut_at (cut_at (c_str line) '\r') '\n'))) PATH_MAX) }
                       disk_count := s.disk_count + 1 } hrest
              (by show s.disk_count + 1 ≤ 8; omega)
            simp only [] at e2 e6
            refine ⟨r, e1, by omega, e3, e4, e5, ?_⟩
            intro j hj
            rcases e6 j hj with ⟨h1, h2⟩ | h
            · by_cases hjc : j = ⟨s.disk_count, h8⟩
              · right
                obtain ⟨c, cs, hn⟩ := snprintf_scs_ne_nil base_dir
                  (cut_at (cut_at (c_str line) '\r') '\n')
                refine ⟨c, cs, ?_⟩
                rw [h2, hjc, Function.update_same]
                simp only []
                rw [hn]
              · left
                have hv : j.val ≠ s.disk_count := fun hc => hjc (Fin.ext hc)
                refine ⟨by omega, ?_⟩
                rw [h2, Function.update_noteq hjc]
            · exact Or.inr h
          · rw [if_neg he]
            exact ih rest s hrest hcount
      · simp only [h8, dite_false]
        exact hself

/-- The function `read_m3u` on any file, with at most 8 disks counted: it returns, and
what `read_m3u_loop_inv` says of the loop holds of the disk manager it leaves; when it
returns true a disk is counted. -/
theorem read_m3u_inv (base_dir : List Char) (file : Option (List Char)) (s : disk_manager)
    (hcount : s.disk_count ≤ 8) :
    ∃ b r, read_m3u base_dir file s = some (b, r)
      ∧ (b = true → r.disk_count ≠ 0)
      ∧ (b = false → r.disk_count = 0 ∨ r = s)
      ∧ s.disk_count ≤ r.disk_count ∧ r.disk_count ≤ 8
      ∧ r.disk_current_index = s.disk_current_index
      ∧ r.disk_ejected = s.disk_ejected
      ∧ (∀ j : Fin 8, j.val < r.disk_count →
          (j.val < s.disk_count ∧ r.disks j = s.disks j)
          ∨ ∃ c cs, (r.disks j).fname = some (c :: cs)) := by
  cases file with
  | none =>
    exact ⟨false, s, rfl, fun h => absurd h (by decide), fun _ => Or.inr rfl, Nat.le_refl _,
      hcount, rfl, rfl, fun j hj => Or.inl ⟨hj, rfl⟩⟩
  | some f =>
    obtain ⟨r, e1, e2, e3, e4, e5, e6⟩ := read_m3u_loop_inv base_dir (f.length + 1) f s
      (by omega) hcount
    refine ⟨decide (r.disk_count ≠ 0), r, ?_, ?_, ?_, e2, e3, e4, e5, e6⟩
    · simp [read_m3u, e1]
    · intro hb
      simpa using hb
    · intro hb
      left
      simpa using hb

/-- The disk set-up of `retro_load_game`, for every argument and prior state. For
content that is not a playlist the table holds the content as its one disk and the
media load gets the content path. For a playlist `read_m3u` returns; when it returns
false the function calls `log_cb` and returns before the media load, which is
undefined while `log_cb` is `NULL`; when it returns true the media load gets the path
of the slot of `cd_index`, which is `disk_initial_index` when
`0 < disk_initial_index < disk_count` and the slot of that index holds the stored
initial path, and 0 in every other case, and the current index becomes `cd_index`. -/
theorem retro_load_game_disks_spec (log_cb : Bool) (base_dir content_path content_ext : List Char)
    (file : Option (List Char)) (ini : disk_initial) (s : disk_manager) :
    (strcasestr_m3u content_ext = false →
      retro_load_game_disks log_cb base_dir content_path content_ext file ini s
        = some { state := { disk_init s with
                   disk_current_index := 0
                   disk_count := 1
                   disks := Function.update (disk_init s).disks 0
                     { fname := some content_path
                       flabel := some (get_disk_label [] (some content_path) PATH_MAX) } }
                 cd_index := 0
                 media_path := some content_path })
    ∧ (strcasestr_m3u content_ext = true →
      ∃ b s1, read_m3u base_dir file (disk_init s) = some (b, s1)
        ∧ s1.disk_count ≤ 8
        ∧ (b = false →
            retro_load_game_disks log_cb base_dir content_path content_ext file ini s
              = if log_cb then some { state := s1, cd_index := 0, media_path := none }
                else none)
        ∧ (b = true →
            ∃ r p, retro_load_game_disks log_cb base_dir content_path content_ext file ini s
                = some r
              ∧ r.state = { s1 with disk_current_index := r.cd_index }
              ∧ ((0 < ini.disk_initial_index ∧ ini.disk_initial_index < s1.disk_count
                    ∧ slot_fname s1 ini.disk_initial_index
                        = some (some ini.disk_initial_path)) →
                  r.cd_index = ini.disk_initial_index)
              ∧ (¬ (0 < ini.disk_initial_index ∧ ini.disk_initial_index < s1.disk_count
                    ∧ slot_fname s1 ini.disk_initial_index
                        = some (some ini.disk_initial_path)) →
                  r.cd_index = 0)
              ∧ r.cd_index < s1.disk_count
              ∧ slot_fname s1 r.cd_index = some (some p)
              ∧ r.media_path = some (p.take (PATH_MAX - 1)))) := by
  constructor
  · intro hm
    have hm2 : ¬ (strcasestr_m3u content_ext = true) := by simp [hm]
    unfold retro_load_game_disks
    simp only []
    rw [if_neg hm2]
  · intro hm
    obtain ⟨b, s1, e1, e2, e3, e4, e5, e6, e7, e8⟩ :=
      read_m3u_inv base_dir file (disk_init s) (by show (0 : Nat) ≤ 8; omega)
    refine ⟨b, s1, e1, e5, ?_, ?_⟩
    · intro hb
      subst hb
      unfold retro_load_game_disks
      simp only []
      rw [if_pos hm, e1]
    · intro hb
      subst hb
      have hold : ∀ j : Fin 8, j.val < s1.disk_count →
          ∃ c cs, (s1.disks j).fname = some (c :: cs) := by
        intro j hj
        rcases e8 j hj with ⟨h, _⟩ | h
        · exact absurd h (Nat.not_lt_zero _)
        · exact h
      have hne : s1.disk_count ≠ 0 := e2 rfl
      obtain ⟨c0, cs0, h0⟩ := hold ⟨0, by omega⟩ (by show 0 < s1.disk_count; omega)
      have hs0 : slot_fname s1 0 = some (some (c0 :: cs0)) := by
        simp only [slot_fname, Nat.zero_lt_succ, dite_true]
        rw [← h0]
      unfold retro_load_game_disks
      simp only []
      rw [if_pos hm, e1]
      simp only [hs0]
      by_cases hi : ini.disk_initial_index > 0 ∧ ini.disk_initial_index < s1.disk_count
      · rw [if_pos hi]
        have hi8 : ini.disk_initial_index < 8 := by omega
        obtain ⟨c, cs, hslot⟩ := hold ⟨ini.disk_initial_index, hi8⟩ hi.2
        have hsi : slot_fname s1 ini.disk_initial_index = some (some (c :: cs)) := by
          simp only [slot_fname, hi8, dite_true]
          rw [hslot]
        simp only [hsi]
        by_cases heq : ini.disk_initial_path = c :: cs
        · rw [if_pos heq, if_pos (by omega)]
          refine ⟨_, c :: cs, rfl, rfl, fun _ => rfl, ?_, hi.2, hsi, rfl⟩
          intro hn
          exact absurd ⟨hi.1, hi.2, by rw [heq]⟩ hn
        · rw [if_neg heq]
          refine ⟨_, c0 :: cs0, rfl, rfl, ?_, fun _ => rfl, by show 0 < s1.disk_count; omega,
            hs0, rfl⟩
          rintro ⟨_, _, h4⟩
          simp only [Option.some.injEq] at h4
          exact absurd h4.symm heq
      · rw [if_neg hi]
        refine ⟨_, c0 :: cs0, rfl, rfl, ?_, fun _ => rfl, by show 0 < s1.disk_count; omega,
          hs0, rfl⟩
        rintro ⟨h2, h3, _⟩
        exact absurd ⟨h2, h3⟩ hi

/-- C23: for content that is not a playlist `retro_load_game` sets up the content as
disk 0 and starts on it. For a playlist that `read_m3u` reads (it returns true) the
media load is attempted with the path of the chosen disk, which is
`disk_initial_index` when `0 < disk_initial_index < disk_count` and the slot of that
index holds the path `disk_set_initial_image` stored, and disk 0 in every other case;
after the media load attempt `disk_current_index` is the chosen disk and the rest of
the table is as `read_m3u` left it. When `read_m3u` returns false the function returns
before a disk is chosen, through a call of `log_cb` that is undefined while `log_cb` is
`NULL`. `disk_set_initial_image` returns false and stores nothing when `index >= 8` or
the path is null or empty, and otherwise stores the index and the path. -/
theorem retro_load_game_initial_disk (log_cb : Bool)
    (base_dir content_path content_ext : List Char)
    (file : Option (List Char)) (ini : disk_initial) (s : disk_manager)
    (index : Nat) (path : Option (List Char)) :
    (strcasestr_m3u content_ext = false →
      retro_load_game_disks log_cb base_dir content_path content_ext file ini s
        = some { state := { disk_init s with
                   disk_current_index := 0
                   disk_count := 1
                   disks := Function.update (disk_init s).disks 0
                     { fname := some content_path
                       flabel := some (get_disk_label [] (some content_path) PATH_MAX) } }
                 cd_index := 0
                 media_path := some content_path })
    ∧ (strcasestr_m3u content_ext = true →
      ∃ b s1, read_m3u base_dir file (disk_init s) = some (b, s1)
        ∧ s1.disk_count ≤ 8
        ∧ (b = false →
            retro_load_game_disks log_cb base_dir content_path content_ext file ini s
              = if log_cb then some { state := s1, cd_index := 0, media_path := none }
                else none)
        ∧ (b = true →
            ∃ r p, retro_load_game_disks log_cb base_dir content_path content_ext file ini s
                = some r
              ∧ r.state = { s1 with disk_current_index := r.cd_index }
              ∧ ((0 < ini.disk_initial_index ∧ ini.disk_initial_index < s1.disk_count
                    ∧ slot_fname s1 ini.disk_initial_index
                        = some (some ini.disk_initial_path)) →
                  r.cd_index = ini.disk_initial_index)
              ∧ (¬ (0 < ini.disk_initial_index ∧ ini.disk_initial_index < s1.disk_count
                    ∧ slot_fname s1 ini.disk_initial_index
                        = some (some ini.disk_initial_path)) →
                  r.cd_index = 0)
              ∧ r.cd_index < s1.disk_count
              ∧ slot_fname s1 r.cd_index = some (some p)
              ∧ r.media_path = some (p.take (PATH_MAX - 1))))
    ∧ ((index ≥ 8 ∨ path = none ∨ path = some []) →
        disk_set_initial_image index path ini = (false, ini))
    ∧ (index < 8 → ∀ c cs, path = some (c :: cs) →
        disk_set_initial_image index path ini
          = (true, { disk_initial_index := index
                     disk_initial_path := (c :: cs).take (PATH_MAX - 1) })) := by
  obtain ⟨e1, e2⟩ := retro_load_game_disks_spec log_cb base_dir content_path
    content_ext file ini s
  refine ⟨e1, e2, ?_, ?_⟩
  · rintro (h | h | h)
    · simp [disk_set_initial_image, h]
    · unfold disk_set_initial_image
      rw [h]
      split_ifs <;> rfl
    · unfold disk_set_initial_image
      rw [h]
      split_ifs <;> rfl
  · intro h c cs hp
    have h8 : ¬ index ≥ 8 := by omega
    simp only [disk_set_initial_image, h8, if_false, hp]

/-- The playlist `a`, `b` in the directory `d`, with the initial image set to index 1
and path `d/b`: the media load gets `d/b` and the game starts on disk 1 of 2; with the
initial path `d/c`, which is not that of slot 1, it starts on disk 0 with `d/a`. -/
theorem retro_load_game_disks_sample :
    (retro_load_game_disks true ['d'] ['d', '/', 'x', '.', 'm', '3', 'u'] ['m', '3', 'u']
        (some ['a', '\n', 'b', '\n']) ⟨1, ['d', '/', 'b']⟩ disk_manager_one).map
        (fun r => (r.cd_index, r.media_path, r.state.disk_current_index, r.state.disk_count))
      = some (1, some ['d', '/', 'b'], 1, 2)
    ∧ (retro_load_game_disks true ['d'] ['d', '/', 'x', '.', 'm', '3', 'u'] ['m', '3', 'u']
        (some ['a', '\n', 'b', '\n']) ⟨1, ['d', '/', 'c']⟩ disk_manager_one).map
        (fun r => (r.cd_index, r.media_path, r.state.disk_current_index, r.state.disk_count))
      = some (0, some ['d', '/', 'a'], 0, 2) := by
  constructor <;> rfl

/-- The function `disk_set_image_index` keeps the disk count and leaves the current
index below 8 when it was. -/
theorem disk_set_image_index_bounds (e : cd_engine) (index : Nat) (s : disk_manager)
    (h : s.disk_current_index < 8) :
    (disk_set_image_index e index s).state.disk_count = s.disk_count
    ∧ (disk_set_image_index e index s).state.disk_current_index < 8 := by
  unfold disk_set_image_index
  by_cases h8 : index < 8
  · rw [dif_pos h8]
    cases (s.disks ⟨index, h8⟩).fname with
    | none => exact ⟨rfl, h8⟩
    | some f =>
      simp only []
      split_ifs
      · exact ⟨rfl, h⟩
      · exact ⟨rfl, h8⟩
      · exact ⟨rfl, h⟩
  · rw [dif_neg h8]
    exact ⟨rfl, h⟩

/-- Where `disk_replace_image_index` has a defined result, the disk count is kept and
the current index stays below 8. -/
theorem disk_replace_image_index_bounds (e : cd_engine) (index : Nat)
    (info : Option (List Char)) (s : disk_manager) (r : disk_result)
    (hi : s.disk_current_index < 8)
    (hr : disk_replace_image_index e index info s = some r) :
    r.state.disk_count = s.disk_count ∧ r.state.disk_current_index < 8 := by
  unfold disk_replace_image_index at hr
  by_cases h8 : index < 8
  · rw [dif_pos h8] at hr
    simp only [] at hr
    by_cases hfree : (s.disks ⟨index, h8⟩).fname.isSome = true
        ∨ (s.disks ⟨index, h8⟩).flabel.isSome = true
    · rw [if_pos hfree] at hr
      exact absurd hr (by simp)
    · rw [if_neg hfree] at hr
      simp only [Option.some.injEq] at hr
      rw [← hr]
      cases info with
      | none => exact ⟨rfl, hi⟩
      | some path =>
        simp only []
        by_cases hidx : index = s.disk_current_index
        · rw [if_pos hidx]
          exact disk_set_image_index_bounds e index _ hi
        · rw [if_neg hidx]
          exact ⟨rfl, hi⟩
  · rw [dif_neg h8] at hr
    simp only [Option.some.injEq] at hr
    rw [← hr]
    exact ⟨rfl, hi⟩

/-- The result of `disk_replace_image_index` is undefined only when the slot of the
index holds a path or a label, which the call then releases twice. -/
theorem disk_replace_image_index_undefined (e : cd_engine) (index : Nat)
    (info : Option (List Char)) (s : disk_manager)
    (hr : disk_replace_image_index e index info s = none) :
    ∃ h : index < 8, (s.disks ⟨index, h⟩).fname.isSome = true
      ∨ (s.disks ⟨index, h⟩).flabel.isSome = true := by
  unfold disk_replace_image_index at hr
  by_cases h8 : index < 8
  · rw [dif_pos h8] at hr
    simp only [] at hr
    by_cases hfree : (s.disks ⟨index, h8⟩).fname.isSome = true
        ∨ (s.disks ⟨index, h8⟩).flabel.isSome = true
    · exact ⟨h8, hfree⟩
    · rw [if_neg hfree] at hr
      exact absurd hr (by simp)
  · rw [dif_neg h8] at hr
    exact absurd hr (by simp)

/-- The bounds `disk_count <= 8` and `disk_current_index < 8` hold after `disk_init`,
and from a state in which they hold they hold again after `disk_set_eject_state`,
`disk_set_image_index`, `disk_add_image_index` and `read_m3u`, for every argument;
after `disk_replace_image_index` and after the disk set-up of `retro_load_game` they
hold wherever the call has a defined result, which it has unless the slot holds a path
or a label (released twice), respectively unless a playlist cannot be read while
`log_cb` is `NULL`; `disk_set_initial_image`, which does not touch the two variables,
keeps `disk_initial_index` below 8. -/
theorem disk_bounds_invariant (e : cd_engine) (s : disk_manager)
    (hc : s.disk_count ≤ 8) (hi : s.disk_current_index < 8) :
    (∀ s0 : disk_manager, (disk_init s0).disk_count ≤ 8 ∧ (disk_init s0).disk_current_index < 8)
    ∧ (∀ ejected, (disk_set_eject_state ejected s).2.disk_count ≤ 8
        ∧ (disk_set_eject_state ejected s).2.disk_current_index < 8)
    ∧ (∀ index, (disk_set_image_index e index s).state.disk_count ≤ 8
        ∧ (disk_set_image_index e index s).state.disk_current_index < 8)
    ∧ (∀ index info,
        (∃ r, disk_replace_image_index e index info s = some r
          ∧ r.state.disk_count ≤ 8 ∧ r.state.disk_current_index < 8)
        ∨ (disk_replace_image_index e index info s = none
          ∧ ∃ h : index < 8, (s.disks ⟨index, h⟩).fname.isSome = true
              ∨ (s.disks ⟨index, h⟩).flabel.isSome = true))
    ∧ ((disk_add_image_index s).2.disk_count ≤ 8
        ∧ (disk_add_image_index s).2.disk_current_index < 8)
    ∧ (∀ index path ini, ini.disk_initial_index < 8 →
        (disk_set_initial_image index path ini).2.disk_initial_index < 8)
    ∧ (∀ base_dir file, ∃ b r, read_m3u base_dir file s = some (b, r)
        ∧ r.disk_count ≤ 8 ∧ r.disk_current_index < 8)
    ∧ (∀ log_cb base_dir content_path content_ext file ini,
        (∃ r, retro_load_game_disks log_cb base_dir content_path content_ext file ini s = some r
          ∧ r.state.disk_count ≤ 8 ∧ r.state.disk_current_index < 8)
        ∨ (retro_load_game_disks log_cb base_dir content_path content_ext file ini s = none
          ∧ log_cb = false ∧ strcasestr_m3u content_ext = true
          ∧ ∃ s1, read_m3u base_dir file (disk_init s) = some (false, s1))) := by
  refine ⟨fun _ => ⟨by show 0 ≤ 8; omega, by show 0 < 8; omega⟩, fun _ => ⟨hc, hi⟩, ?_, ?_,
    ?_, ?_, ?_, ?_⟩
  · intro index
    obtain ⟨h1, h2⟩ := disk_set_image_index_bounds e index s hi
    exact ⟨by rw [h1]; exact hc, h2⟩
  · intro index info
    cases hr : disk_replace_image_index e index info s with
    | some r =>
      obtain ⟨h1, h2⟩ := disk_replace_image_index_bounds e index info s r hi hr
      exact Or.inl ⟨r, rfl, by rw [h1]; exact hc, h2⟩
    | none => exact Or.inr ⟨rfl, disk_replace_image_index_undefined e index info s hr⟩
  · unfold disk_add_image_index
    split_ifs with h
    · exact ⟨hc, hi⟩
    · exact ⟨by show s.disk_count + 1 ≤ 8; omega, hi⟩
  · intro index path ini hini
    unfold disk_set_initial_image
    split_ifs with h
    · exact hini
    · cases path with
      | none => exact hini
      | some p =>
        cases p with
        | nil => exact hini
        | cons c cs =>
          show index < 8
          omega
  · intro base_dir file
    obtain ⟨b, r, e1, _, _, _, e5, e6, _, _⟩ := read_m3u_inv base_dir file s hc
    exact ⟨b, r, e1, e5, by rw [e6]; exact hi⟩
  · intro log_cb base_dir content_path content_ext file ini
    obtain ⟨e1, e2⟩ := retro_load_game_disks_spec log_cb base_dir content_path
      content_ext file ini s
    cases hm : strcasestr_m3u content_ext with
    | false =>
      exact Or.inl ⟨_, e1 hm, by show 1 ≤ 8; omega, by show 0 < 8; omega⟩
    | true =>
      obtain ⟨b, s1, f1, f2, f3, f4⟩ := e2 hm
      obtain ⟨_, _, _, _, _, _, g6, _, _⟩ :=
        read_m3u_inv base_dir file (disk_init s) (by show (0 : Nat) ≤ 8; omega)
      cases b with
      | false =>
        cases log_cb with
        | false => exact Or.inr ⟨f3 rfl, rfl, rfl, s1, f1⟩
        | true =>
          refine Or.inl ⟨_, f3 rfl, f2, ?_⟩
          obtain ⟨b2, s2, h1, _, _, _, _, h6, _, _⟩ :=
            read_m3u_inv base_dir file (disk_init s) (by show (0 : Nat) ≤ 8; omega)
          rw [f1] at h1
          simp only [Option.some.injEq, Prod.mk.injEq] at h1
          show s1.disk_current_index < 8
          rw [h1.2, h6]
          show 0 < 8
          omega
      | true =>
        obtain ⟨r, p, k1, k2, _, _, k5, _, _⟩ := f4 rfl
        refine Or.inl ⟨r, k1, ?_, ?_⟩
        · rw [k2]
          exact f2
        · rw [k2]
          show r.cd_index < 8
          omega

/-- C29: `disk_replace_image_index(index, NULL)` on a slot that holds a path releases
the path twice and has no defined result, whatever the rest of the table; on a slot
that holds neither path nor label it returns true and changes nothing, and for an
index of 8 or more it returns false and changes nothing. -/
theorem disk_replace_image_index_null (e : cd_engine) (i : Fin 8) (k : Nat)
    (f : List Char) (l : Option (List Char)) (s : disk_manager) :
    disk_replace_image_index e i.val none
        { s with disks := Function.update s.disks i { fname := some f, flabel := l } } = none
    ∧ (∃ r, disk_replace_image_index e i.val none
          { s with disks := Function.update s.disks i { fname := none, flabel := none } }
          = some r
        ∧ r.ret = true
        ∧ r.state.disks = Function.update s.disks i { fname := none, flabel := none }
        ∧ r.state.disk_count = s.disk_count
        ∧ r.state.disk_current_index = s.disk_current_index
        ∧ r.state.disk_ejected = s.disk_ejected)
    ∧ disk_replace_image_index e (8 + k) none s
        = some { ret := false, state := s, calls := [] } := by
  refine ⟨?_, ?_, ?_⟩
  · simp only [disk_replace_image_index, i.isLt, dite_true, Fin.eta, Function.update_same,
      Option.isSome_some, true_or, if_true]
  · have hr : disk_replace_image_index e i.val none
          { s with disks := Function.update s.disks i { fname := none, flabel := none } }
        = some ⟨true,
            { s with disks := Function.update s.disks i { fname := none, flabel := none } },
            []⟩ := by
      simp only [disk_replace_image_index, i.isLt, dite_true, Fin.eta, Function.update_same,
        Option.isSome_none, Bool.false_eq_true, or_self, if_false, Function.update_idem]
    exact ⟨_, hr, rfl, rfl, rfl, rfl, rfl⟩
  · have h : ¬ (8 + k < 8) := by omega
    simp only [disk_replace_image_index, h, dite_false]

/-- C30: on a slot that holds the path block `a` and the label block `b`,
`disk_replace_image_index` calls `free` on `a` and on `b` before the new strings are
made and on both again at the end, so each is released twice; when `strdup` hands the
released blocks out again for the new strings, the last two calls release the strings
that the slot then holds. -/
theorem disk_replace_image_index_events_twice (i : Fin 8) (info : Bool)
    (new_fname new_flabel a b : Nat) (disks : Fin 8 → disks_ptrs) :
    (disk_replace_image_index_events i.val info new_fname new_flabel
        (Function.update disks i { fname := some a, flabel := some b })).1
      = [alloc_event.free a, alloc_event.free b]
        ++ (if info then [alloc_event.strdup new_fname, alloc_event.strdup new_flabel] else [])
        ++ [alloc_event.free a, alloc_event.free b]
    ∧ 2 ≤ (disk_replace_image_index_events i.val info new_fname new_flabel
        (Function.update disks i { fname := some a, flabel := some b })).1.count
          (alloc_event.free a)
    ∧ 2 ≤ (disk_replace_image_index_events i.val info new_fname new_flabel
        (Function.update disks i { fname := some a, flabel := some b })).1.count
          (alloc_event.free b)
    ∧ (disk_replace_image_index_events i.val true a b
        (Function.update disks i { fname := some a, flabel := some b })).2 i
      = { fname := some a, flabel := some b } := by
  have hev : (disk_replace_image_index_events i.val info new_fname new_flabel
        (Function.update disks i { fname := some a, flabel := some b })).1
      = [alloc_event.free a, alloc_event.free b]
        ++ (if info then [alloc_event.strdup new_fname, alloc_event.strdup new_flabel] else [])
        ++ [alloc_event.free a, alloc_event.free b] := by
    simp only [disk_replace_image_index_events, i.isLt, dite_true, Fin.eta,
      Function.update_same]
    cases info <;> rfl
  refine ⟨hev, ?_, ?_, ?_⟩
  · rw [hev]
    cases info <;> simp [List.count_cons] <;> split_ifs <;> omega
  · rw [hev]
    cases info <;> simp [List.count_cons] <;> split_ifs <;> omega
  · simp only [disk_replace_image_index_events, i.isLt, dite_true, Fin.eta, if_true,
      Function.update_same]

end Libretro
